import Mathlib

/-!
# Klotski solver (`pkg/klotski.go`): shallow embedding and verified properties

Modelling conventions.

* Go `int` coordinates, sizes and step counters are `Int`, and `+`, `-` on them are the
  exact operations: the embedding agrees with the source wherever the source's sums stay
  inside the 64-bit range `InInt64`. A property that quantifies over arbitrary integers
  carries `InInt64` of the sums the source computes as a hypothesis; the others fix the
  integers through their hypotheses (rectangles inside the 4x5 grid, a root at step 0).
* A Zobrist value (a Go `int` that is only ever combined with `^`) is the `Nat` holding its
  bit pattern; `^` is `Nat.xor`.
* A run-time panic (index out of range, nil dereference) is the result `none`.
* Go `error` values are `Option String` (`none` is `nil`).
* `map[int]bool` (the seen set) is the list of its keys; `map[int]State` is an association
  list with unique keys.
* `State.Parent` is a pointer to a private copy of the parent value, so it is the value.
-/

namespace Klotski

/-! ## Data model -/

/-- Block represents coordinates of a piece. -/
structure Block where
  X : Int
  Y : Int
deriving DecidableEq, Repr

/-- Move defines a movement of a piece / block. -/
structure Move where
  X : Int
  Y : Int
deriving DecidableEq, Repr

/-- Piece holds information about a piece on a board. -/
structure Piece where
  Label : String
  Width : Int
  Height : Int
  Blocks : List Block
deriving DecidableEq, Repr

/-- State of the board for each move, with a reference to the parent state. -/
structure State where
  Pieces : List Piece
  Hash : Nat
  Parent : Option State
  Step : Int
  MoveDirection : String
  MovePiece : Piece
deriving Repr

/-- Equality of states is decidable (the parent chain is finite). -/
def State.decEq : (a b : State) → Decidable (a = b)
  | ⟨ps, h, none, st, d, mp⟩, ⟨ps', h', none, st', d', mp'⟩ =>
      if hh : ps = ps' ∧ h = h' ∧ st = st' ∧ d = d' ∧ mp = mp' then
        isTrue (by obtain ⟨h1, h2, h3, h4, h5⟩ := hh; subst h1 h2 h3 h4 h5; rfl)
      else isFalse (by
        intro he; injection he with e1 e2 e3 e4 e5 e6; exact hh ⟨e1, e2, e4, e5, e6⟩)
  | ⟨ps, h, some p, st, d, mp⟩, ⟨ps', h', some p', st', d', mp'⟩ =>
      match State.decEq p p' with
      | isTrue hp =>
        if hh : ps = ps' ∧ h = h' ∧ st = st' ∧ d = d' ∧ mp = mp' then
          isTrue (by obtain ⟨h1, h2, h3, h4, h5⟩ := hh; subst h1 h2 h3 h4 h5 hp; rfl)
        else isFalse (by
          intro he; injection he with e1 e2 e3 e4 e5 e6; exact hh ⟨e1, e2, e4, e5, e6⟩)
      | isFalse hp => isFalse (by
          intro he; injection he with e1 e2 e3 e4 e5 e6; injection e3 with e3; exact hp e3)
  | ⟨_, _, none, _, _, _⟩, ⟨_, _, some _, _, _, _⟩ =>
      isFalse (by intro he; injection he with e1 e2 e3; cases e3)
  | ⟨_, _, some _, _, _, _⟩, ⟨_, _, none, _, _, _⟩ =>
      isFalse (by intro he; injection he with e1 e2 e3; cases e3)

instance : DecidableEq State := State.decEq

/-- The smallest value of Go's 64-bit `int`. -/
def minInt64 : Int := -9223372036854775808

/-- The largest value of Go's 64-bit `int`. -/
def maxInt64 : Int := 9223372036854775807

/-- The integer `v` is a value of Go's 64-bit `int`: an expression of the source whose
exact value satisfies this is computed without wrap-around. -/
def InInt64 (v : Int) : Prop := minInt64 ≤ v ∧ v ≤ maxInt64

instance (v : Int) : Decidable (InInt64 v) :=
  inferInstanceAs (Decidable (minInt64 ≤ v ∧ v ≤ maxInt64))

/-- The hash table `[][][]int`, indexed `[row][col][category]`. -/
abbrev ZTable := List (List (List Nat))

/-- The occupancy grid `[][]string`, indexed `[row][col]`. -/
abbrev Matrix := List (List String)

/-- Board: grid size, hash table, initial state, frontier and seen signatures. -/
structure Board where
  Width : Int
  Height : Int
  ZobristHash : ZTable
  State : Klotski.State
  States : List Klotski.State
  VisitedStatesHashes : List Nat
deriving DecidableEq

/-- Slice indexing `l[i]` with a Go `int` index; `none` is the out-of-range panic. -/
def index {α : Type} (l : List α) (i : Int) : Option α :=
  if i < 0 then none else l.get? i.toNat

/-- Slice assignment `l[i] = v`; `none` is the out-of-range panic. -/
def assign {α : Type} (l : List α) (i : Int) (v : α) : Option (List α) :=
  if i < 0 then none else if i.toNat < l.length then some (l.set i.toNat v) else none

/-! ## Moves -/

/-- Returns a list of possible moves: down, right, up, left. -/
def getMoves : List Move := [⟨0, 1⟩, ⟨1, 0⟩, ⟨0, -1⟩, ⟨-1, 0⟩]

/-- Returns string representation of a move. -/
def Move.getString (m : Move) : String :=
  if m.X = 0 ∧ m.Y > 0 then "down"
  else if m.X = 0 ∧ m.Y < 0 then "up"
  else if m.X > 0 ∧ m.Y = 0 then "right"
  else if m.X < 0 ∧ m.Y = 0 then "left"
  else ""

/-! ## Hash engine -/

/-- The local array `pieceTypes [2][2]int` of both hash functions. -/
def pieceTypes : List (List Nat) := [[4, 1], [3, 2]]

/-- The expression `pieceTypes[piece.Width-1][piece.Height-1]`. -/
def pieceTypeOf (piece : Piece) : Option Nat :=
  (index pieceTypes (piece.Width - 1)).bind (fun row => index row (piece.Height - 1))

/-- The expression `board.ZobristHash[y][x][c]`. -/
def tableAt (T : ZTable) (y x : Int) (c : Nat) : Option Nat :=
  (index T y).bind (fun row => (index row x).bind (fun cell => cell.get? c))

/-- One iteration of the inner loop of `GetZobristHash`. -/
def hashBlock (T : ZTable) (piece : Piece) (hash : Nat) (block : Block) : Option Nat :=
  (pieceTypeOf piece).bind (fun pieceType =>
    (tableAt T block.Y block.X pieceType).bind (fun v => some (hash ^^^ v)))

/-- GetZobristHash returns hash of a state. -/
def GetZobristHash (board : Board) (state : State) : Option Nat :=
  state.Pieces.foldlM
    (fun hash piece => piece.Blocks.foldlM (hashBlock board.ZobristHash piece) hash) 0

/-- One iteration of the loop of `getUpdatedZobristHash`: the four XORs in source order. -/
def updateBlock (T : ZTable) (pieceType : Nat) (move : Move) (hash : Nat) (block : Block) :
    Option Nat :=
  (tableAt T block.Y block.X pieceType).bind (fun a =>
  (tableAt T block.Y block.X 0).bind (fun b =>
  (tableAt T (block.Y + move.Y) (block.X + move.X) 0).bind (fun c =>
  (tableAt T (block.Y + move.Y) (block.X + move.X) pieceType).bind (fun d =>
    some ((((hash ^^^ a) ^^^ b) ^^^ c) ^^^ d)))))

/-- Returns updated Zobrist hash for a moved piece. -/
def getUpdatedZobristHash (board : Board) (state : State) (piece : Piece) (move : Move) :
    Option Nat :=
  (pieceTypeOf piece).bind (fun pieceType =>
    piece.Blocks.foldlM (updateBlock board.ZobristHash pieceType move) state.Hash)

/-! ## Board-state model -/

/-- The inner loop of `getPieceStartingBlock`: minimum x and y, starting from (cols, rows). -/
def minCorner (blocks : List Block) : Int × Int :=
  blocks.foldl
    (fun xy b => (if b.X < xy.1 then b.X else xy.1, if b.Y < xy.2 then b.Y else xy.2)) (4, 5)

/-- The outer loop of `getPieceStartingBlock` over `state.Pieces`. -/
def startingBlockLoop (label : String) : List Piece → Block × Option String
  | [] => (⟨0, 0⟩, some "Cannot find piece starting block")
  | p :: rest =>
    if p.Label = label then (⟨(minCorner p.Blocks).1, (minCorner p.Blocks).2⟩, none)
    else startingBlockLoop label rest

/-- Returns starting block (top left one) of a piece. -/
def getPieceStartingBlock (state : State) (piece : Piece) : Block × Option String :=
  startingBlockLoop piece.Label state.Pieces

/-- The 5x4 grid filled with "_". -/
def emptyMatrix : Matrix := List.replicate 5 (List.replicate 4 "_")

/-- The assignment `boardMatrix[y][x] = v`. -/
def setCell (m : Matrix) (y x : Int) (v : String) : Option Matrix :=
  (index m y).bind (fun row => (assign row x v).bind (fun row2 => assign m y row2))

/-- Returns a matrix for a given state. -/
def getMatrix (state : State) : Option Matrix :=
  state.Pieces.foldlM
    (fun m piece => piece.Blocks.foldlM (fun m2 block => setCell m2 block.Y block.X piece.Label) m)
    emptyMatrix

/-! ## Legality checker -/

/-- The expression `boardMatrix[y][x] == "_"`. -/
def cellFree (boardMatrix : Matrix) (y x : Int) : Option Bool :=
  (index boardMatrix y).bind (fun row => (index row x).bind (fun c => some (decide (c = "_"))))

/-- The values `a, a+1, ..., a+n-1` taken by a counting `for` loop. -/
def intRange (a : Int) : Nat → List Int
  | 0 => []
  | n + 1 => a :: intRange (a + 1) n

/-- A `for` loop of `canMove`: assign the variable `canMove`, break when it is false. -/
def canMoveLoop (check : Int → Option Bool) : List Int → Bool → Option Bool
  | [], canMove => some canMove
  | v :: rest, _ =>
    match check v with
    | none => none
    | some true => canMoveLoop check rest true
    | some false => some false

/-- Checks if a piece can be moved in a given direction. The sums
`startingBlock.Y + piece.Height`, `startingBlock.X + piece.Width` and the offsets
`startingBlock.Y - 1`, `startingBlock.X - 1` are exact: the embedding agrees with the source
where they are `InInt64`. -/
def canMove (_state : State) (piece : Piece) (boardMatrix : Matrix) (startingBlock : Block)
    (move : Move) : Option Bool :=
  if move.getString = "down" then
    canMoveLoop (fun x =>
        if startingBlock.Y + piece.Height ≤ 4 ∧ x ≤ 3
        then cellFree boardMatrix (startingBlock.Y + piece.Height) x else some false)
      (intRange startingBlock.X piece.Width.toNat) false
  else if move.getString = "right" then
    canMoveLoop (fun y =>
        if y ≤ 4 ∧ startingBlock.X + piece.Width ≤ 3
        then cellFree boardMatrix y (startingBlock.X + piece.Width) else some false)
      (intRange startingBlock.Y piece.Height.toNat) false
  else if move.getString = "up" then
    canMoveLoop (fun x =>
        if startingBlock.Y - 1 ≥ 0 ∧ x ≤ 3
        then cellFree boardMatrix (startingBlock.Y - 1) x else some false)
      (intRange startingBlock.X piece.Width.toNat) false
  else if move.getString = "left" then
    canMoveLoop (fun y =>
        if y ≤ 4 ∧ startingBlock.X - 1 ≥ 0
        then cellFree boardMatrix y (startingBlock.X - 1) else some false)
      (intRange startingBlock.Y piece.Height.toNat) false
  else some false

/-- Checks if a state is a final one. -/
def isFinal (state : State) : Bool :=
  state.Pieces.any (fun piece =>
    decide (piece.Label = "b") &&
      (decide ((getPieceStartingBlock state piece).1.Y = 3) &&
       decide ((getPieceStartingBlock state piece).1.X = 1)))

/-! ## Move application and expansion -/

/-- The zero value `State{}`. -/
def zeroState : State := ⟨[], 0, none, 0, "", ⟨"", 0, 0, []⟩⟩

/-- The piece built by `movePiece`: every block shifted by the move. -/
def shiftPiece (piece : Piece) (move : Move) : Piece :=
  { Label := piece.Label, Width := piece.Width, Height := piece.Height,
    Blocks := piece.Blocks.map (fun block => ⟨block.X + move.X, block.Y + move.Y⟩) }

/-- Moves a piece in a given direction.
Returns a new state or error if state been visited already. The counter `state.Step + 1` is
exact: the embedding agrees with the source where it is `InInt64`. -/
def movePiece (board : Board) (state : State) (pieceIdx : Int) (piece : Piece) (move : Move) :
    Option (State × Option String) :=
  (getUpdatedZobristHash board state piece move).bind (fun hash =>
    if hash ∈ board.VisitedStatesHashes then
      some (zeroState, some "State visited already")
    else
      (assign state.Pieces pieceIdx (shiftPiece piece move)).bind (fun newPieces =>
        some ({ Pieces := newPieces, Hash := hash, Parent := some state,
                Step := state.Step + 1, MoveDirection := move.getString,
                MovePiece := shiftPiece piece move }, none)))

/-- The statements `board.VisitedStatesHashes[h] = true; board.States = append(...)`. -/
def Board.record (board : Board) (s : Klotski.State) : Board :=
  { board with VisitedStatesHashes := s.Hash :: board.VisitedStatesHashes,
               States := board.States ++ [s] }

/-- The body of `if visited == false` for the first step: the same-direction lookahead,
run on the board that already holds `newState`. -/
def lookahead (board : Board) (newState : State) (pieceIdx : Int) (piece : Piece)
    (move : Move) : Option Board :=
  (getMatrix newState).bind (fun newStateMatrix =>
  (index newState.Pieces pieceIdx).bind (fun pieceInNewState =>
  (canMove newState pieceInNewState newStateMatrix
      (getPieceStartingBlock newState piece).1 move).bind (fun canMoveAgain =>
    if canMoveAgain then
      (movePiece board newState pieceIdx pieceInNewState move).bind (fun r =>
        if r.2 = none then
          if r.1.Hash ∈ board.VisitedStatesHashes then some board
          else some (board.record { r.1 with Step := r.1.Step - 1 })
        else some board)
    else some board)))

/-- The body of the loop over moves in `findNewStates`. -/
def tryMove (state : State) (stateMatrix : Matrix) (pieceIdx : Int) (piece : Piece)
    (startingBlock : Block) (board : Board) (move : Move) : Option Board :=
  (canMove state piece stateMatrix startingBlock move).bind (fun canMove1 =>
    if canMove1 then
      (movePiece board state pieceIdx piece move).bind (fun r =>
        if r.2 = none then
          if r.1.Hash ∈ board.VisitedStatesHashes then some board
          else lookahead (board.record r.1) r.1 pieceIdx piece move
        else some board)
    else some board)

/-- The loop `for _, move := range getMoves()`. -/
def movesLoop (state : State) (stateMatrix : Matrix) (pieceIdx : Int) (piece : Piece)
    (startingBlock : Block) : List Move → Board → Option Board
  | [], board => some board
  | move :: rest, board =>
    (tryMove state stateMatrix pieceIdx piece startingBlock board move).bind
      (movesLoop state stateMatrix pieceIdx piece startingBlock rest)

/-- The loop `for pieceIdx, piece := range state.Pieces`, from index `pieceIdx` on. -/
def piecesLoop (state : State) (stateMatrix : Matrix) : List Piece → Nat → Board → Option Board
  | [], _, board => some board
  | piece :: rest, pieceIdx, board =>
    (movesLoop state stateMatrix pieceIdx piece (getPieceStartingBlock state piece).1
        getMoves board).bind
      (piecesLoop state stateMatrix rest (pieceIdx + 1))

/-- Finds new states for all possible (and not visited) moves and adds them the board states. -/
def findNewStates (board : Board) (state : State) : Option Board :=
  (getMatrix state).bind (fun stateMatrix => piecesLoop state stateMatrix state.Pieces 0 board)

/-! ## Solve -/

/-- The assignment `uniqueStates[k] = s` on a `map[int]State`. -/
def mapInsert (m : List (Int × State)) (k : Int) (s : State) : List (Int × State) :=
  (k, s) :: m.filter (fun e => decide (e.1 ≠ k))

/-- The expression `uniqueStates[k]` (zero value when absent). -/
def mapGet (m : List (Int × State)) (k : Int) : State :=
  match m.find? (fun e => decide (e.1 = k)) with
  | some e => e.2
  | none => zeroState

/-- The coalescing test of the backward walk: `newState.MovePiece.Label ==
newState.Parent.MovePiece.Label && newState.MoveDirection == newState.Parent.MoveDirection`. -/
def sameMove (t p : State) : Prop :=
  t.MovePiece.Label = p.MovePiece.Label ∧ t.MoveDirection = p.MoveDirection

instance (t p : State) : Decidable (sameMove t p) := by
  unfold sameMove; infer_instance

/-- The backward walk `for end == false` of `Solve`; the fuel bounds the iterations. -/
def walk : Nat → State → List (Int × State) → Option (List (Int × State))
  | 0, _, _ => none
  | fuel + 1, newState, uniqueStates =>
    if newState.Parent ≠ none ∨ newState.Step > 0 then
      match newState.Parent with
      | none => none
      | some parent =>
        if sameMove newState parent then
          match parent.Parent with
          | none => none
          | some next => walk fuel next (mapInsert uniqueStates newState.Step newState)
        else walk fuel parent (mapInsert uniqueStates newState.Step newState)
    else some uniqueStates

/-- Length of the parent chain of a state. -/
def State.depth : State → Nat
  | ⟨_, _, none, _, _, _⟩ => 0
  | ⟨_, _, some p, _, _, _⟩ => p.depth + 1

/-- The block of `Solve` run on a final state: walk back, sort the step keys, emit. -/
def reconstruct (currentState : State) : Option (List State) :=
  (walk (currentState.depth + 1) currentState []).bind (fun uniqueStates =>
    some (((uniqueStates.map Prod.fst).insertionSort (fun a b => a ≤ b)).map
      (mapGet uniqueStates)))

/-- The statement `board.VisitedStatesHashes[h] = true`. -/
def Board.mark (board : Board) (h : Nat) : Board :=
  { board with VisitedStatesHashes := h :: board.VisitedStatesHashes }

/-- The frontier scan of `Solve` from index `idx`; the fuel bounds the iterations. -/
def solveLoop : Nat → Nat → Board → Option ((List Klotski.State × Option String) × Board)
  | 0, _, _ => none
  | fuel + 1, idx, board =>
    match board.States.get? idx with
    | none => some (([], some "Cannot solve"), board)
    | some currentState =>
      if isFinal currentState then
        (reconstruct currentState).bind (fun results =>
          some ((results, none), board.mark currentState.Hash))
      else
        (findNewStates (board.mark currentState.Hash) currentState).bind
          (solveLoop fuel (idx + 1))

/-- Solve finds a solution for the initial board state. -/
def Solve (fuel : Nat) (board : Board) :
    Option ((List Klotski.State × Option String) × Board) :=
  solveLoop fuel 0 board

/-! ## The documented starting layout (`initBoard` of the tests) -/

/-- The ten pieces of `initBoard`. -/
def initPieces : List Piece :=
  [ ⟨"a", 1, 2, [⟨0, 0⟩, ⟨0, 1⟩]⟩,
    ⟨"b", 2, 2, [⟨1, 0⟩, ⟨2, 0⟩, ⟨1, 1⟩, ⟨2, 1⟩]⟩,
    ⟨"c", 1, 2, [⟨3, 0⟩, ⟨3, 1⟩]⟩,
    ⟨"d", 1, 2, [⟨0, 2⟩, ⟨0, 3⟩]⟩,
    ⟨"e", 2, 1, [⟨1, 2⟩, ⟨2, 2⟩]⟩,
    ⟨"f", 1, 2, [⟨3, 2⟩, ⟨3, 3⟩]⟩,
    ⟨"g", 1, 1, [⟨1, 3⟩]⟩,
    ⟨"h", 1, 1, [⟨2, 3⟩]⟩,
    ⟨"i", 1, 1, [⟨0, 4⟩]⟩,
    ⟨"j", 1, 1, [⟨3, 4⟩]⟩ ]

/-- A root arrangement: no parent, step 0, zero `MovePiece` and `MoveDirection`. -/
def rootState (pieces : List Piece) (hash : Nat) : State :=
  ⟨pieces, hash, none, 0, "", ⟨"", 0, 0, []⟩⟩

/-- The root arrangement of `initBoard` carrying signature `hash`. -/
def initState (hash : Nat) : State := rootState initPieces hash

/-- The board of `initBoard` for a hash table `T`: the root signature is
`GetZobristHash`, the frontier holds only the root, the seen set is empty. -/
def initBoard (T : ZTable) : Option Board :=
  (GetZobristHash ⟨4, 5, T, initState 0, [], []⟩ (initState 0)).bind (fun h =>
    some ⟨4, 5, T, initState h, [initState h], []⟩)

/-- A concrete 5x4x5 table of 31-bit entries drawn from a linear congruential sequence. -/
def demoTable : ZTable :=
  (List.range 5).map (fun y => (List.range 4).map (fun x =>
    (List.range 5).map (fun c =>
      ((c + 5 * (x + 4 * y) + 1) * 1103515245 + 12345) % 2147483648)))

/-- The board `initBoard` builds over `demoTable`. -/
def demoBoard : Board := ⟨4, 5, demoTable, initState 933718361, [initState 933718361], []⟩

/-- The 1x1 piece `i` of the starting layout (index 8). -/
def pieceI : Piece := ⟨"i", 1, 1, [⟨0, 4⟩]⟩

/-! ## Definitions used to state and prove the properties -/

/-- XOR a table entry (or a panic) into a running hash (or a panic). -/
def accum (h : Option Nat) (o : Option Nat) : Option Nat :=
  h.bind (fun a => o.bind (fun v => some (a ^^^ v)))

/-- The table entry `GetZobristHash` reads for one block of a piece. -/
def blockTerm (T : ZTable) (piece : Piece) (block : Block) : Option Nat :=
  (pieceTypeOf piece).bind (fun c => tableAt T block.Y block.X c)

/-- The table entries `GetZobristHash` reads for a piece, in block order. -/
def pieceTerms (T : ZTable) (piece : Piece) : List (Option Nat) :=
  piece.Blocks.map (blockTerm T piece)

/-- The table entries `GetZobristHash` reads for a piece sequence, in loop order. -/
def stateTerms (T : ZTable) (pieces : List Piece) : List (Option Nat) :=
  pieces.flatMap (pieceTerms T)

/-- Two pieces with the same footprint holding the same blocks, in any order. -/
def SamePlacement (p q : Piece) : Prop :=
  p.Width = q.Width ∧ p.Height = q.Height ∧ p.Blocks.Perm q.Blocks

instance (p q : Piece) : Decidable (SamePlacement p q) := by
  unfold SamePlacement; infer_instance

/-- Cells of the `w` x `h` rectangle anchored at `(ax, ay)`, row by row. -/
def rectCells (ax ay : Int) (w h : Nat) : List Block :=
  (intRange ay h).flatMap (fun y => (intRange ax w).map (fun x => ⟨x, y⟩))

/-- The piece is a `Width` x `Height` rectangle anchored at `(ax, ay)` inside the 4x5 grid. -/
def Piece.IsRectAt (p : Piece) (ax ay : Int) : Prop :=
  1 ≤ p.Width ∧ 1 ≤ p.Height ∧ 0 ≤ ax ∧ ax + p.Width ≤ 4 ∧ 0 ≤ ay ∧ ay + p.Height ≤ 5 ∧
    p.Blocks.Perm (rectCells ax ay p.Width.toNat p.Height.toNat)

instance (p : Piece) (ax ay : Int) : Decidable (p.IsRectAt ax ay) := by
  unfold Piece.IsRectAt; infer_instance

/-- The piece is a `Width` x `Height` rectangle inside the 4x5 grid. -/
def Piece.InGrid (p : Piece) : Prop := ∃ ax ay, p.IsRectAt ax ay

/-- No block of `p` is a block of `q`. -/
def Piece.DisjointFrom (p q : Piece) : Prop := ∀ b ∈ p.Blocks, b ∉ q.Blocks

instance (p q : Piece) : Decidable (p.DisjointFrom q) := by
  unfold Piece.DisjointFrom; infer_instance

/-- Every piece is a rectangle inside the grid and the pieces are pairwise disjoint. -/
def RectsDisjoint (pieces : List Piece) : Prop :=
  (∀ p ∈ pieces, p.InGrid) ∧ pieces.Pairwise Piece.DisjointFrom

/-- The labels are pairwise different and none is the empty-cell marker "_". -/
def LabelsDistinct (pieces : List Piece) : Prop :=
  pieces.Pairwise (fun p q => p.Label ≠ q.Label) ∧ ∀ p ∈ pieces, p.Label ≠ "_"

instance (pieces : List Piece) : Decidable (LabelsDistinct pieces) := by
  unfold LabelsDistinct; infer_instance

/-- The cell lies inside `[0,4) x [0,5)`. -/
def Block.Inside (b : Block) : Prop := 0 ≤ b.X ∧ b.X < 4 ∧ 0 ≤ b.Y ∧ b.Y < 5

instance (b : Block) : Decidable b.Inside := by
  unfold Block.Inside; infer_instance

/-- The block shifted by a move. -/
def Block.shift (b : Block) (m : Move) : Block := ⟨b.X + m.X, b.Y + m.Y⟩

/-- Every cell of `p` shifted by `m` lies inside the grid and is not occupied by a piece of
the arrangement other than `p`. -/
def DestFree (pieces : List Piece) (p : Piece) (m : Move) : Prop :=
  ∀ b ∈ p.Blocks, (b.shift m).Inside ∧ ∀ q ∈ pieces, q ≠ p → b.shift m ∉ q.Blocks

instance (pieces : List Piece) (p : Piece) (m : Move) : Decidable (DestFree pieces p m) := by
  unfold DestFree; infer_instance

/-- The entry `boardMatrix[y][x]`. -/
def cellAt (M : Matrix) (y x : Int) : Option String :=
  (index M y).bind (fun row => index row x)

/-- The grid has 5 rows of 4 columns. -/
def Shape (M : Matrix) : Prop := M.length = 5 ∧ ∀ row ∈ M, row.length = 4

/-- Two arrangements used against the claim that `canMove` needs no label condition:
two disjoint 1x1 pieces carrying the same label. -/
def twinPieces : List Piece := [⟨"a", 1, 1, [⟨0, 0⟩]⟩, ⟨"a", 1, 1, [⟨3, 4⟩]⟩]

/-- The root arrangement over `twinPieces`. -/
def twinState : State := rootState twinPieces 0

/-- The second piece of `twinPieces`, in the bottom-right corner. -/
def twinSecond : Piece := ⟨"a", 1, 1, [⟨3, 4⟩]⟩

/-- The board after appending the arrangements `new` to the frontier, one `record` each. -/
def Board.extend (board : Board) (new : List Klotski.State) : Board :=
  { board with VisitedStatesHashes := (new.map (fun t => t.Hash)).reverse ++ board.VisitedStatesHashes,
               States := board.States ++ new }

/-- The value `getUpdatedZobristHash` computes, as a function of the table alone. -/
def updatedHash (T : ZTable) (state : State) (piece : Piece) (move : Move) : Option Nat :=
  (pieceTypeOf piece).bind (fun pieceType =>
    piece.Blocks.foldlM (updateBlock T pieceType move) state.Hash)

/-- The successor `movePiece` builds when the signature `hash` is unseen. -/
def stepState (s : State) (pieceIdx : Nat) (piece : Piece) (move : Move) (hash : Nat) : State :=
  { Pieces := s.Pieces.set pieceIdx (shiftPiece piece move), Hash := hash, Parent := some s,
    Step := s.Step + 1, MoveDirection := move.getString, MovePiece := shiftPiece piece move }

/-- The lookahead successor `findNewStates` appends: a second `movePiece` from the
single-step successor `s1`, with the step counter decremented. -/
def doubleState (s1 : State) (pieceIdx : Nat) (piece1 : Piece) (move : Move) (hash : Nat) :
    State :=
  { stepState s1 pieceIdx piece1 move hash with Step := s1.Step + 1 - 1 }

/-- The arrangements `findNewStates` can append while expanding `s` under table `T`:
a single-step successor, or a double-step (lookahead) successor built on one. -/
inductive Successor (T : ZTable) (s : State) : State → Prop
  | single (idx : Nat) (piece : Piece) (m : Move) (h : Nat) (M : Matrix) :
      s.Pieces.get? idx = some piece → m ∈ getMoves → getMatrix s = some M →
      canMove s piece M (getPieceStartingBlock s piece).1 m = some true →
      updatedHash T s piece m = some h →
      Successor T s (stepState s idx piece m h)
  | double (idx : Nat) (piece : Piece) (m : Move) (h : Nat) (M : Matrix) (M1 : Matrix)
      (h2 : Nat) :
      s.Pieces.get? idx = some piece → m ∈ getMoves → getMatrix s = some M →
      canMove s piece M (getPieceStartingBlock s piece).1 m = some true →
      updatedHash T s piece m = some h →
      getMatrix (stepState s idx piece m h) = some M1 →
      canMove (stepState s idx piece m h) (shiftPiece piece m) M1
        (getPieceStartingBlock (stepState s idx piece m h) piece).1 m = some true →
      updatedHash T (stepState s idx piece m h) (shiftPiece piece m) m = some h2 →
      Successor T s (doubleState (stepState s idx piece m h) idx (shiftPiece piece m) m h2)

/-- The arrangements `new` are appended with signatures that were unseen before and are
pairwise different. -/
def Fresh (board : Board) (new : List State) : Prop :=
  (new.map (fun t => t.Hash)).Nodup ∧ ∀ t ∈ new, t.Hash ∉ board.VisitedStatesHashes

/-- The outcomes of the lookahead run after appending the single-step successor `t1`. -/
def LookaheadOutcome (T : ZTable) (b : Board) (t1 : State) (idx : Nat) (piece : Piece)
    (m : Move) (b2 : Board) : Prop :=
  ∃ M1, getMatrix t1 = some M1 ∧
    ((canMove t1 (shiftPiece piece m) M1 (getPieceStartingBlock t1 piece).1 m = some false ∧
        b2 = b.extend [t1]) ∨
     (canMove t1 (shiftPiece piece m) M1 (getPieceStartingBlock t1 piece).1 m = some true ∧
        ∃ h2, updatedHash T t1 (shiftPiece piece m) m = some h2 ∧
          ((h2 ∈ (b.extend [t1]).VisitedStatesHashes ∧ b2 = b.extend [t1]) ∨
           (h2 ∉ (b.extend [t1]).VisitedStatesHashes ∧
              b2 = b.extend [t1, doubleState t1 idx (shiftPiece piece m) m h2]))))

/-- One run of `findNewStates` on `s` (or a part of it) takes `b` to `b2`: it appends
arrangements `new`, each a successor of `s` with a signature unseen when appended, each
with parent `s` or an appended arrangement; nothing else of the board changes. -/
def Expands (s : State) (b b2 : Board) : Prop :=
  ∃ new, b2 = b.extend new ∧ Fresh b new ∧ (∀ t ∈ new, Successor b.ZobristHash s t) ∧
    ∀ t ∈ new, t.Parent = some s ∨ ∃ s1 ∈ new, t.Parent = some s1

/-- Every later board rejects the move of piece `i` by `m` from `s`: the loop body leaves
any board with the same table and at least the seen set of `b` unchanged. -/
def Settled (s : State) (i : Nat) (p : Piece) (m : Move) (b : Board) : Prop :=
  ∀ M b3, getMatrix s = some M → b3.ZobristHash = b.ZobristHash →
    b.VisitedStatesHashes ⊆ b3.VisitedStatesHashes →
    tryMove s M i p (getPieceStartingBlock s p).1 b3 m = some b3

/-- The pieces `g`, `h`, `j` of the starting layout (indices 6, 7, 9). -/
def pieceG : Piece := ⟨"g", 1, 1, [⟨1, 3⟩]⟩

/-- The piece `h` of the starting layout (index 7). -/
def pieceH : Piece := ⟨"h", 1, 1, [⟨2, 3⟩]⟩

/-- The piece `j` of the starting layout (index 9). -/
def pieceJ : Piece := ⟨"j", 1, 1, [⟨3, 4⟩]⟩

/-- The six arrangements the expansion of the starting layout `r` appends, in order, when
their signatures are `h1 .. h6`: g down, h down, i right, i right twice, j left, j left
twice. -/
def initSuccessors (r : State) (h1 h2 h3 h4 h5 h6 : Nat) : List State :=
  [ stepState r 6 pieceG ⟨0, 1⟩ h1,
    stepState r 7 pieceH ⟨0, 1⟩ h2,
    stepState r 8 pieceI ⟨1, 0⟩ h3,
    doubleState (stepState r 8 pieceI ⟨1, 0⟩ h3) 8 (shiftPiece pieceI ⟨1, 0⟩) ⟨1, 0⟩ h4,
    stepState r 9 pieceJ ⟨-1, 0⟩ h5,
    doubleState (stepState r 9 pieceJ ⟨-1, 0⟩ h5) 9 (shiftPiece pieceJ ⟨-1, 0⟩) ⟨-1, 0⟩ h6 ]

/-- The signatures the code computes for those six arrangements under table `T`
(`none` where the computation panics). -/
def initSignatures (T : ZTable) (r : State) : List (Option Nat) :=
  [ updatedHash T r pieceG ⟨0, 1⟩,
    updatedHash T r pieceH ⟨0, 1⟩,
    updatedHash T r pieceI ⟨1, 0⟩,
    (updatedHash T r pieceI ⟨1, 0⟩).bind (fun h3 =>
      updatedHash T (stepState r 8 pieceI ⟨1, 0⟩ h3) (shiftPiece pieceI ⟨1, 0⟩) ⟨1, 0⟩),
    updatedHash T r pieceJ ⟨-1, 0⟩,
    (updatedHash T r pieceJ ⟨-1, 0⟩).bind (fun h5 =>
      updatedHash T (stepState r 9 pieceJ ⟨-1, 0⟩ h5) (shiftPiece pieceJ ⟨-1, 0⟩) ⟨-1, 0⟩) ]

/-- The board after expanding the root of `demoBoard`. -/
def demoExpanded : Board :=
  demoBoard.extend (initSuccessors demoBoard.State
    966256977 1185474897 703142361 657000913 627407065 732260561)

/-- The occupancy grid of the starting layout. -/
def initMatrix : Matrix :=
  [ ["a", "b", "b", "c"],
    ["a", "b", "b", "c"],
    ["d", "e", "e", "f"],
    ["d", "g", "h", "f"],
    ["i", "_", "_", "j"] ]

/-- The (label, move) pairs `canMove` accepts in the starting layout. -/
def initLegal : List (String × Move) :=
  [("g", ⟨0, 1⟩), ("h", ⟨0, 1⟩), ("i", ⟨1, 0⟩), ("j", ⟨-1, 0⟩)]

/-- The board after the scan of `Solve` has marked and expanded the `n` frontier entries at
indices `idx, idx+1, ..., idx+n-1` (`none` if an entry is missing or an expansion panics). -/
def scanned : Nat → Nat → Board → Option Board
  | 0, _, board => some board
  | n + 1, idx, board =>
    match board.States.get? idx with
    | none => none
    | some currentState =>
      (findNewStates (board.mark currentState.Hash) currentState).bind (scanned n (idx + 1))

/-- A one-piece board: the 1x1 piece `b` at (1,1), two cells above the goal anchor. -/
def tinyBoard : Board :=
  ⟨4, 5, demoTable, rootState [⟨"b", 1, 1, [⟨1, 1⟩]⟩] 893214975,
    [rootState [⟨"b", 1, 1, [⟨1, 1⟩]⟩] 893214975], []⟩

/-- The list `Solve` returns on `tinyBoard`. -/
def tinyResult : List State :=
  match Solve 3 tinyBoard with
  | some r => r.1.1
  | none => []

/-- The board `Solve` leaves on `tinyBoard`. -/
def tinySolved : Board :=
  match Solve 3 tinyBoard with
  | some r => r.2
  | none => tinyBoard

/-- The arrangements the backward walk of `Solve` records, the goal first. -/
def walkList : Nat → State → Option (List State)
  | 0, _ => none
  | fuel + 1, newState =>
    if newState.Parent ≠ none ∨ newState.Step > 0 then
      match newState.Parent with
      | none => none
      | some parent =>
        if sameMove newState parent then
          match parent.Parent with
          | none => none
          | some next => (walkList fuel next).map (fun l => newState :: l)
        else (walkList fuel parent).map (fun l => newState :: l)
    else some []

/-- The map after recording a list of arrangements under their step keys, in order. -/
def recordAll (m : List (Int × State)) (l : List State) : List (Int × State) :=
  l.foldl (fun acc s => mapInsert acc s.Step s) m

/-- One hop of the backward walk: from `t` to its parent, or to its grandparent when the
coalescing test succeeds. -/
def Hop (t n : State) : Prop :=
  ∃ p, t.Parent = some p ∧ ((sameMove t p ∧ p.Parent = some n) ∨ (¬ sameMove t p ∧ n = p))

/-- The walk from `t` records `l` and stops at `e`; consecutive nodes satisfy `rel`. -/
inductive Trail (rel : State → State → Prop) (e : State) : State → List State → Prop
  | stop : e.Parent = none → e.Step ≤ 0 → Trail rel e e []
  | hop (t n : State) (l : List State) : Hop t n → rel n t → Trail rel e n l →
      Trail rel e t (t :: l)

/-- The arrangements reachable from `root` by the two ways `findNewStates` builds states:
a single step from a node, or a lookahead step from a single-step node. `side` is a
condition recorded for every single step. -/
inductive Node (side : State → Nat → Piece → Move → Prop) (root : State) : State → Prop
  | root : Node side root root
  | single (p : State) (i : Nat) (piece : Piece) (m : Move) (h : Nat) :
      Node side root p → side p i piece m → Node side root (stepState p i piece m h)
  | double (s : State) (i : Nat) (piece : Piece) (m : Move) (h h2 : Nat) :
      Node side root (stepState s i piece m h) → side s i piece m →
      Node side root (doubleState (stepState s i piece m h) i (shiftPiece piece m) m h2)

/-- No condition on single steps. -/
def noSide : State → Nat → Piece → Move → Prop := fun _ _ _ _ => True

/-- The move a direction name stands for. -/
def moveOfName (d : String) : Move :=
  if d = "down" then ⟨0, 1⟩
  else if d = "right" then ⟨1, 0⟩
  else if d = "up" then ⟨0, -1⟩
  else if d = "left" then ⟨-1, 0⟩
  else ⟨0, 0⟩

/-- Shift the piece a number of cells in a direction. -/
def shiftCells (piece : Piece) (m : Move) : Nat → Piece
  | 0 => piece
  | k + 1 => shiftPiece (shiftCells piece m k) m

/-- Shift every piece carrying the label by `k` cells in direction `m`. -/
def shiftLabelled (pieces : List Piece) (label : String) (m : Move) (k : Nat) : List Piece :=
  pieces.map (fun p => if p.Label = label then shiftCells p m k else p)

/-- Replay a returned list on an arrangement: for each entry in order, shift the piece
labelled `entry.MovePiece.Label` in direction `entry.MoveDirection` by the paired number of
cells. -/
def replay (pieces : List Piece) (entries : List (State × Nat)) : List Piece :=
  entries.foldl
    (fun ps e => shiftLabelled ps e.1.MovePiece.Label (moveOfName e.1.MoveDirection) e.2) pieces

/-- The arrangement `e` is `prev` with the piece at one index, labelled `e.MovePiece.Label`,
shifted `k` cells in the move named `e.MoveDirection`. -/
def StepBetween (k : Nat) (prev e : State) : Prop :=
  ∃ i piece m, prev.Pieces.get? i = some piece ∧ m ∈ getMoves ∧
    piece.Label = e.MovePiece.Label ∧ m.getString = e.MoveDirection ∧
    e.Pieces = prev.Pieces.set i (shiftCells piece m k)

/-- The state is a single-step successor. -/
def IsSingle (t : State) : Prop :=
  ∃ p i piece m h, p.Pieces.get? i = some piece ∧ m ∈ getMoves ∧ t = stepState p i piece m h

/-- The condition recorded for single steps: the step moves a piece of the parent by one of
the four moves, and if the coalescing test of the walk holds between the new state and its
parent then the parent is not itself a single-step successor. -/
def coalesceSide : State → Nat → Piece → Move → Prop := fun p i piece m =>
  p.Pieces.get? i = some piece ∧ m ∈ getMoves ∧
    ((shiftPiece piece m).Label = p.MovePiece.Label → m.getString = p.MoveDirection →
      ¬ IsSingle p)

/-- After the lookahead of a single-step successor `t`: if its moved piece can move again
in the same direction, the signature of that second move is in the seen set. -/
def Blocked (T : ZTable) (t : State) (visited : List Nat) : Prop :=
  ∀ m ∈ getMoves, m.getString = t.MoveDirection → ∀ M1, getMatrix t = some M1 →
    canMove t t.MovePiece M1 (getPieceStartingBlock t t.MovePiece).1 m = some true →
    ∃ h2, updatedHash T t t.MovePiece m = some h2 ∧ h2 ∈ visited

/-- The frontier invariant behind the path property: every frontier arrangement is a node
and every single-step successor in the frontier has had its lookahead. -/
def PathInv (root : State) (b : Board) : Prop :=
  (∀ t ∈ b.States, Node coalesceSide root t) ∧
  ∀ t ∈ b.States, IsSingle t → Blocked b.ZobristHash t b.VisitedStatesHashes

/-- Part of a run of `findNewStates` takes `b` to `b2` keeping the table, growing the seen
set, and leaving every single-step successor it appends with its lookahead done. -/
def Looked (b b2 : Board) : Prop :=
  b2.ZobristHash = b.ZobristHash ∧ b.VisitedStatesHashes ⊆ b2.VisitedStatesHashes ∧
  ∀ t ∈ b2.States, t ∈ b.States ∨
    (IsSingle t → Blocked b.ZobristHash t b2.VisitedStatesHashes)

/-- The relation between consecutive arrangements of a returned list: the step counter
grows and one piece is shifted one or two cells. -/
def PathStep (n t : State) : Prop :=
  n.Step < t.Step ∧ (StepBetween 1 n t ∨ StepBetween 2 n t)

/-- Replay a returned list with one-cell shifts only, as the claim C4 has it. -/
def replayOneCell (pieces : List Piece) (res : List State) : List Piece :=
  replay pieces (res.map (fun e => (e, 1)))

/-- The table has the shape `InitZorbistHash` allocates: 5 rows of 4 columns of 5 entries. -/
def TableOK (T : ZTable) : Prop :=
  T.length = 5 ∧ ∀ row ∈ T, row.length = 4 ∧ ∀ cell ∈ row, cell.length = 5

instance (T : ZTable) : Decidable (TableOK T) := by
  unfold TableOK; infer_instance

/-- Every table entry is below `2 ^ N`. -/
def TableBelow (T : ZTable) (N : Nat) : Prop :=
  ∀ row ∈ T, ∀ cell ∈ row, ∀ v ∈ cell, v < 2 ^ N

/-- Labels, widths and heights of the pieces, in index order. -/
def shapes (pieces : List Piece) : List (String × Int × Int) :=
  pieces.map (fun p => (p.Label, p.Width, p.Height))

/-- A valid arrangement: pairwise disjoint rectangles inside the grid, of width and height
1 or 2, with pairwise different labels other than "_". -/
def Arrangement (pieces : List Piece) : Prop :=
  RectsDisjoint pieces ∧ LabelsDistinct pieces ∧ ∀ p ∈ pieces, p.Width ≤ 2 ∧ p.Height ≤ 2

/-- The piece at index `i` if `canMove` accepts shifting it by the unit move `m` in the
arrangement `pieces` (the legality test of `findNewStates`, which reads only the pieces). -/
def legalShift (pieces : List Piece) (i : Nat) (m : Move) : Option Piece :=
  (pieces.get? i).bind (fun p =>
    (getMatrix (rootState pieces 0)).bind (fun M =>
      (canMove (rootState pieces 0) p M
          (getPieceStartingBlock (rootState pieces 0) p).1 m).bind (fun c =>
        if c = true ∧ m ∈ getMoves then some p else none)))

/-- One legal unit move on an arrangement with its signature: the pieces `movePiece`
builds and the signature `getUpdatedZobristHash` computes. -/
def pathStep (T : ZTable) (ph : List Piece × Nat) (im : Nat × Move) :
    Option (List Piece × Nat) :=
  (legalShift ph.1 im.1 im.2).bind (fun p =>
    (updatedHash T (rootState ph.1 ph.2) p im.2).bind (fun h =>
      some (ph.1.set im.1 (shiftPiece p im.2), h)))

/-- A sequence of legal unit moves, from an arrangement with its signature. -/
def runPath (T : ZTable) (ms : List (Nat × Move)) (ph : List Piece × Nat) :
    Option (List Piece × Nat) :=
  ms.foldlM (pathStep T) ph

/-- The invariant of the scan of `Solve` started on a frontier holding only `root`. -/
structure ScanInv (T : ZTable) (N : Nat) (root : State) (b : Board) : Prop where
  table : b.ZobristHash = T
  path : PathInv root b
  reach : ∀ t ∈ b.States, ∃ ms,
    runPath T ms (root.Pieces, root.Hash) = some (t.Pieces, t.Hash)
  seen : ∀ h ∈ b.VisitedStatesHashes, ∃ t ∈ b.States, t.Hash = h
  front : ∃ rest, b.States = root :: rest ∧ (rest.map (fun t => t.Hash)).Nodup ∧
    ∀ t ∈ rest, t.Hash ∈ b.VisitedStatesHashes
  below : ∀ t ∈ b.States, t.Hash < 2 ^ N

/-- Footprint (width, height) of the first piece holding the cell, if any. -/
def shapeAt (pieces : List Piece) (c : Block) : Option (Int × Int) :=
  (pieces.find? (fun p => decide (c ∈ p.Blocks))).map (fun p => (p.Width, p.Height))

/-- The occupancy pattern of an arrangement: for each cell of the 4x5 grid, row by row, the
footprint of the piece covering it (labels are not part of the pattern). -/
def occupancy (pieces : List Piece) : List (Option (Int × Int)) :=
  (rectCells 0 0 4 5).map (shapeAt pieces)

/-- Distinct occupancy patterns reachable from the root by legal unit moves get distinct
signatures: two move sequences ending in the same signature end in the same pattern. -/
def Collisionless (T : ZTable) (root : State) : Prop :=
  ∀ ms ms2 P P2 h, runPath T ms (root.Pieces, root.Hash) = some (P, h) →
    runPath T ms2 (root.Pieces, root.Hash) = some (P2, h) → occupancy P = occupancy P2

/-- One table-free legal unit move: the pieces after shifting piece `im.1` by `im.2` when
`canMove` accepts it. -/
def shiftStep (pieces : List Piece) (im : Nat × Move) : Option (List Piece) :=
  (legalShift pieces im.1 im.2).bind (fun p => some (pieces.set im.1 (shiftPiece p im.2)))

/-- A sequence of legal unit moves on an arrangement, without signatures. -/
def runShifts (ms : List (Nat × Move)) (pieces : List Piece) : Option (List Piece) :=
  ms.foldlM shiftStep pieces

/-- A solution of the starting layout in 118 unit moves, each written (piece index, number
of the direction in the order of `getMoves`: 0 down, 1 right, 2 up, 3 left). -/
def solutionCode : List (Nat × Nat) :=
  [(6, 0), (9, 3), (5, 0), (4, 1), (3, 1), (8, 2), (6, 3), (3, 0), (4, 3), (4, 3), (7, 2),
   (7, 1), (9, 2), (9, 2), (3, 1), (6, 1), (8, 0), (4, 0), (9, 3), (9, 3), (7, 3), (7, 3),
   (3, 2), (5, 2), (6, 1), (6, 1), (8, 1), (8, 1), (4, 0), (7, 0), (7, 3), (3, 3), (5, 3),
   (2, 0), (2, 0), (1, 1), (0, 1), (9, 2), (9, 2), (7, 2), (7, 2), (3, 3), (0, 0), (0, 0),
   (1, 3), (2, 2), (2, 2), (5, 1), (8, 2), (8, 2), (6, 3), (6, 2), (4, 1), (4, 1), (0, 0),
   (3, 0), (8, 3), (8, 3), (1, 0), (9, 1), (9, 1), (7, 2), (7, 1), (8, 2), (8, 2), (3, 2),
   (3, 2), (0, 3), (6, 3), (6, 0), (1, 0), (7, 0), (9, 3), (2, 3), (5, 2), (5, 2), (1, 1),
   (7, 0), (7, 0), (9, 0), (8, 1), (3, 2), (0, 2), (6, 3), (7, 0), (1, 3), (5, 0), (5, 0),
   (2, 1), (8, 1), (9, 1), (3, 1), (0, 2), (0, 2), (1, 3), (9, 0), (9, 0), (8, 0), (8, 0),
   (2, 3), (5, 2), (5, 2), (8, 1), (9, 2), (4, 2), (7, 1), (7, 1), (6, 1), (6, 1), (1, 0),
   (9, 3), (9, 3), (8, 3), (8, 3), (4, 2), (6, 2), (6, 1), (1, 1)]

/-- The unit moves of `solutionCode`. -/
def solutionMoves : List (Nat × Move) :=
  solutionCode.map (fun x => (x.1, getMoves.getD x.2 ⟨0, 0⟩))

/-- The arrangement `solutionMoves` ends in: piece `b` anchored at column 1, row 3. -/
def solvedPieces : List Piece :=
  [ ⟨"a", 1, 2, [⟨0, 0⟩, ⟨0, 1⟩]⟩,
    ⟨"b", 2, 2, [⟨1, 3⟩, ⟨2, 3⟩, ⟨1, 4⟩, ⟨2, 4⟩]⟩,
    ⟨"c", 1, 2, [⟨2, 0⟩, ⟨2, 1⟩]⟩,
    ⟨"d", 1, 2, [⟨1, 0⟩, ⟨1, 1⟩]⟩,
    ⟨"e", 2, 1, [⟨2, 2⟩, ⟨3, 2⟩]⟩,
    ⟨"f", 1, 2, [⟨3, 0⟩, ⟨3, 1⟩]⟩,
    ⟨"g", 1, 1, [⟨3, 3⟩]⟩,
    ⟨"h", 1, 1, [⟨3, 4⟩]⟩,
    ⟨"i", 1, 1, [⟨1, 2⟩]⟩,
    ⟨"j", 1, 1, [⟨0, 2⟩]⟩ ]

/-- The table entry `T[b.Y][b.X][c]`, read as 0 where the table has no such entry. -/
def entry (T : ZTable) (b : Block) (c : Nat) : Nat := (tableAt T b.Y b.X c).getD 0

/-- The category `pieceTypes[Width-1][Height-1]` of a piece, read as 0 where undefined. -/
def category (p : Piece) : Nat := (pieceTypeOf p).getD 0

/-- XOR of a list of numbers. -/
def xorAll (l : List Nat) : Nat := l.foldl (fun a v => a ^^^ v) 0

/-- Every occupied cell of an arrangement with the category of the piece holding it. -/
def cells (pieces : List Piece) : List (Block × Nat) :=
  pieces.flatMap (fun p => p.Blocks.map (fun b => (b, category p)))

/-- XOR of the table entries of the occupied cells under their own category: the value
`GetZobristHash` accumulates. -/
def fullXor (T : ZTable) (pieces : List Piece) : Nat :=
  xorAll ((cells pieces).map (fun t => entry T t.1 t.2))

/-- The value K of an arrangement: XOR of the category-0 table entries over all occupied
cells. -/
def zeroXor (T : ZTable) (pieces : List Piece) : Nat :=
  xorAll ((cells pieces).map (fun t => entry T t.1 0))

/-- What a piece contributes to the stored signature: over its blocks, the entries under its
category XOR the category-0 entries. -/
def delta (T : ZTable) (p : Piece) : Nat :=
  xorAll (p.Blocks.map (fun b => entry T b (category p) ^^^ entry T b 0))

/-- The XOR of the contributions of all pieces. -/
def mixXor (T : ZTable) (pieces : List Piece) : Nat := xorAll (pieces.map (delta T))

/-- A table of the allocated shape whose entry for cell (x, y) and category c is c written
in the base-8 digit of the cell: `c * 8 ^ (4 * y + x)`. All entries are below `2 ^ 60`. -/
def codeTable : ZTable :=
  (List.range 5).map (fun y => (List.range 4).map (fun x =>
    (List.range 5).map (fun c => c * 8 ^ (4 * y + x))))

/-- The number of a cell of the grid, row by row. -/
def cellNo (b : Block) : Nat := 4 * b.Y.toNat + b.X.toNat

/-- The number whose base-8 digit at each listed position is the listed digit (XOR of the
shifted digits). -/
def code (l : List (Nat × Nat)) : Nat := xorAll (l.map (fun t => t.2 * 8 ^ t.1))

/-- The board `initBoard` builds over `codeTable`. -/
def codeBoard : Board :=
  ⟨4, 5, codeTable, initState 577641708744413841, [initState 577641708744413841], []⟩

/-- A one-piece board: the 1x1 piece `b` at (1,0), three cells above the goal anchor. -/
def hopBoard : Board :=
  ⟨4, 5, demoTable, rootState [⟨"b", 1, 1, [⟨1, 0⟩]⟩] 297746555,
    [rootState [⟨"b", 1, 1, [⟨1, 0⟩]⟩] 297746555], []⟩

/-- The list `Solve` returns on `hopBoard`. -/
def hopResult : List State :=
  match Solve 10 hopBoard with
  | some r => r.1.1
  | none => []

/-- The board `Solve` leaves on `hopBoard`. -/
def hopSolved : Board :=
  match Solve 10 hopBoard with
  | some r => r.2
  | none => hopBoard

/-- Every entry of the step map is stored under its own step counter, and the keys are
pairwise different. -/
def StepKeyed (m : List (Int × State)) : Prop :=
  (∀ e ∈ m, e.2.Step = e.1) ∧ (m.map Prod.fst).Nodup

/-- The piece has its anchor at `(x, y)`: `x` is the minimum column and `y` the minimum row
over its blocks. -/
def HasAnchor (p : Piece) (x y : Int) : Prop :=
  (∀ c ∈ p.Blocks, x ≤ c.X ∧ y ≤ c.Y) ∧ (∃ c ∈ p.Blocks, c.X = x) ∧ (∃ c ∈ p.Blocks, c.Y = y)

instance (p : Piece) (x y : Int) : Decidable (HasAnchor p x y) := by
  unfold HasAnchor; infer_instance

/-- The ten pieces of `finalBoard` in the tests: the 2x2 piece `b` on rows 2-3. -/
def finalPieces : List Piece :=
  [ ⟨"a", 1, 2, [⟨0, 0⟩, ⟨0, 1⟩]⟩,
    ⟨"b", 2, 2, [⟨1, 2⟩, ⟨2, 2⟩, ⟨1, 3⟩, ⟨2, 3⟩]⟩,
    ⟨"c", 1, 2, [⟨3, 0⟩, ⟨3, 1⟩]⟩,
    ⟨"d", 1, 2, [⟨0, 2⟩, ⟨0, 3⟩]⟩,
    ⟨"e", 2, 1, [⟨1, 1⟩, ⟨2, 1⟩]⟩,
    ⟨"f", 1, 2, [⟨3, 2⟩, ⟨3, 3⟩]⟩,
    ⟨"g", 1, 1, [⟨1, 0⟩]⟩,
    ⟨"h", 1, 1, [⟨2, 0⟩]⟩,
    ⟨"i", 1, 1, [⟨0, 4⟩]⟩,
    ⟨"j", 1, 1, [⟨3, 4⟩]⟩ ]

/-- Two 1x1 pieces labelled "b": the first at (0,0), the second at the goal anchor (1,3). -/
def twoGoalPieces : List Piece := [⟨"b", 1, 1, [⟨0, 0⟩]⟩, ⟨"b", 1, 1, [⟨1, 3⟩]⟩]

/-- The search space `b2` extends `b` append-only: the frontier of `b` is a prefix of the
frontier of `b2`, every seen signature of `b` is seen in `b2`, and the hash table, the
dimensions and the root field are those of `b`. -/
def AppendOnly (b b2 : Board) : Prop :=
  (∃ new, b2.States = b.States ++ new) ∧
  b.VisitedStatesHashes ⊆ b2.VisitedStatesHashes ∧
  b2.ZobristHash = b.ZobristHash ∧ b2.Width = b.Width ∧ b2.Height = b.Height ∧
  b2.State = b.State

/-- The board after one step of the scan of `Solve` on `demoBoard`: the root marked and
expanded. -/
def demoScanned : Board :=
  match scanned 1 0 demoBoard with
  | some b => b
  | none => demoBoard

/-- No move of a piece of the root passes the coalescing test of the backward walk against
the root itself: true when the root carries the zero `MoveDirection` or a `MovePiece` label
that no piece has. -/
def NoRootMove (root : State) : Prop :=
  ∀ piece ∈ root.Pieces, ∀ m ∈ getMoves,
    ¬ (piece.Label = root.MovePiece.Label ∧ m.getString = root.MoveDirection)

/-- Three disjoint rectangles, two of them labelled "b": a 1x1 at (0,0), a 2x2 at (1,1), and
the 1x1 piece `c` at (0,1). -/
def dupPieces : List Piece :=
  [ ⟨"b", 1, 1, [⟨0, 0⟩]⟩,
    ⟨"b", 2, 2, [⟨1, 1⟩, ⟨2, 1⟩, ⟨1, 2⟩, ⟨2, 2⟩]⟩,
    ⟨"c", 1, 1, [⟨0, 1⟩]⟩ ]

/-- The board over `dupPieces` with table `demoTable` and the root signature
`GetZobristHash` computes. -/
def dupBoard : Board :=
  ⟨4, 5, demoTable, rootState dupPieces 612524164, [rootState dupPieces 612524164], []⟩

/-- The list `Solve` returns on `dupBoard`. -/
def dupResult : List State :=
  match Solve 62 dupBoard with
  | some r => r.1.1
  | none => []

/-- The board `Solve` leaves on `dupBoard`. -/
def dupSolved : Board :=
  match Solve 62 dupBoard with
  | some r => r.2
  | none => dupBoard

/-- The relation between consecutive arrangements of a genuine path: the step counter grows
by one and one piece is shifted one or two cells. -/
def UnitStep (n t : State) : Prop :=
  t.Step = n.Step + 1 ∧ (StepBetween 1 n t ∨ StepBetween 2 n t)

/-- Two disjoint 1x1 pieces with different labels, the second labelled with the empty-cell
marker "_" of the occupancy grid. -/
def markerPieces : List Piece := [⟨"a", 1, 1, [⟨0, 0⟩]⟩, ⟨"_", 1, 1, [⟨1, 0⟩]⟩]

/-- A board over `markerPieces` with table `demoTable`. -/
def markerBoard : Board :=
  ⟨4, 5, demoTable, rootState markerPieces 0, [rootState markerPieces 0], []⟩

/-- The frontier after expanding the root of `markerBoard`. -/
def markerFrontier : List State :=
  match findNewStates markerBoard markerBoard.State with
  | some b => b.States
  | none => []

/-- The loop `for rowIdx := 0; rowIdx < n; rowIdx++ { buffer.WriteString("X ") }`. -/
def writeBorder (buffer : String) (n : Int) : String :=
  (intRange 0 n.toNat).foldl (fun buf _ => buf ++ "X ") buffer

/-- The loop over `colIdx` of `Print`: `buffer.WriteString(stateMatrix[rowIdx][colIdx] + " ")`;
`none` is the out-of-range panic of the fixed-size array. -/
def writeCells (stateMatrix : Matrix) (rowIdx width : Int) (buffer : String) : Option String :=
  (intRange 0 width.toNat).foldlM (fun buf colIdx =>
    (index stateMatrix rowIdx).bind (fun row =>
      (index row colIdx).bind (fun c => some (buf ++ (c ++ " "))))) buffer

/-- The loop over `rowIdx < board.Height` of `Print`. -/
def writeRows (stateMatrix : Matrix) (width height : Int) (buffer : String) : Option String :=
  (intRange 0 height.toNat).foldlM (fun buf rowIdx =>
    (writeCells stateMatrix rowIdx width (buf ++ "X ")).bind (fun buf2 =>
      some (buf2 ++ "X \n"))) buffer

/-- The last loop of `Print`: "Z " at positions 2 and 3, "X " elsewhere. -/
def writeBottom (buffer : String) (n : Int) : String :=
  (intRange 0 n.toNat).foldl
    (fun buf rowIdx => if rowIdx = 2 ∨ rowIdx = 3 then buf ++ "Z " else buf ++ "X ") buffer

/-- Print a given board state. The grid `stateMatrix` is filled by the same two loops as in
`getMatrix`. -/
def Print (board : Board) (state : State) : Option String :=
  (state.Pieces.foldlM
    (fun (m : Matrix) (piece : Piece) =>
      piece.Blocks.foldlM (fun m2 block => setCell m2 block.Y block.X piece.Label) m)
    emptyMatrix).bind (fun stateMatrix =>
      (writeRows stateMatrix board.Width board.Height
          (writeBorder "" (board.Width + 2) ++ "\n")).bind (fun buf =>
        some (writeBottom buf (board.Width + 2) ++ "\n")))

/-- One row of the rendering: "X ", each cell followed by a space, "X " and a newline. -/
def rowLine (row : List String) : String :=
  "X " ++ String.join (row.map (fun c => c ++ " ")) ++ "X \n"

/-- The rendering of a grid: top border, one line per row, bottom border. -/
def renderLines (M : Matrix) : List String :=
  "X X X X X X \n" :: (M.map rowLine ++ ["X X Z Z X X \n"])

/-- The number of "_" entries of a grid. -/
def emptyCount (M : Matrix) : Nat := M.flatten.count "_"

/-! ## Verified properties -/

/-! ### C1: incremental signature against full signature -/

/-- C1 (the code departs from the claim): on the board `initBoard` builds over `demoTable`
the root signature is `GetZobristHash` of the root, piece `i` may move right, and the
signature `getUpdatedZobristHash` computes for that move (703142361, stored by `movePiece`)
is not `GetZobristHash` of the arrangement `movePiece` builds (2127073720). -/
theorem updatedHash_ne_fullHash_initBoard :
    initBoard demoTable = some demoBoard ∧
    GetZobristHash demoBoard demoBoard.State = some demoBoard.State.Hash ∧
    (getMatrix demoBoard.State).bind (fun M =>
        canMove demoBoard.State pieceI M
          (getPieceStartingBlock demoBoard.State pieceI).1 ⟨1, 0⟩) = some true ∧
    getUpdatedZobristHash demoBoard demoBoard.State pieceI ⟨1, 0⟩ = some 703142361 ∧
    (movePiece demoBoard demoBoard.State 8 pieceI ⟨1, 0⟩).map (fun r => r.1.Hash) = some 703142361 ∧
    (movePiece demoBoard demoBoard.State 8 pieceI ⟨1, 0⟩).bind
        (fun r => GetZobristHash demoBoard r.1) = some 2127073720 := by
  decide

/-! ### C7: order independence of the full signature -/

theorem foldl_accum_none (l : List (Option Nat)) : l.foldl accum none = none := by
  induction l with
  | nil => rfl
  | cons a l ih => simpa [List.foldl_cons, accum] using ih

theorem accum_right_comm (z x y : Option Nat) : accum (accum z x) y = accum (accum z y) x := by
  cases z <;> cases x <;> cases y <;> simp [accum]
  rename_i a b c
  rw [Nat.xor_assoc, Nat.xor_assoc, Nat.xor_comm b c]

theorem hashBlock_eq_accum (T : ZTable) (piece : Piece) (h : Nat) (b : Block) :
    hashBlock T piece h b = accum (some h) (blockTerm T piece b) := by
  unfold hashBlock accum blockTerm
  cases pieceTypeOf piece <;> simp

theorem foldlM_hashBlock (T : ZTable) (piece : Piece) (blocks : List Block) (h : Nat) :
    blocks.foldlM (hashBlock T piece) h
      = (blocks.map (blockTerm T piece)).foldl accum (some h) := by
  induction blocks generalizing h with
  | nil => rfl
  | cons b bs ih =>
    rw [List.foldlM_cons, List.map_cons, List.foldl_cons, hashBlock_eq_accum]
    cases hb : accum (some h) (blockTerm T piece b) with
    | none => simp [foldl_accum_none]
    | some v => simpa using ih v

theorem foldlM_pieces (T : ZTable) (pieces : List Piece) (h : Nat) :
    pieces.foldlM (fun hash piece => piece.Blocks.foldlM (hashBlock T piece) hash) h
      = (stateTerms T pieces).foldl accum (some h) := by
  induction pieces generalizing h with
  | nil => rfl
  | cons p ps ih =>
    rw [List.foldlM_cons, stateTerms, List.flatMap_cons, List.foldl_append, foldlM_hashBlock]
    show _ = List.foldl accum (List.foldl accum (some h) (pieceTerms T p)) (stateTerms T ps)
    unfold pieceTerms
    cases hb : List.foldl accum (some h) (List.map (blockTerm T p) p.Blocks) with
    | none => simp [foldl_accum_none]
    | some v => simpa using ih v

theorem GetZobristHash_eq_foldl (board : Board) (s : State) :
    GetZobristHash board s = (stateTerms board.ZobristHash s.Pieces).foldl accum (some 0) :=
  foldlM_pieces _ _ _

theorem pieceTerms_perm (T : ZTable) {p q : Piece} (h : SamePlacement p q) :
    (pieceTerms T p).Perm (pieceTerms T q) := by
  obtain ⟨hw, hh, hb⟩ := h
  have e : blockTerm T p = blockTerm T q := by
    funext b; simp [blockTerm, pieceTypeOf, hw, hh]
  unfold pieceTerms
  rw [e]
  exact hb.map _

theorem stateTerms_perm_of_forall₂ (T : ZTable) {l l2 : List Piece}
    (h : List.Forall₂ SamePlacement l l2) : (stateTerms T l).Perm (stateTerms T l2) := by
  induction h with
  | nil => exact List.Perm.refl _
  | cons hpq _ ih =>
    simp only [stateTerms, List.flatMap_cons]
    exact (pieceTerms_perm T hpq).append ih

/-- C7: for every hash table, if the piece sequence of `t` is obtained from that of `s` by
permuting the pieces and reordering the blocks inside pieces (widths, heights and block sets
kept), `GetZobristHash` returns the same result on both (the same value, or the same
out-of-range panic). -/
theorem GetZobristHash_perm_invariant (board : Board) (s t : State) (l : List Piece)
    (hperm : s.Pieces.Perm l) (hsame : List.Forall₂ SamePlacement l t.Pieces) :
    GetZobristHash board s = GetZobristHash board t := by
  rw [GetZobristHash_eq_foldl, GetZobristHash_eq_foldl]
  have h1 : (stateTerms board.ZobristHash s.Pieces).Perm
      (stateTerms board.ZobristHash t.Pieces) :=
    (List.Perm.flatMap_right _ hperm).trans (stateTerms_perm_of_forall₂ _ hsame)
  exact List.Perm.foldl_eq' h1 (fun x _ y _ z => accum_right_comm z x y) _

/-- Witness for C7: the starting layout against the same layout with the pieces reversed
and the blocks of every piece reversed; both hash to 933718361 under `demoTable`. -/
theorem GetZobristHash_perm_invariant_witness :
    GetZobristHash demoBoard (initState 933718361) = some 933718361 ∧
    GetZobristHash demoBoard (initState 933718361)
      = GetZobristHash demoBoard
          (rootState (initPieces.reverse.map
            (fun p => { p with Blocks := p.Blocks.reverse })) 0) :=
  ⟨by decide,
   GetZobristHash_perm_invariant demoBoard (initState 933718361) _ initPieces.reverse
     (by decide) (by decide)⟩

/-! ### C2: the legality check -/

theorem mem_intRange (a : Int) (n : Nat) (v : Int) :
    v ∈ intRange a n ↔ a ≤ v ∧ v < a + n := by
  induction n generalizing a with
  | zero => simp [intRange]
  | succ n ih =>
    simp only [intRange, List.mem_cons, ih]
    push_cast
    omega

theorem mem_rectCells (ax ay : Int) (w h : Nat) (c : Block) :
    c ∈ rectCells ax ay w h ↔ (ax ≤ c.X ∧ c.X < ax + w) ∧ (ay ≤ c.Y ∧ c.Y < ay + h) := by
  unfold rectCells
  simp only [List.mem_flatMap, List.mem_map, mem_intRange]
  constructor
  · rintro ⟨y, hy, x, hx, rfl⟩
    exact ⟨hx, hy⟩
  · rintro ⟨hx, hy⟩
    exact ⟨c.Y, hy, c.X, hx, rfl⟩

theorem Piece.IsRectAt.mem_iff {p : Piece} {ax ay : Int} (h : p.IsRectAt ax ay) (c : Block) :
    c ∈ p.Blocks ↔ (ax ≤ c.X ∧ c.X < ax + p.Width) ∧ (ay ≤ c.Y ∧ c.Y < ay + p.Height) := by
  obtain ⟨hw, hh, _, _, _, _, hperm⟩ := h
  rw [hperm.mem_iff, mem_rectCells, Int.toNat_of_nonneg (by omega), Int.toNat_of_nonneg (by omega)]

theorem minFold_spec (g : Block → Int) (l : List Block) (x0 : Int) :
    l.foldl (fun x b => if g b < x then g b else x) x0 ≤ x0 ∧
    (∀ b ∈ l, l.foldl (fun x b => if g b < x then g b else x) x0 ≤ g b) ∧
    (l.foldl (fun x b => if g b < x then g b else x) x0 = x0 ∨
      ∃ b ∈ l, l.foldl (fun x b => if g b < x then g b else x) x0 = g b) := by
  induction l generalizing x0 with
  | nil => simp
  | cons b l ih =>
    simp only [List.foldl_cons, List.mem_cons, forall_eq_or_imp, exists_eq_or_imp]
    have hx : (if g b < x0 then g b else x0) ≤ x0 ∧ (if g b < x0 then g b else x0) ≤ g b ∧
        ((if g b < x0 then g b else x0) = x0 ∨ (if g b < x0 then g b else x0) = g b) := by
      split_ifs <;> omega
    generalize (if g b < x0 then g b else x0) = x1 at hx
    obtain ⟨h1, h2, h3⟩ := ih x1
    refine ⟨by omega, ⟨by omega, h2⟩, ?_⟩
    rcases h3 with h3 | h3
    · rcases hx.2.2 with e | e
      · exact Or.inl (h3.trans e)
      · exact Or.inr (Or.inl (h3.trans e))
    · exact Or.inr (Or.inr h3)

theorem minCorner_fst (l : List Block) (x0 y0 : Int) :
    (l.foldl (fun xy b =>
      ((if b.X < xy.1 then b.X else xy.1, if b.Y < xy.2 then b.Y else xy.2) : Int × Int))
      (x0, y0)).1 = l.foldl (fun x b => if b.X < x then b.X else x) x0 := by
  induction l generalizing x0 y0 with
  | nil => rfl
  | cons b l ih => simp only [List.foldl_cons]; exact ih _ _

theorem minCorner_snd (l : List Block) (x0 y0 : Int) :
    (l.foldl (fun xy b =>
      ((if b.X < xy.1 then b.X else xy.1, if b.Y < xy.2 then b.Y else xy.2) : Int × Int))
      (x0, y0)).2 = l.foldl (fun y b => if b.Y < y then b.Y else y) y0 := by
  induction l generalizing x0 y0 with
  | nil => rfl
  | cons b l ih => simp only [List.foldl_cons]; exact ih _ _

theorem minCorner_of_isRectAt {p : Piece} {ax ay : Int} (h : p.IsRectAt ax ay) :
    minCorner p.Blocks = (ax, ay) := by
  have hm := h.mem_iff
  obtain ⟨hw, hh, hx0, hx1, hy0, hy1, _⟩ := h
  have hc : (⟨ax, ay⟩ : Block) ∈ p.Blocks := by
    rw [hm]; simp; omega
  have e1 : (minCorner p.Blocks).1 = ax := by
    unfold minCorner
    rw [minCorner_fst]
    obtain ⟨h1, h2, h3⟩ := minFold_spec (fun b => b.X) p.Blocks 4
    have := h2 _ hc
    rcases h3 with h3 | ⟨b, hb, h3⟩
    · simp only at this; omega
    · have := (hm b).1 hb
      simp only at *; omega
  have e2 : (minCorner p.Blocks).2 = ay := by
    unfold minCorner
    rw [minCorner_snd]
    obtain ⟨h1, h2, h3⟩ := minFold_spec (fun b => b.Y) p.Blocks 5
    have := h2 _ hc
    rcases h3 with h3 | ⟨b, hb, h3⟩
    · simp only at this; omega
    · have := (hm b).1 hb
      simp only at *; omega
  exact Prod.ext e1 e2

theorem startingBlockLoop_of_mem (pieces : List Piece) (p : Piece)
    (hl : pieces.Pairwise (fun p q => p.Label ≠ q.Label)) (hp : p ∈ pieces) :
    startingBlockLoop p.Label pieces
      = (⟨(minCorner p.Blocks).1, (minCorner p.Blocks).2⟩, none) := by
  induction pieces with
  | nil => cases hp
  | cons q rest ih =>
    rw [List.pairwise_cons] at hl
    rcases List.mem_cons.1 hp with rfl | hp
    · simp [startingBlockLoop]
    · have : q.Label ≠ p.Label := hl.1 p hp
      simp only [startingBlockLoop, this, if_false]
      exact ih hl.2 hp

theorem index_set {α : Type} (l : List α) (n : Nat) (v : α) (j : Int) :
    index (l.set n v) j = if 0 ≤ j ∧ j.toNat = n ∧ n < l.length then some v else index l j := by
  unfold index
  by_cases hj : j < 0
  · have : ¬ (0 ≤ j ∧ j.toNat = n ∧ n < l.length) := by omega
    simp [hj, this]
  · simp only [hj, if_false, List.get?_eq_getElem?, List.getElem?_set]
    have : 0 ≤ j := by omega
    by_cases e : n = j.toNat
    · subst e
      by_cases hlt : j.toNat < l.length
      · simp [this, hlt]
      · simp [this, hlt]
        omega
    · have e2 : ¬ j.toNat = n := fun h => e h.symm
      simp [e, e2]

theorem index_of_lt {α : Type} (l : List α) (i : Int) (h0 : 0 ≤ i) (h1 : i.toNat < l.length) :
    index l i = some (l.get ⟨i.toNat, h1⟩) := by
  unfold index
  have : ¬ i < 0 := by omega
  simp [this, List.getElem?_eq_getElem h1]

theorem setCell_spec (M : Matrix) (y x : Int) (v : String) (hs : Shape M)
    (hy0 : 0 ≤ y) (hy1 : y < 5) (hx0 : 0 ≤ x) (hx1 : x < 4) :
    ∃ M2, setCell M y x v = some M2 ∧ Shape M2 ∧
      ∀ y2 x2, cellAt M2 y2 x2 = if y2 = y ∧ x2 = x then some v else cellAt M y2 x2 := by
  obtain ⟨hlen, hrows⟩ := hs
  have hyl : y.toNat < M.length := by omega
  have hrow : (M.get ⟨y.toNat, hyl⟩).length = 4 := hrows _ (List.get_mem _ _ _)
  have hxl : x.toNat < (M.get ⟨y.toNat, hyl⟩).length := by omega
  have hny : ¬ y < 0 := by omega
  have hnx : ¬ x < 0 := by omega
  refine ⟨M.set y.toNat ((M.get ⟨y.toNat, hyl⟩).set x.toNat v), ?_, ⟨?_, ?_⟩, ?_⟩
  · unfold setCell
    rw [index_of_lt M y hy0 hyl]
    simp only [Option.some_bind, assign, hny, hnx, if_false, hxl, hyl, if_true]
  · simp [hlen]
  · intro row hrow2
    rcases List.mem_or_eq_of_mem_set hrow2 with h | h
    · exact hrows _ h
    · rw [h, List.length_set]; exact hrow
  · intro y2 x2
    unfold cellAt
    rw [index_set]
    by_cases hy2 : y2 = y
    · subst hy2
      simp only [hy0, hyl, true_and, and_self, if_true, Option.some_bind, index_set, hxl,
        and_true]
      rw [index_of_lt M y2 hy0 hyl]
      simp only [Option.some_bind]
      by_cases hx2 : x2 = x
      · subst hx2; simp [hx0]
      · have : ¬ (0 ≤ x2 ∧ x2.toNat = x.toNat) := by omega
        simp [this, hx2]
    · have : ¬ (0 ≤ y2 ∧ y2.toNat = y.toNat ∧ y.toNat < M.length) := by omega
      simp [this, hy2]

theorem blocksFold_spec (label : String) (blocks : List Block) (M : Matrix) (hs : Shape M)
    (hin : ∀ b ∈ blocks, b.Inside) :
    ∃ M2, blocks.foldlM (fun m2 block => setCell m2 block.Y block.X label) M = some M2 ∧
      Shape M2 ∧
      ∀ y x, cellAt M2 y x = if (⟨x, y⟩ : Block) ∈ blocks then some label else cellAt M y x := by
  induction blocks generalizing M with
  | nil => exact ⟨M, rfl, hs, by simp⟩
  | cons b bs ih =>
    obtain ⟨hb0, hb1, hb2, hb3⟩ := hin b (List.mem_cons_self _ _)
    obtain ⟨M1, e1, s1, c1⟩ := setCell_spec M b.Y b.X label hs hb2 hb3 hb0 hb1
    obtain ⟨M2, e2, s2, c2⟩ := ih M1 s1 (fun c hc => hin c (List.mem_cons_of_mem _ hc))
    refine ⟨M2, ?_, s2, ?_⟩
    · rw [List.foldlM_cons, e1]; exact e2
    · intro y x
      rw [c2, c1]
      by_cases h1 : (⟨x, y⟩ : Block) ∈ bs
      · simp [h1]
      · by_cases h2 : y = b.Y ∧ x = b.X
        · obtain ⟨rfl, rfl⟩ := h2; simp
        · have : ¬ ((⟨x, y⟩ : Block) = b) := by
            intro e; apply h2; subst e; exact ⟨rfl, rfl⟩
          simp [h1, h2, this]

theorem piecesFold_spec (pieces : List Piece) (M : Matrix) (hs : Shape M)
    (hin : ∀ p ∈ pieces, ∀ b ∈ p.Blocks, b.Inside) :
    ∃ M2, pieces.foldlM (fun m piece =>
        piece.Blocks.foldlM (fun m2 block => setCell m2 block.Y block.X piece.Label) m) M
          = some M2 ∧ Shape M2 ∧
      ∀ y x, ((∀ p ∈ pieces, (⟨x, y⟩ : Block) ∉ p.Blocks) → cellAt M2 y x = cellAt M y x) ∧
        ((∃ p ∈ pieces, (⟨x, y⟩ : Block) ∈ p.Blocks) →
          ∃ p ∈ pieces, (⟨x, y⟩ : Block) ∈ p.Blocks ∧ cellAt M2 y x = some p.Label) := by
  induction pieces generalizing M with
  | nil => exact ⟨M, rfl, hs, by simp⟩
  | cons q qs ih =>
    obtain ⟨M1, e1, s1, c1⟩ := blocksFold_spec q.Label q.Blocks M hs
      (hin q (List.mem_cons_self _ _))
    obtain ⟨M2, e2, s2, c2⟩ := ih M1 s1 (fun p hp => hin p (List.mem_cons_of_mem _ hp))
    refine ⟨M2, ?_, s2, ?_⟩
    · rw [List.foldlM_cons, e1]; exact e2
    · intro y x
      obtain ⟨c2a, c2b⟩ := c2 y x
      constructor
      · intro hno
        rw [c2a (fun p hp => hno p (List.mem_cons_of_mem _ hp)), c1,
          if_neg (hno q (List.mem_cons_self _ _))]
      · intro hex
        by_cases hqs : ∃ p ∈ qs, (⟨x, y⟩ : Block) ∈ p.Blocks
        · obtain ⟨p, hp, hb, hc⟩ := c2b hqs
          exact ⟨p, List.mem_cons_of_mem _ hp, hb, hc⟩
        · have hq : (⟨x, y⟩ : Block) ∈ q.Blocks := by
            obtain ⟨p, hp, hb⟩ := hex
            rcases List.mem_cons.1 hp with rfl | hp
            · exact hb
            · exact absurd ⟨p, hp, hb⟩ hqs
          refine ⟨q, List.mem_cons_self _ _, hq, ?_⟩
          rw [c2a (fun p hp hb => hqs ⟨p, hp, hb⟩), c1, if_pos hq]

theorem shape_emptyMatrix : Shape emptyMatrix := by
  constructor
  · rfl
  · intro row hrow
    simp [emptyMatrix] at hrow
    rw [hrow]; rfl

theorem cellAt_emptyMatrix (y x : Int) (hy0 : 0 ≤ y) (hy1 : y < 5) (hx0 : 0 ≤ x) (hx1 : x < 4) :
    cellAt emptyMatrix y x = some "_" := by
  have hy : y = 0 ∨ y = 1 ∨ y = 2 ∨ y = 3 ∨ y = 4 := by omega
  have hx : x = 0 ∨ x = 1 ∨ x = 2 ∨ x = 3 := by omega
  rcases hy with rfl | rfl | rfl | rfl | rfl <;> rcases hx with rfl | rfl | rfl | rfl <;> rfl

theorem Piece.InGrid.inside {p : Piece} (h : p.InGrid) : ∀ b ∈ p.Blocks, b.Inside := by
  obtain ⟨ax, ay, hr⟩ := h
  intro b hb
  have := (hr.mem_iff b).1 hb
  obtain ⟨hw, hh, hx0, hx1, hy0, hy1, _⟩ := hr
  unfold Block.Inside; omega

/-- The grid of an arrangement of rectangles inside the grid. -/
theorem getMatrix_spec (s : State) (hin : ∀ p ∈ s.Pieces, p.InGrid)
    (hl : ∀ p ∈ s.Pieces, p.Label ≠ "_") :
    ∃ M, getMatrix s = some M ∧ Shape M ∧
      ∀ y x, 0 ≤ y → y < 5 → 0 ≤ x → x < 4 →
        cellFree M y x = some (decide (∀ p ∈ s.Pieces, (⟨x, y⟩ : Block) ∉ p.Blocks)) := by
  obtain ⟨M, e, hs, hc⟩ := piecesFold_spec s.Pieces emptyMatrix shape_emptyMatrix
    (fun p hp => (hin p hp).inside)
  refine ⟨M, e, hs, ?_⟩
  intro y x hy0 hy1 hx0 hx1
  obtain ⟨ca, cb⟩ := hc y x
  have hcf : cellFree M y x = (cellAt M y x).bind (fun c => some (decide (c = "_"))) := by
    unfold cellFree cellAt
    cases index M y <;> simp
  rw [hcf]
  by_cases hfree : ∀ p ∈ s.Pieces, (⟨x, y⟩ : Block) ∉ p.Blocks
  · rw [ca hfree, cellAt_emptyMatrix y x hy0 hy1 hx0 hx1]
    simp only [Option.some_bind, decide_True]
    rw [decide_eq_true hfree]
  · have hex : ∃ p ∈ s.Pieces, (⟨x, y⟩ : Block) ∈ p.Blocks := by
      push_neg at hfree; exact hfree
    obtain ⟨p, hp, hb, hcp⟩ := cb hex
    rw [hcp]
    simp only [Option.some_bind, hl p hp, decide_False, hfree]

theorem canMoveLoop_spec (check : Int → Option Bool) (P : Int → Bool) (l : List Int)
    (acc : Bool) (h : ∀ v ∈ l, check v = some (P v)) :
    canMoveLoop check l acc = some (if l = [] then acc else l.all P) := by
  induction l generalizing acc with
  | nil => rfl
  | cons v rest ih =>
    have hv := h v (List.mem_cons_self _ _)
    have hr := ih true (fun w hw => h w (List.mem_cons_of_mem _ hw))
    unfold canMoveLoop
    rw [hv]
    cases hP : P v with
    | false => simp [hP]
    | true =>
      simp only [hr, List.all_cons, hP, Bool.true_and]
      by_cases e : rest = []
      · subst e; simp
      · simp [e]

theorem intRange_ne_nil (a : Int) (n : Nat) (h : 1 ≤ n) : intRange a n ≠ [] := by
  cases n with
  | zero => omega
  | succ n => simp [intRange]

theorem RectsDisjoint.disjoint {pieces : List Piece} (h : RectsDisjoint pieces) {p q : Piece}
    (hp : p ∈ pieces) (hq : q ∈ pieces) (hne : q ≠ p) : ∀ b ∈ p.Blocks, b ∉ q.Blocks := by
  have hsym : Symmetric Piece.DisjointFrom := by
    intro a b hab c hc hca
    exact hab c hca hc
  exact h.2.forall hsym hp hq (fun e => hne e.symm)

theorem canMove_down (s : State) (p : Piece) (M : Matrix) (ax ay : Int)
    (hr : p.IsRectAt ax ay) (hp : p ∈ s.Pieces) (hd : RectsDisjoint s.Pieces)
    (hM : ∀ y x, 0 ≤ y → y < 5 → 0 ≤ x → x < 4 →
        cellFree M y x = some (decide (∀ q ∈ s.Pieces, (⟨x, y⟩ : Block) ∉ q.Blocks))) :
    canMove s p M ⟨ax, ay⟩ ⟨0, 1⟩ = some (decide (DestFree s.Pieces p ⟨0, 1⟩)) := by
  have hm := hr.mem_iff
  obtain ⟨hw, hh, hx0, hx1, hy0, hy1, _⟩ := hr
  have hs : (⟨0, 1⟩ : Move).getString = "down" := by decide
  unfold canMove
  rw [if_pos hs]
  dsimp only
  rw [canMoveLoop_spec _ (fun v => decide (ay + p.Height ≤ 4 ∧
      ∀ q ∈ s.Pieces, (⟨v, ay + p.Height⟩ : Block) ∉ q.Blocks))]
  · rw [if_neg (intRange_ne_nil _ _ (by omega))]
    congr 1
    rw [Bool.eq_iff_iff]
    simp only [List.all_eq_true, decide_eq_true_iff, mem_intRange,
      Int.toNat_of_nonneg (show (0 : Int) ≤ p.Width by omega)]
    constructor
    · intro h b hb
      have hbr := (hm b).1 hb
      obtain ⟨h4, hfree⟩ := h b.X hbr.1
      refine ⟨?_, fun q hq hne => ?_⟩
      · unfold Block.Inside Block.shift; dsimp only; omega
      · by_cases hlast : b.Y + 1 = ay + p.Height
        · have e : b.shift ⟨0, 1⟩ = ⟨b.X, ay + p.Height⟩ := by
            unfold Block.shift; simp [hlast]
          rw [e]; exact hfree q hq
        · have hin : b.shift ⟨0, 1⟩ ∈ p.Blocks := by
            rw [hm]; unfold Block.shift; dsimp only; omega
          exact hd.disjoint hp hq hne _ hin
    · intro h v hv
      have hb : (⟨v, ay + p.Height - 1⟩ : Block) ∈ p.Blocks := by
        rw [hm]; dsimp only; omega
      obtain ⟨hin, hq⟩ := h _ hb
      have e : (⟨v, ay + p.Height - 1⟩ : Block).shift ⟨0, 1⟩ = ⟨v, ay + p.Height⟩ := by
        unfold Block.shift; simp
      rw [e] at hin hq
      refine ⟨?_, fun q hq2 => ?_⟩
      · unfold Block.Inside at hin; dsimp only at hin; omega
      · by_cases hne : q = p
        · subst hne; rw [hm]; dsimp only; omega
        · exact hq q hq2 hne
  · intro v hv
    rw [mem_intRange, Int.toNat_of_nonneg (show (0 : Int) ≤ p.Width by omega)] at hv
    by_cases hc : ay + p.Height ≤ 4
    · simp only [show (ay + p.Height ≤ 4 ∧ v ≤ 3) by omega, if_true]
      rw [hM _ _ (by omega) (by omega) (by omega) (by omega)]
      simp [hc]
    · have : ¬ (ay + p.Height ≤ 4 ∧ v ≤ 3) := by omega
      simp [this, hc]

theorem canMove_right (s : State) (p : Piece) (M : Matrix) (ax ay : Int)
    (hr : p.IsRectAt ax ay) (hp : p ∈ s.Pieces) (hd : RectsDisjoint s.Pieces)
    (hM : ∀ y x, 0 ≤ y → y < 5 → 0 ≤ x → x < 4 →
        cellFree M y x = some (decide (∀ q ∈ s.Pieces, (⟨x, y⟩ : Block) ∉ q.Blocks))) :
    canMove s p M ⟨ax, ay⟩ ⟨1, 0⟩ = some (decide (DestFree s.Pieces p ⟨1, 0⟩)) := by
  have hm := hr.mem_iff
  obtain ⟨hw, hh, hx0, hx1, hy0, hy1, _⟩ := hr
  have hs1 : ¬ (⟨1, 0⟩ : Move).getString = "down" := by decide
  have hs : (⟨1, 0⟩ : Move).getString = "right" := by decide
  unfold canMove
  rw [if_neg hs1, if_pos hs]
  dsimp only
  rw [canMoveLoop_spec _ (fun v => decide (ax + p.Width ≤ 3 ∧
      ∀ q ∈ s.Pieces, (⟨ax + p.Width, v⟩ : Block) ∉ q.Blocks))]
  · rw [if_neg (intRange_ne_nil _ _ (by omega))]
    congr 1
    rw [Bool.eq_iff_iff]
    simp only [List.all_eq_true, decide_eq_true_iff, mem_intRange,
      Int.toNat_of_nonneg (show (0 : Int) ≤ p.Height by omega)]
    constructor
    · intro h b hb
      have hbr := (hm b).1 hb
      obtain ⟨h4, hfree⟩ := h b.Y hbr.2
      refine ⟨?_, fun q hq hne => ?_⟩
      · unfold Block.Inside Block.shift; dsimp only; omega
      · by_cases hlast : b.X + 1 = ax + p.Width
        · have e : b.shift ⟨1, 0⟩ = ⟨ax + p.Width, b.Y⟩ := by
            unfold Block.shift; simp [hlast]
          rw [e]; exact hfree q hq
        · have hin : b.shift ⟨1, 0⟩ ∈ p.Blocks := by
            rw [hm]; unfold Block.shift; dsimp only; omega
          exact hd.disjoint hp hq hne _ hin
    · intro h v hv
      have hb : (⟨ax + p.Width - 1, v⟩ : Block) ∈ p.Blocks := by
        rw [hm]; dsimp only; omega
      obtain ⟨hin, hq⟩ := h _ hb
      have e : (⟨ax + p.Width - 1, v⟩ : Block).shift ⟨1, 0⟩ = ⟨ax + p.Width, v⟩ := by
        unfold Block.shift; simp
      rw [e] at hin hq
      refine ⟨?_, fun q hq2 => ?_⟩
      · unfold Block.Inside at hin; dsimp only at hin; omega
      · by_cases hne : q = p
        · subst hne; rw [hm]; dsimp only; omega
        · exact hq q hq2 hne
  · intro v hv
    rw [mem_intRange, Int.toNat_of_nonneg (show (0 : Int) ≤ p.Height by omega)] at hv
    by_cases hc : ax + p.Width ≤ 3
    · simp only [show (v ≤ 4 ∧ ax + p.Width ≤ 3) by omega, if_true]
      rw [hM _ _ (by omega) (by omega) (by omega) (by omega)]
      simp [hc]
    · have : ¬ (v ≤ 4 ∧ ax + p.Width ≤ 3) := by omega
      simp [this, hc]

theorem canMove_up (s : State) (p : Piece) (M : Matrix) (ax ay : Int)
    (hr : p.IsRectAt ax ay) (hp : p ∈ s.Pieces) (hd : RectsDisjoint s.Pieces)
    (hM : ∀ y x, 0 ≤ y → y < 5 → 0 ≤ x → x < 4 →
        cellFree M y x = some (decide (∀ q ∈ s.Pieces, (⟨x, y⟩ : Block) ∉ q.Blocks))) :
    canMove s p M ⟨ax, ay⟩ ⟨0, -1⟩ = some (decide (DestFree s.Pieces p ⟨0, -1⟩)) := by
  have hm := hr.mem_iff
  obtain ⟨hw, hh, hx0, hx1, hy0, hy1, _⟩ := hr
  have hs1 : ¬ (⟨0, -1⟩ : Move).getString = "down" := by decide
  have hs2 : ¬ (⟨0, -1⟩ : Move).getString = "right" := by decide
  have hs : (⟨0, -1⟩ : Move).getString = "up" := by decide
  unfold canMove
  rw [if_neg hs1, if_neg hs2, if_pos hs]
  dsimp only
  rw [canMoveLoop_spec _ (fun v => decide (ay - 1 ≥ 0 ∧
      ∀ q ∈ s.Pieces, (⟨v, ay - 1⟩ : Block) ∉ q.Blocks))]
  · rw [if_neg (intRange_ne_nil _ _ (by omega))]
    congr 1
    rw [Bool.eq_iff_iff]
    simp only [List.all_eq_true, decide_eq_true_iff, mem_intRange,
      Int.toNat_of_nonneg (show (0 : Int) ≤ p.Width by omega)]
    constructor
    · intro h b hb
      have hbr := (hm b).1 hb
      obtain ⟨h4, hfree⟩ := h b.X hbr.1
      refine ⟨?_, fun q hq hne => ?_⟩
      · unfold Block.Inside Block.shift; dsimp only; omega
      · by_cases hlast : b.Y = ay
        · have e : b.shift ⟨0, -1⟩ = ⟨b.X, ay - 1⟩ := by
            unfold Block.shift; simp [hlast]; omega
          rw [e]; exact hfree q hq
        · have hin : b.shift ⟨0, -1⟩ ∈ p.Blocks := by
            rw [hm]; unfold Block.shift; dsimp only; omega
          exact hd.disjoint hp hq hne _ hin
    · intro h v hv
      have hb : (⟨v, ay⟩ : Block) ∈ p.Blocks := by
        rw [hm]; dsimp only; omega
      obtain ⟨hin, hq⟩ := h _ hb
      have e : (⟨v, ay⟩ : Block).shift ⟨0, -1⟩ = ⟨v, ay - 1⟩ := by
        unfold Block.shift; simp; omega
      rw [e] at hin hq
      refine ⟨?_, fun q hq2 => ?_⟩
      · unfold Block.Inside at hin; dsimp only at hin; omega
      · by_cases hne : q = p
        · subst hne; rw [hm]; dsimp only; omega
        · exact hq q hq2 hne
  · intro v hv
    rw [mem_intRange, Int.toNat_of_nonneg (show (0 : Int) ≤ p.Width by omega)] at hv
    by_cases hc : ay - 1 ≥ 0
    · simp only [show (ay - 1 ≥ 0 ∧ v ≤ 3) by omega, if_true]
      rw [hM _ _ (by omega) (by omega) (by omega) (by omega)]
      simp [hc]
    · have : ¬ (ay - 1 ≥ 0 ∧ v ≤ 3) := by omega
      simp [this, hc]

theorem canMove_left (s : State) (p : Piece) (M : Matrix) (ax ay : Int)
    (hr : p.IsRectAt ax ay) (hp : p ∈ s.Pieces) (hd : RectsDisjoint s.Pieces)
    (hM : ∀ y x, 0 ≤ y → y < 5 → 0 ≤ x → x < 4 →
        cellFree M y x = some (decide (∀ q ∈ s.Pieces, (⟨x, y⟩ : Block) ∉ q.Blocks))) :
    canMove s p M ⟨ax, ay⟩ ⟨-1, 0⟩ = some (decide (DestFree s.Pieces p ⟨-1, 0⟩)) := by
  have hm := hr.mem_iff
  obtain ⟨hw, hh, hx0, hx1, hy0, hy1, _⟩ := hr
  have hs1 : ¬ (⟨-1, 0⟩ : Move).getString = "down" := by decide
  have hs2 : ¬ (⟨-1, 0⟩ : Move).getString = "right" := by decide
  have hs3 : ¬ (⟨-1, 0⟩ : Move).getString = "up" := by decide
  have hs : (⟨-1, 0⟩ : Move).getString = "left" := by decide
  unfold canMove
  rw [if_neg hs1, if_neg hs2, if_neg hs3, if_pos hs]
  dsimp only
  rw [canMoveLoop_spec _ (fun v => decide (ax - 1 ≥ 0 ∧
      ∀ q ∈ s.Pieces, (⟨ax - 1, v⟩ : Block) ∉ q.Blocks))]
  · rw [if_neg (intRange_ne_nil _ _ (by omega))]
    congr 1
    rw [Bool.eq_iff_iff]
    simp only [List.all_eq_true, decide_eq_true_iff, mem_intRange,
      Int.toNat_of_nonneg (show (0 : Int) ≤ p.Height by omega)]
    constructor
    · intro h b hb
      have hbr := (hm b).1 hb
      obtain ⟨h4, hfree⟩ := h b.Y hbr.2
      refine ⟨?_, fun q hq hne => ?_⟩
      · unfold Block.Inside Block.shift; dsimp only; omega
      · by_cases hlast : b.X = ax
        · have e : b.shift ⟨-1, 0⟩ = ⟨ax - 1, b.Y⟩ := by
            unfold Block.shift; simp [hlast]; omega
          rw [e]; exact hfree q hq
        · have hin : b.shift ⟨-1, 0⟩ ∈ p.Blocks := by
            rw [hm]; unfold Block.shift; dsimp only; omega
          exact hd.disjoint hp hq hne _ hin
    · intro h v hv
      have hb : (⟨ax, v⟩ : Block) ∈ p.Blocks := by
        rw [hm]; dsimp only; omega
      obtain ⟨hin, hq⟩ := h _ hb
      have e : (⟨ax, v⟩ : Block).shift ⟨-1, 0⟩ = ⟨ax - 1, v⟩ := by
        unfold Block.shift; simp; omega
      rw [e] at hin hq
      refine ⟨?_, fun q hq2 => ?_⟩
      · unfold Block.Inside at hin; dsimp only at hin; omega
      · by_cases hne : q = p
        · subst hne; rw [hm]; dsimp only; omega
        · exact hq q hq2 hne
  · intro v hv
    rw [mem_intRange, Int.toNat_of_nonneg (show (0 : Int) ≤ p.Height by omega)] at hv
    by_cases hc : ax - 1 ≥ 0
    · simp only [show (v ≤ 4 ∧ ax - 1 ≥ 0) by omega, if_true]
      rw [hM _ _ (by omega) (by omega) (by omega) (by omega)]
      simp [hc]
    · have : ¬ (v ≤ 4 ∧ ax - 1 ≥ 0) := by omega
      simp [this, hc]

theorem canMoveLoop_all_false (check : Int → Option Bool) (l : List Int)
    (h : ∀ v, check v = some false) : canMoveLoop check l false = some false := by
  cases l with
  | nil => rfl
  | cons v rest => unfold canMoveLoop; rw [h v]

theorem inGrid_of_minCorner {p : Piece}
    (h : p.IsRectAt (minCorner p.Blocks).1 (minCorner p.Blocks).2) : p.InGrid :=
  ⟨_, _, h⟩

theorem getPieceStartingBlock_of_mem (s : State) (p : Piece) (ax ay : Int)
    (hl : s.Pieces.Pairwise (fun p q => p.Label ≠ q.Label)) (hp : p ∈ s.Pieces)
    (hr : p.IsRectAt ax ay) : getPieceStartingBlock s p = (⟨ax, ay⟩, none) := by
  unfold getPieceStartingBlock
  rw [startingBlockLoop_of_mem _ _ hl hp, minCorner_of_isRectAt hr]

/-- In an arrangement of disjoint rectangles with distinct labels the grid is built and
`canMove` at the anchor of a piece decides `DestFree`. -/
theorem canMove_decides_destFree (s : State) (p : Piece) (m : Move)
    (hv : RectsDisjoint s.Pieces) (hl : LabelsDistinct s.Pieces) (hp : p ∈ s.Pieces)
    (hm : m ∈ getMoves) :
    ∃ M, getMatrix s = some M ∧
      canMove s p M (getPieceStartingBlock s p).1 m
        = some (decide (DestFree s.Pieces p m)) := by
  obtain ⟨M, hM, _, hfree⟩ := getMatrix_spec s hv.1 hl.2
  obtain ⟨ax, ay, hr⟩ := hv.1 p hp
  refine ⟨M, hM, ?_⟩
  rw [getPieceStartingBlock_of_mem s p ax ay hl.1 hp hr]
  simp only [getMoves, List.mem_cons, List.mem_singleton, List.not_mem_nil, or_false] at hm
  rcases hm with rfl | rfl | rfl | rfl
  · exact canMove_down s p M ax ay hr hp hv hfree
  · exact canMove_right s p M ax ay hr hp hv hfree
  · exact canMove_up s p M ax ay hr hp hv hfree
  · exact canMove_left s p M ax ay hr hp hv hfree

/-- C2 (amended): for an arrangement of pairwise disjoint rectangles inside the 4x5 grid
whose labels are pairwise different and different from "_", every piece `p` of it and every
one of the four unit moves `m`: the grid is built without a panic and
`canMove(p, getMatrix(s), getPieceStartingBlock(p), m)` returns true exactly when every cell
of `p` shifted by `m` lies inside `[0,4) x [0,5)` and is not occupied by a piece other than
`p` (false otherwise). Moreover, whatever the grid, piece and arrangement, a move towards a
wall the rectangle at the given anchor already touches is rejected, provided the coordinate
the source tests (`a.Y + q.Height`, `a.X + q.Width`, `a.Y - 1`, `a.X - 1`) is a 64-bit `int`,
that is, the source computes it without wrap-around. -/
theorem canMove_iff_destFree (s : State) (p : Piece) (m : Move)
    (hv : RectsDisjoint s.Pieces) (hl : LabelsDistinct s.Pieces) (hp : p ∈ s.Pieces)
    (hm : m ∈ getMoves) :
    (∃ M, getMatrix s = some M ∧
      canMove s p M (getPieceStartingBlock s p).1 m
        = some (decide (DestFree s.Pieces p m))) ∧
    (∀ (t : State) (q : Piece) (M : Matrix) (a : Block),
      (5 ≤ a.Y + q.Height → InInt64 (a.Y + q.Height) →
        canMove t q M a ⟨0, 1⟩ = some false) ∧
      (4 ≤ a.X + q.Width → InInt64 (a.X + q.Width) →
        canMove t q M a ⟨1, 0⟩ = some false) ∧
      (a.Y ≤ 0 → InInt64 (a.Y - 1) → canMove t q M a ⟨0, -1⟩ = some false) ∧
      (a.X ≤ 0 → InInt64 (a.X - 1) → canMove t q M a ⟨-1, 0⟩ = some false)) := by
  constructor
  · exact canMove_decides_destFree s p m hv hl hp hm
  · intro t q M a
    refine ⟨fun h _ => ?_, fun h _ => ?_, fun h _ => ?_, fun h _ => ?_⟩
    · unfold canMove
      rw [if_pos (by decide)]
      apply canMoveLoop_all_false
      intro v
      have : ¬ (a.Y + q.Height ≤ 4 ∧ v ≤ 3) := by omega
      simp [this]
    · unfold canMove
      rw [if_neg (by decide), if_pos (by decide)]
      apply canMoveLoop_all_false
      intro v
      have : ¬ (v ≤ 4 ∧ a.X + q.Width ≤ 3) := by omega
      simp [this]
    · unfold canMove
      rw [if_neg (by decide), if_neg (by decide), if_pos (by decide)]
      apply canMoveLoop_all_false
      intro v
      have : ¬ (a.Y - 1 ≥ 0 ∧ v ≤ 3) := by omega
      rw [if_neg this]
    · unfold canMove
      rw [if_neg (by decide), if_neg (by decide), if_neg (by decide), if_pos (by decide)]
      apply canMoveLoop_all_false
      intro v
      have : ¬ (v ≤ 4 ∧ a.X - 1 ≥ 0) := by omega
      rw [if_neg this]

theorem rectsDisjoint_initPieces : RectsDisjoint initPieces :=
  ⟨fun p hp => inGrid_of_minCorner
      ((by decide : ∀ p ∈ initPieces,
          p.IsRectAt (minCorner p.Blocks).1 (minCorner p.Blocks).2) p hp),
   by decide⟩

/-- Witness for C2: in the starting layout piece `i` may move right (its destination cell
(1,4) is free) and the check returns true; and a 1x2 piece anchored at (0,3), whose lower
cell is on row 4, may not move down, whatever the grid holds: the tested row
`3 + 2 = 5` is a 64-bit `int`. -/
theorem canMove_iff_destFree_witness :
    RectsDisjoint initPieces ∧ LabelsDistinct initPieces ∧ pieceI ∈ initPieces ∧
    (⟨1, 0⟩ : Move) ∈ getMoves ∧ DestFree initPieces pieceI ⟨1, 0⟩ ∧
    (∃ M, getMatrix (initState 933718361) = some M ∧
      canMove (initState 933718361) pieceI M (getPieceStartingBlock (initState 933718361) pieceI).1 ⟨1, 0⟩
        = some (decide (DestFree (initState 933718361).Pieces pieceI ⟨1, 0⟩))) ∧
    InInt64 ((⟨0, 3⟩ : Block).Y + (⟨"j", 1, 2, [⟨0, 3⟩, ⟨0, 4⟩]⟩ : Piece).Height) ∧
    canMove (initState 933718361) ⟨"j", 1, 2, [⟨0, 3⟩, ⟨0, 4⟩]⟩ emptyMatrix ⟨0, 3⟩ ⟨0, 1⟩
      = some false :=
  ⟨rectsDisjoint_initPieces, by decide, by decide, by decide, by decide,
   (canMove_iff_destFree (initState 933718361) pieceI ⟨1, 0⟩ rectsDisjoint_initPieces
      (by decide) (by decide) (by decide)).1,
   by decide,
   ((canMove_iff_destFree (initState 933718361) pieceI ⟨1, 0⟩ rectsDisjoint_initPieces
      (by decide) (by decide) (by decide)).2 (initState 933718361)
      ⟨"j", 1, 2, [⟨0, 3⟩, ⟨0, 4⟩]⟩ emptyMatrix ⟨0, 3⟩).1 (by decide) (by decide)⟩

/-- Counterexample to C2 as stated: two disjoint 1x1 rectangles inside the grid carry the
same label "a"; for the second one, in the corner (3,4), `getPieceStartingBlock` returns the
anchor (0,0) of the first, so `canMove` accepts the move right although the destination
cell (4,4) is outside the grid. -/
theorem canMove_twin_label_counterexample :
    RectsDisjoint twinPieces ∧ twinSecond ∈ twinState.Pieces ∧ (⟨1, 0⟩ : Move) ∈ getMoves ∧
    (getMatrix twinState).bind (fun M =>
      canMove twinState twinSecond M (getPieceStartingBlock twinState twinSecond).1 ⟨1, 0⟩)
        = some true ∧
    ¬ DestFree twinState.Pieces twinSecond ⟨1, 0⟩ :=
  ⟨⟨fun p hp => inGrid_of_minCorner
      ((by decide : ∀ p ∈ twinPieces,
          p.IsRectAt (minCorner p.Blocks).1 (minCorner p.Blocks).2) p hp), by decide⟩,
   by decide, by decide, by decide, by decide⟩

/-! ### Expansion: what `findNewStates` appends -/

theorem getUpdatedZobristHash_eq (b : Board) (s : State) (p : Piece) (m : Move) :
    getUpdatedZobristHash b s p m = updatedHash b.ZobristHash s p m := rfl

theorem record_eq_extend (b : Board) (t : State) : b.record t = b.extend [t] := rfl

theorem extend_nil (b : Board) : b.extend [] = b := by
  cases b; simp [Board.extend]

theorem extend_extend (b : Board) (l1 l2 : List State) :
    (b.extend l1).extend l2 = b.extend (l1 ++ l2) := by
  cases b; simp [Board.extend]

theorem assign_natCast {α : Type} (l : List α) (i : Nat) (v : α) :
    assign l (i : Int) v = if i < l.length then some (l.set i v) else none := by
  unfold assign
  have : ¬ ((i : Int) < 0) := by omega
  simp [this]

theorem index_natCast {α : Type} (l : List α) (i : Nat) : index l (i : Int) = l.get? i := by
  unfold index
  have : ¬ ((i : Int) < 0) := by omega
  simp [this]

theorem movePiece_cases (b : Board) (s : State) (idx : Nat) (piece : Piece) (m : Move)
    (r : State × Option String) (h : movePiece b s idx piece m = some r) :
    ∃ hash, updatedHash b.ZobristHash s piece m = some hash ∧
      ((hash ∈ b.VisitedStatesHashes ∧ r = (zeroState, some "State visited already")) ∨
       (hash ∉ b.VisitedStatesHashes ∧ idx < s.Pieces.length ∧
          r = (stepState s idx piece m hash, none))) := by
  unfold movePiece at h
  rw [getUpdatedZobristHash_eq] at h
  cases hh : updatedHash b.ZobristHash s piece m with
  | none => rw [hh] at h; simp at h
  | some hash =>
    rw [hh] at h
    simp only [Option.some_bind] at h
    refine ⟨hash, rfl, ?_⟩
    by_cases hv : hash ∈ b.VisitedStatesHashes
    · rw [if_pos hv] at h
      exact Or.inl ⟨hv, (Option.some.inj h).symm⟩
    · rw [if_neg hv, assign_natCast] at h
      by_cases hi : idx < s.Pieces.length
      · rw [if_pos hi] at h
        simp only [Option.some_bind] at h
        exact Or.inr ⟨hv, hi, (Option.some.inj h).symm⟩
      · rw [if_neg hi] at h; simp at h

theorem lookahead_cases (b : Board) (s : State) (idx : Nat) (piece : Piece) (m : Move)
    (hash : Nat) (b2 : Board) (hi : idx < s.Pieces.length)
    (h : lookahead (b.record (stepState s idx piece m hash)) (stepState s idx piece m hash)
      idx piece m = some b2) :
    LookaheadOutcome b.ZobristHash b (stepState s idx piece m hash) idx piece m b2 := by
  unfold lookahead at h
  unfold LookaheadOutcome
  cases hM : getMatrix (stepState s idx piece m hash) with
  | none => rw [hM] at h; simp at h
  | some M1 =>
    rw [hM] at h
    simp only [Option.some_bind, index_natCast] at h
    have hidx : (stepState s idx piece m hash).Pieces.get? idx = some (shiftPiece piece m) := by
      simp [stepState, hi]
    rw [hidx] at h
    simp only [Option.some_bind] at h
    refine ⟨M1, rfl, ?_⟩
    cases hc : canMove (stepState s idx piece m hash) (shiftPiece piece m) M1
        (getPieceStartingBlock (stepState s idx piece m hash) piece).1 m with
    | none => rw [hc] at h; simp at h
    | some c =>
      rw [hc] at h
      simp only [Option.some_bind] at h
      cases c with
      | false =>
        simp only [Bool.false_eq_true, if_false] at h
        exact Or.inl ⟨rfl, (Option.some.inj h).symm⟩
      | true =>
        simp only [if_true] at h
        refine Or.inr ⟨rfl, ?_⟩
        cases hmp : movePiece (b.record (stepState s idx piece m hash))
            (stepState s idx piece m hash) idx (shiftPiece piece m) m with
        | none => rw [hmp] at h; simp at h
        | some r =>
          rw [hmp] at h
          simp only [Option.some_bind] at h
          obtain ⟨h2, hh2, hcase⟩ := movePiece_cases _ _ _ _ _ _ hmp
          refine ⟨h2, hh2, ?_⟩
          rcases hcase with ⟨hv, rfl⟩ | ⟨hv, _, rfl⟩
          · simp only [reduceCtorEq, if_false] at h
            exact Or.inl ⟨hv, (Option.some.inj h).symm⟩
          · simp only [if_true] at h
            have hv2 : (stepState (stepState s idx piece m hash) idx (shiftPiece piece m) m h2).Hash
                ∉ (b.record (stepState s idx piece m hash)).VisitedStatesHashes := hv
            rw [if_neg hv2] at h
            refine Or.inr ⟨hv, ?_⟩
            rw [← Option.some.inj h, record_eq_extend, record_eq_extend,
              extend_extend]
            rfl

theorem tryMove_cases (s : State) (M : Matrix) (idx : Nat) (piece : Piece) (sb : Block)
    (b : Board) (m : Move) (b2 : Board) (h : tryMove s M idx piece sb b m = some b2) :
    (canMove s piece M sb m = some false ∧ b2 = b) ∨
    (canMove s piece M sb m = some true ∧
      ∃ hash, updatedHash b.ZobristHash s piece m = some hash ∧
        ((hash ∈ b.VisitedStatesHashes ∧ b2 = b) ∨
         (hash ∉ b.VisitedStatesHashes ∧ idx < s.Pieces.length ∧
            LookaheadOutcome b.ZobristHash b (stepState s idx piece m hash) idx piece m b2))) := by
  unfold tryMove at h
  cases hc : canMove s piece M sb m with
  | none => rw [hc] at h; simp at h
  | some c =>
    rw [hc] at h
    simp only [Option.some_bind] at h
    cases c with
    | false =>
      simp only [Bool.false_eq_true, if_false] at h
      exact Or.inl ⟨rfl, (Option.some.inj h).symm⟩
    | true =>
      simp only [if_true] at h
      refine Or.inr ⟨rfl, ?_⟩
      cases hmp : movePiece b s idx piece m with
      | none => rw [hmp] at h; simp at h
      | some r =>
        rw [hmp] at h
        simp only [Option.some_bind] at h
        obtain ⟨hash, hh, hcase⟩ := movePiece_cases _ _ _ _ _ _ hmp
        refine ⟨hash, hh, ?_⟩
        rcases hcase with ⟨hv, rfl⟩ | ⟨hv, hi, rfl⟩
        · simp only [reduceCtorEq, if_false] at h
          exact Or.inl ⟨hv, (Option.some.inj h).symm⟩
        · simp only [if_true] at h
          have hv2 : (stepState s idx piece m hash).Hash ∉ b.VisitedStatesHashes := hv
          rw [if_neg hv2] at h
          exact Or.inr ⟨hv, hi, lookahead_cases b s idx piece m hash b2 hi h⟩

theorem movesLoop_induct (s : State) (M : Matrix) (idx : Nat) (piece : Piece) (sb : Block)
    (R : Board → Board → Prop) (Q : Move → Board → Prop)
    (hrefl : ∀ b, R b b) (htrans : ∀ a b c, R a b → R b c → R a c)
    (hQ : ∀ m b b2, Q m b → R b b2 → Q m b2) (moves : List Move)
    (hstep : ∀ m ∈ moves, ∀ b b1, tryMove s M idx piece sb b m = some b1 → R b b1 ∧ Q m b1)
    (b b2 : Board) (h : movesLoop s M idx piece sb moves b = some b2) :
    R b b2 ∧ ∀ m ∈ moves, Q m b2 := by
  induction moves generalizing b with
  | nil =>
    simp only [movesLoop, Option.some.injEq] at h
    subst h
    exact ⟨hrefl b, by simp⟩
  | cons m rest ih =>
    unfold movesLoop at h
    cases h1 : tryMove s M idx piece sb b m with
    | none => rw [h1] at h; simp at h
    | some b1 =>
      rw [h1] at h
      simp only [Option.some_bind] at h
      obtain ⟨r1, q1⟩ := hstep m (List.mem_cons_self _ _) b b1 h1
      obtain ⟨r2, q2⟩ := ih (fun m2 hm2 => hstep m2 (List.mem_cons_of_mem _ hm2)) b1 h
      refine ⟨htrans _ _ _ r1 r2, ?_⟩
      intro m2 hm2
      rcases List.mem_cons.1 hm2 with rfl | hm2
      · exact hQ _ _ _ q1 r2
      · exact q2 m2 hm2

theorem piecesLoop_induct (s : State) (M : Matrix)
    (R : Board → Board → Prop) (Q : Nat → Piece → Move → Board → Prop)
    (hrefl : ∀ b, R b b) (htrans : ∀ a b c, R a b → R b c → R a c)
    (hQ : ∀ i p m b b2, Q i p m b → R b b2 → Q i p m b2)
    (hstep : ∀ i p m b b1, s.Pieces.get? i = some p → m ∈ getMoves →
      tryMove s M i p (getPieceStartingBlock s p).1 b m = some b1 → R b b1 ∧ Q i p m b1)
    (l : List Piece) (k : Nat) (hl : ∀ j p, l.get? j = some p → s.Pieces.get? (k + j) = some p)
    (b b2 : Board) (h : piecesLoop s M l k b = some b2) :
    R b b2 ∧ ∀ j p m, l.get? j = some p → m ∈ getMoves → Q (k + j) p m b2 := by
  induction l generalizing b k with
  | nil =>
    simp only [piecesLoop, Option.some.injEq] at h
    subst h
    exact ⟨hrefl b, by simp⟩
  | cons p rest ih =>
    unfold piecesLoop at h
    cases h1 : movesLoop s M k p (getPieceStartingBlock s p).1 getMoves b with
    | none => rw [h1] at h; simp at h
    | some b1 =>
      rw [h1] at h
      simp only [Option.some_bind] at h
      have hp : s.Pieces.get? k = some p := by simpa using hl 0 p (by simp)
      obtain ⟨r1, q1⟩ := movesLoop_induct s M k p _ R (Q k p) hrefl htrans (hQ k p) getMoves
        (fun m hm b b1 hb => hstep k p m b b1 hp hm hb) b b1 h1
      obtain ⟨r2, q2⟩ := ih (k + 1)
        (fun j q hq => by
          have := hl (j + 1) q (by simpa using hq)
          rwa [show k + (j + 1) = k + 1 + j by omega] at this) b1 h
      refine ⟨htrans _ _ _ r1 r2, ?_⟩
      intro j q m hq hm
      cases j with
      | zero =>
        simp only [List.get?_cons_zero, Option.some.injEq] at hq
        subst hq
        exact hQ _ _ _ _ _ (q1 m hm) r2
      | succ j =>
        have := q2 j q m (by simpa using hq) hm
        rwa [show k + 1 + j = k + (j + 1) by omega] at this

/-- Induction over one run of `findNewStates`: a preorder `R` kept by every loop body and a
property `Q` of each (index, piece, move) established by its body and kept along `R`. -/
theorem findNewStates_induct (s : State)
    (R : Board → Board → Prop) (Q : Nat → Piece → Move → Board → Prop)
    (hrefl : ∀ b, R b b) (htrans : ∀ a b c, R a b → R b c → R a c)
    (hQ : ∀ i p m b b2, Q i p m b → R b b2 → Q i p m b2)
    (hstep : ∀ M i p m b b1, getMatrix s = some M → s.Pieces.get? i = some p → m ∈ getMoves →
      tryMove s M i p (getPieceStartingBlock s p).1 b m = some b1 → R b b1 ∧ Q i p m b1)
    (b b2 : Board) (h : findNewStates b s = some b2) :
    R b b2 ∧ ∀ i p m, s.Pieces.get? i = some p → m ∈ getMoves → Q i p m b2 := by
  unfold findNewStates at h
  cases hM : getMatrix s with
  | none => rw [hM] at h; simp at h
  | some M =>
    rw [hM] at h
    simp only [Option.some_bind] at h
    obtain ⟨r, q⟩ := piecesLoop_induct s M R Q hrefl htrans hQ (hstep M · · · · · hM)
      s.Pieces 0 (fun j p hj => by simpa using hj) b b2 h
    exact ⟨r, fun i p m hp hm => by simpa using q i p m hp hm⟩

theorem extend_table (b : Board) (l : List State) : (b.extend l).ZobristHash = b.ZobristHash :=
  rfl

theorem extend_states (b : Board) (l : List State) : (b.extend l).States = b.States ++ l := rfl

theorem extend_visited (b : Board) (l : List State) :
    (b.extend l).VisitedStatesHashes
      = (l.map (fun t => t.Hash)).reverse ++ b.VisitedStatesHashes := rfl

theorem expands_refl (s : State) (b : Board) : Expands s b b :=
  ⟨[], (extend_nil b).symm, ⟨by simp, by simp⟩, by simp, by simp⟩

theorem expands_trans {s : State} {a b c : Board} (h1 : Expands s a b) (h2 : Expands s b c) :
    Expands s a c := by
  obtain ⟨n1, rfl, ⟨nd1, f1⟩, s1, p1⟩ := h1
  obtain ⟨n2, rfl, ⟨nd2, f2⟩, s2, p2⟩ := h2
  refine ⟨n1 ++ n2, extend_extend _ _ _, ⟨?_, ?_⟩, ?_, ?_⟩
  · rw [List.map_append, List.nodup_append]
    refine ⟨nd1, nd2, ?_⟩
    intro x hx1 hx2
    obtain ⟨t, ht, rfl⟩ := List.mem_map.1 hx2
    apply f2 t ht
    rw [extend_visited]
    exact List.mem_append_left _ (List.mem_reverse.2 hx1)
  · intro t ht
    rcases List.mem_append.1 ht with ht | ht
    · exact f1 t ht
    · intro hc
      apply f2 t ht
      rw [extend_visited]
      exact List.mem_append_right _ hc
  · intro t ht
    rcases List.mem_append.1 ht with ht | ht
    · exact s1 t ht
    · exact s2 t ht
  · intro t ht
    rcases List.mem_append.1 ht with ht | ht
    · rcases p1 t ht with h | ⟨u, hu, h⟩
      · exact Or.inl h
      · exact Or.inr ⟨u, List.mem_append_left _ hu, h⟩
    · rcases p2 t ht with h | ⟨u, hu, h⟩
      · exact Or.inl h
      · exact Or.inr ⟨u, List.mem_append_right _ hu, h⟩

theorem Expands.table {s : State} {b b2 : Board} (h : Expands s b b2) :
    b2.ZobristHash = b.ZobristHash := by
  obtain ⟨n, rfl, _⟩ := h; rfl

theorem Expands.visited_subset {s : State} {b b2 : Board} (h : Expands s b b2) :
    b.VisitedStatesHashes ⊆ b2.VisitedStatesHashes := by
  obtain ⟨n, rfl, _⟩ := h
  intro x hx
  rw [extend_visited]
  exact List.mem_append_right _ hx

theorem tryMove_of_false (s : State) (M : Matrix) (i : Int) (p : Piece) (sb : Block)
    (b : Board) (m : Move) (h : canMove s p M sb m = some false) :
    tryMove s M i p sb b m = some b := by
  unfold tryMove; rw [h]; rfl

theorem tryMove_of_visited (s : State) (M : Matrix) (i : Int) (p : Piece) (sb : Block)
    (b : Board) (m : Move) (hash : Nat) (h : canMove s p M sb m = some true)
    (hh : updatedHash b.ZobristHash s p m = some hash) (hv : hash ∈ b.VisitedStatesHashes) :
    tryMove s M i p sb b m = some b := by
  unfold tryMove movePiece
  rw [h, getUpdatedZobristHash_eq, hh]
  simp [hv]

theorem tryMove_expands (s : State) (M : Matrix) (i : Nat) (p : Piece) (m : Move)
    (b b1 : Board) (hM : getMatrix s = some M) (hp : s.Pieces.get? i = some p)
    (hm : m ∈ getMoves)
    (h : tryMove s M i p (getPieceStartingBlock s p).1 b m = some b1) :
    Expands s b b1 ∧ Settled s i p m b1 := by
  rcases tryMove_cases _ _ _ _ _ _ _ _ h with ⟨hc, rfl⟩ | ⟨hc, hash, hh, hcase⟩
  · refine ⟨expands_refl s b1, ?_⟩
    intro M2 b3 hM2 _ _
    rw [hM] at hM2; cases hM2
    exact tryMove_of_false _ _ _ _ _ _ _ hc
  · rcases hcase with ⟨hv, rfl⟩ | ⟨hv, hi, M1, hM1, hlook⟩
    · refine ⟨expands_refl s b1, ?_⟩
      intro M2 b3 hM2 ht hsub
      rw [hM] at hM2; cases hM2
      exact tryMove_of_visited _ _ _ _ _ _ _ hash hc (ht ▸ hh) (hsub hv)
    · have hset : ∀ b1 : Board, b1.ZobristHash = b.ZobristHash →
          hash ∈ b1.VisitedStatesHashes → Settled s i p m b1 := by
        intro b1 ht1 hv1 M2 b3 hM2 ht hsub
        rw [hM] at hM2; cases hM2
        exact tryMove_of_visited _ _ _ _ _ _ _ hash hc (by rw [ht, ht1]; exact hh) (hsub hv1)
      have hsingle : Successor b.ZobristHash s (stepState s i p m hash) :=
        Successor.single i p m hash M hp hm hM hc hh
      rcases hlook with ⟨_, rfl⟩ | ⟨hc2, h2, hh2, ⟨_, rfl⟩ | ⟨hv2, rfl⟩⟩
      · refine ⟨⟨[_], rfl, ⟨by simp, ?_⟩, ?_, ?_⟩, hset _ rfl (by simp [extend_visited, stepState])⟩
        · intro t ht; simp only [List.mem_singleton] at ht; subst ht; exact hv
        · intro t ht; simp only [List.mem_singleton] at ht; subst ht; exact hsingle
        · intro t ht; simp only [List.mem_singleton] at ht; subst ht; exact Or.inl rfl
      · refine ⟨⟨[_], rfl, ⟨by simp, ?_⟩, ?_, ?_⟩, hset _ rfl (by simp [extend_visited, stepState])⟩
        · intro t ht; simp only [List.mem_singleton] at ht; subst ht; exact hv
        · intro t ht; simp only [List.mem_singleton] at ht; subst ht; exact hsingle
        · intro t ht; simp only [List.mem_singleton] at ht; subst ht; exact Or.inl rfl
      · have hv2a : h2 ≠ hash ∧ h2 ∉ b.VisitedStatesHashes := by
          simpa [extend_visited, stepState] using hv2
        refine ⟨⟨[_, _], rfl, ⟨?_, ?_⟩, ?_, ?_⟩,
          hset _ rfl (by simp [extend_visited, stepState, doubleState])⟩
        · simp only [List.map_cons, List.map_nil, List.nodup_cons, List.mem_singleton,
            List.not_mem_nil, not_false_eq_true, List.nodup_nil, and_true]
          exact fun e => hv2a.1 e.symm
        · intro t ht
          simp only [List.mem_cons, List.mem_singleton, List.not_mem_nil, or_false] at ht
          rcases ht with rfl | rfl
          · exact hv
          · exact hv2a.2
        · intro t ht
          simp only [List.mem_cons, List.mem_singleton, List.not_mem_nil, or_false] at ht
          rcases ht with rfl | rfl
          · exact hsingle
          · exact Successor.double i p m hash M M1 h2 hp hm hM hc hh hM1 hc2 hh2
        · intro t ht
          simp only [List.mem_cons, List.mem_singleton, List.not_mem_nil, or_false] at ht
          rcases ht with rfl | rfl
          · exact Or.inl rfl
          · exact Or.inr ⟨_, List.mem_cons_self _ _, rfl⟩

theorem settled_mono {s : State} {i : Nat} {p : Piece} {m : Move} {b b2 : Board}
    (h : Settled s i p m b) (hr : Expands s b b2) : Settled s i p m b2 := by
  intro M b3 hM ht hsub
  exact h M b3 hM (ht.trans hr.table) (fun x hx => hsub (hr.visited_subset hx))

/-- One run of `findNewStates`: what it appends, and that every move is settled after it. -/
theorem findNewStates_expands (b b2 : Board) (s : State) (h : findNewStates b s = some b2) :
    Expands s b b2 ∧
      ∀ i p m, s.Pieces.get? i = some p → m ∈ getMoves → Settled s i p m b2 :=
  findNewStates_induct s (Expands s) (Settled s) (expands_refl s)
    (fun _ _ _ h1 h2 => expands_trans h1 h2) (fun _ _ _ _ _ h hr => settled_mono h hr)
    (fun M i p m b b1 hM hp hm hb => tryMove_expands s M i p m b b1 hM hp hm hb) b b2 h

/-! ### C10: expanding twice -/

/-- C10: if `findNewStates(s)` takes board `b` to `b2`, then running `findNewStates(s)`
again on `b2` returns `b2` unchanged (frontier and seen set included); and the first run
appends arrangements `new` whose signatures are pairwise different and were not in the seen
set of `b`, the seen set of `b2` being that of `b` plus exactly those signatures. -/
theorem findNewStates_twice (b b2 : Board) (s : State) (h : findNewStates b s = some b2) :
    findNewStates b2 s = some b2 ∧
    ∃ new, b2.States = b.States ++ new ∧
      b2.VisitedStatesHashes = (new.map (fun t => t.Hash)).reverse ++ b.VisitedStatesHashes ∧
      (new.map (fun t => t.Hash)).Nodup ∧ ∀ t ∈ new, t.Hash ∉ b.VisitedStatesHashes := by
  obtain ⟨⟨new, rfl, ⟨hnd, hfr⟩, _, _⟩, hset⟩ := findNewStates_expands b b2 s h
  refine ⟨?_, new, rfl, rfl, hnd, hfr⟩
  have hM : ∃ M, getMatrix s = some M := by
    unfold findNewStates at h
    cases hM : getMatrix s with
    | none => rw [hM] at h; simp at h
    | some M => exact ⟨M, rfl⟩
  obtain ⟨M, hM⟩ := hM
  have hmoves : ∀ (i : Nat) (p : Piece), s.Pieces.get? i = some p → ∀ moves : List Move,
      (∀ m ∈ moves, m ∈ getMoves) →
      movesLoop s M i p (getPieceStartingBlock s p).1 moves (b.extend new)
        = some (b.extend new) := by
    intro i p hp moves
    induction moves with
    | nil => intro _; rfl
    | cons m rest ih =>
      intro hm
      unfold movesLoop
      rw [hset i p m hp (hm m (List.mem_cons_self _ _)) M _ hM rfl (fun x hx => hx)]
      exact ih (fun m2 hm2 => hm m2 (List.mem_cons_of_mem _ hm2))
  have hpieces : ∀ (l : List Piece) (k : Nat),
      (∀ j p, l.get? j = some p → s.Pieces.get? (k + j) = some p) →
      piecesLoop s M l k (b.extend new) = some (b.extend new) := by
    intro l
    induction l with
    | nil => intro _ _; rfl
    | cons p rest ih =>
      intro k hl
      unfold piecesLoop
      rw [hmoves k p (by simpa using hl 0 p (by simp)) getMoves (fun m hm => hm)]
      exact ih (k + 1) (fun j q hq => by
        have := hl (j + 1) q (by simpa using hq)
        rwa [show k + (j + 1) = k + 1 + j by omega] at this)
  unfold findNewStates
  rw [hM]
  exact hpieces s.Pieces 0 (fun j p hj => by simpa using hj)

/-- Witness for C10: expanding the root of `demoBoard` appends six arrangements; expanding
it again on the resulting board changes nothing. -/
theorem findNewStates_twice_witness :
    findNewStates demoBoard demoBoard.State = some demoExpanded ∧
    demoExpanded.States.length = 7 ∧
    findNewStates demoExpanded demoBoard.State = some demoExpanded :=
  ⟨by decide, by decide,
   (findNewStates_twice demoBoard demoExpanded demoBoard.State (by decide)).1⟩

/-! ### C8: the step counter of a lookahead successor -/

theorem Successor.shape {T : ZTable} {s t : State} (h : Successor T s t) :
    (t.Parent = some s ∧ t.Step = s.Step + 1) ∨
    (∃ s1, t.Parent = some s1 ∧ s1.Parent = some s ∧ s1.Step = s.Step + 1 ∧
      t.Step = s1.Step ∧ t.MovePiece.Label = s1.MovePiece.Label ∧
      t.MoveDirection = s1.MoveDirection) := by
  cases h with
  | single idx piece m h M _ _ _ _ _ => exact Or.inl ⟨rfl, rfl⟩
  | double idx piece m h M M1 h2 _ _ _ _ _ _ _ _ =>
    refine Or.inr ⟨stepState s idx piece m h, rfl, rfl, rfl, ?_, rfl, rfl⟩
    show (stepState s idx piece m h).Step + 1 - 1 = (stepState s idx piece m h).Step
    omega

theorem State.depth_parent {s p : State} (h : s.Parent = some p) : s.depth = p.depth + 1 := by
  cases s with
  | mk ps hs par st d mp =>
    simp only at h
    subst h
    simp [State.depth]

theorem State.parent_ne_self (s : State) : s.Parent ≠ some s := by
  intro h
  have := State.depth_parent h
  omega

/-- C8 (amended): when `s.Step + 1` is a 64-bit `int` (the source computes it without
wrap-around), every arrangement `findNewStates` appends while expanding `s` is either a
single-step successor (parent `s`, step `s.Step + 1`) or a double-step lookahead successor
`s2` whose parent `s1` was appended by the same run with parent `s`, and then
`s2.Step = s1.Step = s.Step + 1`: the decrement undoes the increment of the second
`movePiece` (also in 64-bit arithmetic, where `- 1` undoes `+ 1` even across the wrap), so a
double step is recorded at the depth of a single step. -/
theorem lookahead_step_counter (b b2 : Board) (s : State) (h : findNewStates b s = some b2)
    (_hstep : InInt64 (s.Step + 1)) :
    ∃ new, b2.States = b.States ++ new ∧ ∀ t ∈ new,
      (t.Parent = some s ∧ t.Step = s.Step + 1) ∨
      (∃ s1 ∈ new, t.Parent = some s1 ∧ s1.Parent = some s ∧
        t.Step = s1.Step ∧ s1.Step = s.Step + 1) := by
  obtain ⟨⟨new, rfl, _, hsucc, hpar⟩, _⟩ := findNewStates_expands b b2 s h
  refine ⟨new, rfl, ?_⟩
  intro t ht
  rcases (hsucc t ht).shape with hs | ⟨s1, hp, hp1, hst1, hst, _, _⟩
  · exact Or.inl hs
  · refine Or.inr ⟨s1, ?_, hp, hp1, hst, hst1⟩
    rcases hpar t ht with hps | ⟨u, hu, hpu⟩
    · rw [hp] at hps
      cases hps
      exact absurd hp1 (State.parent_ne_self _)
    · rw [hp] at hpu
      cases hpu
      exact hu

/-- Witness for C8: expanding the root of `demoBoard` appends, at frontier index 4, the
double step of piece `i`; its step counter is 1, as is that of its parent. -/
theorem lookahead_step_counter_witness :
    findNewStates demoBoard demoBoard.State = some demoExpanded ∧
    InInt64 (demoBoard.State.Step + 1) ∧
    ∃ new, demoExpanded.States = demoBoard.States ++ new ∧ ∀ t ∈ new,
      (t.Parent = some demoBoard.State ∧ t.Step = demoBoard.State.Step + 1) ∨
      (∃ s1 ∈ new, t.Parent = some s1 ∧ s1.Parent = some demoBoard.State ∧
        t.Step = s1.Step ∧ s1.Step = demoBoard.State.Step + 1) :=
  ⟨by decide, by decide,
   lookahead_step_counter demoBoard demoExpanded demoBoard.State (by decide) (by decide)⟩

/-- Counterexample to C8 as stated: in the expansion of the root (step 0) of `demoBoard`
the double-step successor at frontier index 4 has step 1 and its parent, the single-step
successor, has step 1 as well; so `s2.Step` is neither `s1.Step - 1` nor `s.Step`. -/
theorem lookahead_step_counter_counterexample :
    (findNewStates demoBoard demoBoard.State).bind (fun b2 =>
      (b2.States.get? 4).bind (fun s2 =>
        s2.Parent.bind (fun s1 =>
          s1.Parent.map (fun s => (s2.Step, s1.Step, s.Step, decide (s = demoBoard.State))))))
      = some (1, 1, 0, true) := by
  decide

/-! ### C9: expanding the starting layout -/

theorem tryMove_single (s : State) (M : Matrix) (i : Nat) (p : Piece) (sb : Block) (b : Board)
    (m : Move) (hash : Nat) (hc : canMove s p M sb m = some true)
    (hh : updatedHash b.ZobristHash s p m = some hash) (hv : hash ∉ b.VisitedStatesHashes)
    (hi : i < s.Pieces.length)
    (hlook : (getMatrix (stepState s i p m hash)).bind (fun M1 =>
      canMove (stepState s i p m hash) (shiftPiece p m) M1
        (getPieceStartingBlock (stepState s i p m hash) p).1 m) = some false) :
    tryMove s M i p sb b m = some (b.extend [stepState s i p m hash]) := by
  obtain ⟨M1, hM1, hc2⟩ := Option.bind_eq_some.1 hlook
  have hmp : movePiece b s i p m = some (stepState s i p m hash, none) := by
    unfold movePiece
    rw [getUpdatedZobristHash_eq, hh]
    simp only [Option.some_bind, if_neg hv, assign_natCast, if_pos hi]
    rfl
  have hv2 : (stepState s i p m hash).Hash ∉ b.VisitedStatesHashes := hv
  have hidx : (stepState s i p m hash).Pieces.get? i = some (shiftPiece p m) := by
    simp [stepState, hi]
  unfold tryMove
  rw [hc]
  simp only [Option.some_bind, if_true, hmp, if_neg hv2]
  unfold lookahead
  rw [hM1]
  simp only [Option.some_bind, index_natCast, hidx, hc2, Bool.false_eq_true, if_false]
  rfl

theorem tryMove_double (s : State) (M : Matrix) (i : Nat) (p : Piece) (sb : Block) (b : Board)
    (m : Move) (hash h2 : Nat) (hc : canMove s p M sb m = some true)
    (hh : updatedHash b.ZobristHash s p m = some hash) (hv : hash ∉ b.VisitedStatesHashes)
    (hi : i < s.Pieces.length)
    (hlook : (getMatrix (stepState s i p m hash)).bind (fun M1 =>
      canMove (stepState s i p m hash) (shiftPiece p m) M1
        (getPieceStartingBlock (stepState s i p m hash) p).1 m) = some true)
    (hh2 : updatedHash b.ZobristHash (stepState s i p m hash) (shiftPiece p m) m = some h2)
    (hne : h2 ≠ hash) (hv2 : h2 ∉ b.VisitedStatesHashes) :
    tryMove s M i p sb b m = some (b.extend
      [stepState s i p m hash, doubleState (stepState s i p m hash) i (shiftPiece p m) m h2]) := by
  obtain ⟨M1, hM1, hc2⟩ := Option.bind_eq_some.1 hlook
  have hmp : movePiece b s i p m = some (stepState s i p m hash, none) := by
    unfold movePiece
    rw [getUpdatedZobristHash_eq, hh]
    simp only [Option.some_bind, if_neg hv, assign_natCast, if_pos hi]
    rfl
  have hv1 : (stepState s i p m hash).Hash ∉ b.VisitedStatesHashes := hv
  have hidx : (stepState s i p m hash).Pieces.get? i = some (shiftPiece p m) := by
    simp [stepState, hi]
  have hi2 : i < (stepState s i p m hash).Pieces.length := by
    simp [stepState, hi]
  have hv3 : h2 ∉ (b.record (stepState s i p m hash)).VisitedStatesHashes := by
    simp only [Board.record, List.mem_cons, not_or]
    exact ⟨hne, hv2⟩
  have hmp2 : movePiece (b.record (stepState s i p m hash)) (stepState s i p m hash) i
      (shiftPiece p m) m
        = some (stepState (stepState s i p m hash) i (shiftPiece p m) m h2, none) := by
    unfold movePiece
    rw [getUpdatedZobristHash_eq]
    have : (b.record (stepState s i p m hash)).ZobristHash = b.ZobristHash := rfl
    rw [this, hh2]
    simp only [Option.some_bind, if_neg hv3, assign_natCast, if_pos hi2]
    rfl
  have hv4 : (stepState (stepState s i p m hash) i (shiftPiece p m) m h2).Hash
      ∉ (b.record (stepState s i p m hash)).VisitedStatesHashes := hv3
  unfold tryMove
  rw [hc]
  simp only [Option.some_bind, if_true, hmp, if_neg hv1]
  unfold lookahead
  rw [hM1]
  simp only [Option.some_bind, index_natCast, hidx, hc2, if_true, hmp2, if_neg hv4]
  rw [record_eq_extend, record_eq_extend, extend_extend]
  rfl

theorem movesLoop_none (s : State) (M : Matrix) (i : Int) (p : Piece) (sb : Block)
    (moves : List Move) (h : ∀ m ∈ moves, canMove s p M sb m = some false) (b : Board) :
    movesLoop s M i p sb moves b = some b := by
  induction moves with
  | nil => rfl
  | cons m rest ih =>
    unfold movesLoop
    rw [tryMove_of_false _ _ _ _ _ _ _ (h m (List.mem_cons_self _ _))]
    exact ih (fun m2 hm2 => h m2 (List.mem_cons_of_mem _ hm2))

theorem movesLoop_unique (s : State) (M : Matrix) (i : Int) (p : Piece) (sb : Block)
    (m0 : Move) (hm0 : m0 ∈ getMoves)
    (h : ∀ m ∈ getMoves, m ≠ m0 → canMove s p M sb m = some false) (b : Board) :
    movesLoop s M i p sb getMoves b = tryMove s M i p sb b m0 := by
  have key : ∀ (pre post : List Move), getMoves = pre ++ m0 :: post → m0 ∉ pre → m0 ∉ post →
      movesLoop s M i p sb (pre ++ m0 :: post) b = tryMove s M i p sb b m0 := by
    intro pre post hg hpre hpost
    have hpre2 : ∀ m ∈ pre, canMove s p M sb m = some false := fun m hm =>
      h m (by rw [hg]; exact List.mem_append_left _ hm) (fun e => hpre (e ▸ hm))
    have hpost2 : ∀ m ∈ post, canMove s p M sb m = some false := fun m hm =>
      h m (by rw [hg]; exact List.mem_append_right _ (List.mem_cons_of_mem _ hm))
        (fun e => hpost (e ▸ hm))
    clear hg
    induction pre with
    | nil =>
      simp only [List.nil_append, movesLoop]
      cases tryMove s M i p sb b m0 with
      | none => rfl
      | some b1 => exact movesLoop_none s M i p sb post hpost2 b1
    | cons a pre ih =>
      simp only [List.cons_append, movesLoop]
      rw [tryMove_of_false _ _ _ _ _ _ _ (hpre2 a (List.mem_cons_self _ _))]
      exact ih (fun hc => hpre (List.mem_cons_of_mem _ hc))
        (fun m hm => hpre2 m (List.mem_cons_of_mem _ hm))
  simp only [getMoves, List.mem_cons, List.mem_singleton, List.not_mem_nil, or_false] at hm0
  rcases hm0 with rfl | rfl | rfl | rfl
  · exact key [] _ rfl (by decide) (by decide)
  · exact key [_] _ rfl (by decide) (by decide)
  · exact key [_, _] _ rfl (by decide) (by decide)
  · exact key [_, _, _] _ rfl (by decide) (by decide)

theorem initBoard_eq {T : ZTable} {b : Board} (hb : initBoard T = some b) :
    ∃ h0, GetZobristHash ⟨4, 5, T, initState 0, [], []⟩ (initState 0) = some h0 ∧
      b = ⟨4, 5, T, initState h0, [initState h0], []⟩ := by
  unfold initBoard at hb
  obtain ⟨h0, e0, e1⟩ := Option.bind_eq_some.1 hb
  exact ⟨h0, e0, (Option.some.inj e1).symm⟩

theorem init_canMove (h0 : Nat) : ∀ p ∈ initPieces, ∀ m ∈ getMoves,
    canMove (initState h0) p initMatrix (getPieceStartingBlock (initState h0) p).1 m
      = some (decide ((p.Label, m) ∈ initLegal)) :=
  (by decide : ∀ p ∈ initPieces, ∀ m ∈ getMoves,
    canMove (initState 0) p initMatrix (getPieceStartingBlock (initState 0) p).1 m
      = some (decide ((p.Label, m) ∈ initLegal)))

theorem init_movesLoop_none (h0 : Nat) (i : Int) (p : Piece) (hp : p ∈ initPieces)
    (hno : ∀ m ∈ getMoves, (p.Label, m) ∉ initLegal) (b : Board) :
    movesLoop (initState h0) initMatrix i p (getPieceStartingBlock (initState h0) p).1
      getMoves b = some b :=
  movesLoop_none _ _ _ _ _ _ (fun m hm => by
    rw [init_canMove h0 p hp m hm, decide_eq_false (hno m hm)]) b

theorem init_movesLoop_unique (h0 : Nat) (i : Int) (p : Piece) (hp : p ∈ initPieces)
    (m0 : Move) (hm0 : m0 ∈ getMoves)
    (hno : ∀ m ∈ getMoves, m ≠ m0 → (p.Label, m) ∉ initLegal) (b : Board) :
    movesLoop (initState h0) initMatrix i p (getPieceStartingBlock (initState h0) p).1
      getMoves b
      = tryMove (initState h0) initMatrix i p (getPieceStartingBlock (initState h0) p).1 b m0 :=
  movesLoop_unique _ _ _ _ _ m0 hm0 (fun m hm hne => by
    rw [init_canMove h0 p hp m hm, decide_eq_false (hno m hm hne)]) b

/-- The loop over the pieces of the starting layout reduces to the four legal moves. -/
theorem init_piecesLoop (h0 : Nat) (b : Board) :
    piecesLoop (initState h0) initMatrix initPieces 0 b =
      (tryMove (initState h0) initMatrix (6 : Nat) pieceG
          (getPieceStartingBlock (initState h0) pieceG).1 b ⟨0, 1⟩).bind (fun b1 =>
      (tryMove (initState h0) initMatrix (7 : Nat) pieceH
          (getPieceStartingBlock (initState h0) pieceH).1 b1 ⟨0, 1⟩).bind (fun b2 =>
      (tryMove (initState h0) initMatrix (8 : Nat) pieceI
          (getPieceStartingBlock (initState h0) pieceI).1 b2 ⟨1, 0⟩).bind (fun b3 =>
      tryMove (initState h0) initMatrix (9 : Nat) pieceJ
          (getPieceStartingBlock (initState h0) pieceJ).1 b3 ⟨-1, 0⟩))) := by
  have e : initPieces = [⟨"a", 1, 2, [⟨0, 0⟩, ⟨0, 1⟩]⟩,
    ⟨"b", 2, 2, [⟨1, 0⟩, ⟨2, 0⟩, ⟨1, 1⟩, ⟨2, 1⟩]⟩, ⟨"c", 1, 2, [⟨3, 0⟩, ⟨3, 1⟩]⟩,
    ⟨"d", 1, 2, [⟨0, 2⟩, ⟨0, 3⟩]⟩, ⟨"e", 2, 1, [⟨1, 2⟩, ⟨2, 2⟩]⟩,
    ⟨"f", 1, 2, [⟨3, 2⟩, ⟨3, 3⟩]⟩, pieceG, pieceH, pieceI, pieceJ] := rfl
  rw [e]
  simp only [piecesLoop]
  rw [init_movesLoop_none h0 _ _ (by decide) (by decide)]
  simp only [Option.some_bind]
  rw [init_movesLoop_none h0 _ _ (by decide) (by decide)]
  simp only [Option.some_bind]
  rw [init_movesLoop_none h0 _ _ (by decide) (by decide)]
  simp only [Option.some_bind]
  rw [init_movesLoop_none h0 _ _ (by decide) (by decide)]
  simp only [Option.some_bind]
  rw [init_movesLoop_none h0 _ _ (by decide) (by decide)]
  simp only [Option.some_bind]
  rw [init_movesLoop_none h0 _ _ (by decide) (by decide)]
  simp only [Option.some_bind]
  rw [init_movesLoop_unique h0 _ pieceG (by decide) ⟨0, 1⟩ (by decide) (by decide)]
  simp only [init_movesLoop_unique h0 _ pieceH (by decide) ⟨0, 1⟩ (by decide) (by decide),
    init_movesLoop_unique h0 _ pieceI (by decide) ⟨1, 0⟩ (by decide) (by decide),
    init_movesLoop_unique h0 _ pieceJ (by decide) ⟨-1, 0⟩ (by decide) (by decide)]
  congr 1
  funext b1
  congr 1
  funext b2
  congr 1
  funext b3
  cases tryMove (initState h0) initMatrix ((0 + 1 + 1 + 1 + 1 + 1 + 1 + 1 + 1 + 1 : Nat) : Int)
    pieceJ (getPieceStartingBlock (initState h0) pieceJ).1 b3 ⟨-1, 0⟩ <;> rfl

/-- C9: for the documented starting layout, on the board `initBoard` builds (root signature
from `GetZobristHash`, frontier holding only the root, empty seen set) over a hash table
under which the code computes signatures `h1 .. h6` for the six arrangements involved that
are, together with the root signature, pairwise different, `findNewStates(root)` returns
with the frontier holding exactly 7 entries: the root followed by g down, h down, i right,
i right twice (lookahead), j left, j left twice (lookahead). -/
theorem findNewStates_initBoard (T : ZTable) (b : Board) (h1 h2 h3 h4 h5 h6 : Nat)
    (hb : initBoard T = some b)
    (hs : initSignatures T b.State = [some h1, some h2, some h3, some h4, some h5, some h6])
    (hd : [b.State.Hash, h1, h2, h3, h4, h5, h6].Nodup) :
    ∃ b2, findNewStates b b.State = some b2 ∧
      b2.States = b.State :: initSuccessors b.State h1 h2 h3 h4 h5 h6 ∧
      b2.States.length = 7 ∧
      (initSuccessors b.State h1 h2 h3 h4 h5 h6).map
          (fun t => (t.MovePiece.Label, t.MoveDirection, t.Step))
        = [("g", "down", 1), ("h", "down", 1), ("i", "right", 1), ("i", "right", 1),
           ("j", "left", 1), ("j", "left", 1)] := by
  obtain ⟨h0, _, rfl⟩ := initBoard_eq hb
  simp only [initSignatures, List.cons.injEq, and_true] at hs
  obtain ⟨e1, e2, e3, e4, e5, e6⟩ := hs
  rw [e3] at e4
  rw [e5] at e6
  simp only [Option.some_bind] at e4 e6
  simp only [List.nodup_cons, List.mem_cons, List.mem_singleton, not_or, List.not_mem_nil,
    not_false_eq_true, List.nodup_nil, and_true] at hd
  obtain ⟨-, ⟨n12, n13, n14, n15, n16⟩, ⟨n23, n24, n25, n26⟩, ⟨n34, n35, n36⟩,
    ⟨n45, n46⟩, n56⟩ := hd
  refine ⟨(⟨4, 5, T, initState h0, [initState h0], []⟩ : Board).extend
    (initSuccessors (initState h0) h1 h2 h3 h4 h5 h6), ?_, rfl, rfl, rfl⟩
  have hM : getMatrix (initState h0) = some initMatrix :=
    (by decide : getMatrix (initState 0) = some initMatrix)
  unfold findNewStates
  rw [hM]
  simp only [Option.some_bind]
  show piecesLoop (initState h0) initMatrix initPieces 0 _ = _
  rw [init_piecesLoop]
  rw [tryMove_single (initState h0) _ 6 pieceG _ _ _ h1
    (by rw [init_canMove h0 _ (by decide) _ (by decide)]; rfl) e1 (by simp) (by decide : 6 < initPieces.length)
    (by decide : (getMatrix (stepState (initState 0) 6 pieceG ⟨0, 1⟩ 0)).bind (fun M1 =>
      canMove (stepState (initState 0) 6 pieceG ⟨0, 1⟩ 0) (shiftPiece pieceG ⟨0, 1⟩) M1
        (getPieceStartingBlock (stepState (initState 0) 6 pieceG ⟨0, 1⟩ 0) pieceG).1 ⟨0, 1⟩)
          = some false)]
  simp only [Option.some_bind]
  rw [tryMove_single (initState h0) _ 7 pieceH _ _ _ h2
    (by rw [init_canMove h0 _ (by decide) _ (by decide)]; rfl) e2
    (by simp [extend_visited, stepState]; exact fun e => n12 e.symm)
    (by decide : 7 < initPieces.length)
    (by decide : (getMatrix (stepState (initState 0) 7 pieceH ⟨0, 1⟩ 0)).bind (fun M1 =>
      canMove (stepState (initState 0) 7 pieceH ⟨0, 1⟩ 0) (shiftPiece pieceH ⟨0, 1⟩) M1
        (getPieceStartingBlock (stepState (initState 0) 7 pieceH ⟨0, 1⟩ 0) pieceH).1 ⟨0, 1⟩)
          = some false)]
  simp only [Option.some_bind, extend_extend]
  rw [tryMove_double (initState h0) _ 8 pieceI _ _ _ h3 h4
    (by rw [init_canMove h0 _ (by decide) _ (by decide)]; rfl) e3
    (by simp [extend_visited, stepState]; exact ⟨fun e => n23 e.symm, fun e => n13 e.symm⟩)
    (by decide : 8 < initPieces.length)
    (by decide : (getMatrix (stepState (initState 0) 8 pieceI ⟨1, 0⟩ 0)).bind (fun M1 =>
      canMove (stepState (initState 0) 8 pieceI ⟨1, 0⟩ 0) (shiftPiece pieceI ⟨1, 0⟩) M1
        (getPieceStartingBlock (stepState (initState 0) 8 pieceI ⟨1, 0⟩ 0) pieceI).1 ⟨1, 0⟩)
          = some true)
    e4 (fun e => n34 e.symm)
    (by simp [extend_visited, stepState]; exact ⟨fun e => n24 e.symm, fun e => n14 e.symm⟩)]
  simp only [Option.some_bind, extend_extend]
  rw [tryMove_double (initState h0) _ 9 pieceJ _ _ _ h5 h6
    (by rw [init_canMove h0 _ (by decide) _ (by decide)]; rfl) e5
    (by simp [extend_visited, stepState, doubleState]
        exact ⟨fun e => n45 e.symm, fun e => n35 e.symm, fun e => n25 e.symm,
          fun e => n15 e.symm⟩)
    (by decide : 9 < initPieces.length)
    (by decide : (getMatrix (stepState (initState 0) 9 pieceJ ⟨-1, 0⟩ 0)).bind (fun M1 =>
      canMove (stepState (initState 0) 9 pieceJ ⟨-1, 0⟩ 0) (shiftPiece pieceJ ⟨-1, 0⟩) M1
        (getPieceStartingBlock (stepState (initState 0) 9 pieceJ ⟨-1, 0⟩ 0) pieceJ).1 ⟨-1, 0⟩)
          = some true)
    e6 (fun e => n56 e.symm)
    (by simp [extend_visited, stepState, doubleState]
        exact ⟨fun e => n46 e.symm, fun e => n36 e.symm, fun e => n26 e.symm,
          fun e => n16 e.symm⟩)]
  rw [extend_extend]
  rfl

/-- Witness for C9: the table `demoTable`. -/
theorem findNewStates_initBoard_witness :
    initBoard demoTable = some demoBoard ∧
    ∃ b2, findNewStates demoBoard demoBoard.State = some b2 ∧
      b2.States = demoBoard.State :: initSuccessors demoBoard.State
        966256977 1185474897 703142361 657000913 627407065 732260561 ∧
      b2.States.length = 7 ∧
      (initSuccessors demoBoard.State
          966256977 1185474897 703142361 657000913 627407065 732260561).map
          (fun t => (t.MovePiece.Label, t.MoveDirection, t.Step))
        = [("g", "down", 1), ("h", "down", 1), ("i", "right", 1), ("i", "right", 1),
           ("j", "left", 1), ("j", "left", 1)] :=
  ⟨by decide,
   findNewStates_initBoard demoTable demoBoard
     966256977 1185474897 703142361 657000913 627407065 732260561
     (by decide) (by decide) (by decide)⟩

/-! ### C5: the scan of `Solve` and its error -/

theorem mark_states (b : Board) (h : Nat) : (b.mark h).States = b.States := rfl

theorem mark_table (b : Board) (h : Nat) : (b.mark h).ZobristHash = b.ZobristHash := rfl

theorem findNewStates_states (b b2 : Board) (s : State) (h : findNewStates b s = some b2) :
    ∃ l, b2.States = b.States ++ l := by
  obtain ⟨⟨new, rfl, _⟩, _⟩ := findNewStates_expands b b2 s h
  exact ⟨new, rfl⟩

theorem scanned_states (n idx : Nat) (b bn : Board) (h : scanned n idx b = some bn) :
    ∃ l, bn.States = b.States ++ l := by
  induction n generalizing idx b with
  | zero =>
    simp only [scanned, Option.some.injEq] at h
    subst h
    exact ⟨[], by simp⟩
  | succ n ih =>
    unfold scanned at h
    cases hc : b.States.get? idx with
    | none => rw [hc] at h; simp at h
    | some cur =>
      rw [hc] at h
      simp only at h
      obtain ⟨b1, h1, h2⟩ := Option.bind_eq_some.1 h
      obtain ⟨l1, e1⟩ := findNewStates_states _ _ _ h1
      obtain ⟨l2, e2⟩ := ih _ _ h2
      exact ⟨l1 ++ l2, by rw [e2, e1, mark_states, List.append_assoc]⟩

theorem get?_append_of_some {α : Type} {l l2 : List α} {i : Nat} {a : α}
    (h : l.get? i = some a) : (l ++ l2).get? i = some a := by
  have hi : i < l.length := by
    by_contra hc
    rw [List.get?_eq_none.2 (by omega)] at h
    cases h
  simp only [List.get?_eq_getElem?] at h ⊢
  rw [List.getElem?_append_left hi]
  exact h

/-- What a finished scan of `Solve` has done: it marked and expanded the entries
`idx .. idx+n-1`, none of them final, and then either found no entry at `idx+n` (error) or a
final entry there (reconstruction). -/
theorem solveLoop_spec (fuel idx : Nat) (b : Board) (out : List State × Option String)
    (b2 : Board) (h : solveLoop fuel idx b = some (out, b2)) :
    ∃ n bn, scanned n idx b = some bn ∧
      (∀ j, j < n → ∃ s, bn.States.get? (idx + j) = some s ∧ isFinal s = false) ∧
      ((bn.States.get? (idx + n) = none ∧ out = ([], some "Cannot solve") ∧ b2 = bn) ∨
       (∃ g res, bn.States.get? (idx + n) = some g ∧ isFinal g = true ∧
          reconstruct g = some res ∧ out = (res, none) ∧ b2 = bn.mark g.Hash)) := by
  induction fuel generalizing idx b with
  | zero => simp [solveLoop] at h
  | succ fuel ih =>
    unfold solveLoop at h
    cases hc : b.States.get? idx with
    | none =>
      rw [hc] at h
      simp only [Option.some.injEq, Prod.mk.injEq] at h
      obtain ⟨rfl, rfl⟩ := h
      exact ⟨0, b, rfl, by simp, Or.inl ⟨hc, rfl, rfl⟩⟩
    | some cur =>
      rw [hc] at h
      simp only at h
      by_cases hf : isFinal cur = true
      · rw [if_pos hf] at h
        obtain ⟨res, hr, h2⟩ := Option.bind_eq_some.1 h
        simp only [Option.some.injEq, Prod.mk.injEq] at h2
        obtain ⟨rfl, rfl⟩ := h2
        exact ⟨0, b, rfl, by simp, Or.inr ⟨cur, res, hc, hf, hr, rfl, rfl⟩⟩
      · rw [if_neg hf] at h
        obtain ⟨b1, h1, h2⟩ := Option.bind_eq_some.1 h
        obtain ⟨n, bn, hs, hnf, hend⟩ := ih _ _ h2
        have hsc : scanned (n + 1) idx b = some bn := by
          unfold scanned
          rw [hc]
          simp only [h1, Option.some_bind]
          exact hs
        refine ⟨n + 1, bn, hsc, ?_, ?_⟩
        · intro j hj
          cases j with
          | zero =>
            obtain ⟨l, el⟩ := scanned_states _ _ _ _ hsc
            refine ⟨cur, ?_, by simpa using hf⟩
            rw [el]
            exact get?_append_of_some hc
          | succ j =>
            have := hnf j (by omega)
            rwa [show idx + 1 + j = idx + (j + 1) by omega] at this
        · rwa [show idx + 1 + n = idx + (n + 1) by omega] at hend

/-- C5: whenever the scan of `Solve` finishes, it returns the "Cannot solve" error together
with an empty list exactly when no arrangement of the final frontier satisfies `isFinal`;
otherwise the error is nil and some frontier arrangement satisfies `isFinal`. -/
theorem Solve_error_iff (fuel : Nat) (b b2 : Board) (res : List State) (err : Option String)
    (h : Solve fuel b = some ((res, err), b2)) :
    (err = some "Cannot solve" ↔ ∀ s ∈ b2.States, isFinal s = false) ∧
    (err = some "Cannot solve" → res = []) ∧
    ((∃ s ∈ b2.States, isFinal s = true) → err = none) := by
  obtain ⟨n, bn, _, hnf, hend⟩ := solveLoop_spec fuel 0 b _ b2 h
  have key : (err = some "Cannot solve" ∧ res = [] ∧ ∀ s ∈ b2.States, isFinal s = false) ∨
      (err = none ∧ ∃ s ∈ b2.States, isFinal s = true) := by
    rcases hend with ⟨hnone, hout, rfl⟩ | ⟨g, r, hg, hfin, _, hout, rfl⟩
    · simp only [Prod.mk.injEq] at hout
      refine Or.inl ⟨hout.2, hout.1, ?_⟩
      intro s hs
      obtain ⟨j, hj⟩ := List.get?_of_mem hs
      have hlen : b2.States.length ≤ n := by
        simpa using List.get?_eq_none.1 hnone
      have hjl : j < b2.States.length := by
        by_contra hc
        rw [List.get?_eq_none.2 (by omega)] at hj
        cases hj
      obtain ⟨s2, hs2, hf2⟩ := hnf j (by omega)
      simp only [zero_add] at hs2
      rw [hj] at hs2
      cases hs2
      exact hf2
    · simp only [Prod.mk.injEq] at hout
      refine Or.inr ⟨hout.2, g, ?_, hfin⟩
      rw [mark_states]
      exact List.get?_mem hg
  rcases key with ⟨he, hr, hall⟩ | ⟨he, s, hs, hfin⟩
  · refine ⟨⟨fun _ => hall, fun _ => he⟩, fun _ => hr, ?_⟩
    rintro ⟨s, hs, hfin⟩
    rw [hall s hs] at hfin
    cases hfin
  · refine ⟨⟨fun h2 => ?_, fun hall => ?_⟩, fun h2 => ?_, fun _ => he⟩
    · rw [he] at h2; cases h2
    · rw [hall s hs] at hfin; cases hfin
    · rw [he] at h2; cases h2

/-- Witness for C5: on `tinyBoard` the scan finishes at frontier index 2 with a nil error
and a one-entry list, and the final frontier holds a final arrangement. -/
theorem Solve_error_iff_witness :
    Solve 3 tinyBoard = some ((tinyResult, none), tinySolved) ∧
    tinyResult.length = 1 ∧ tinySolved.States.length = 10 ∧
    ((none : Option String) = some "Cannot solve" ↔
      ∀ s ∈ tinySolved.States, isFinal s = false) :=
  ⟨by decide, by decide, by decide,
   (Solve_error_iff 3 tinyBoard tinySolved tinyResult none (by decide)).1⟩

/-! ### The backward walk of `Solve` -/

theorem walk_eq_walkList (fuel : Nat) (t : State) (acc : List (Int × State)) :
    walk fuel t acc = (walkList fuel t).map (fun l => recordAll acc l) := by
  induction fuel generalizing t acc with
  | zero => rfl
  | succ fuel ih =>
    unfold walk walkList
    by_cases hc : t.Parent ≠ none ∨ t.Step > 0
    · rw [if_pos hc, if_pos hc]
      cases hp : t.Parent with
      | none => rfl
      | some p =>
        simp only
        by_cases hs : sameMove t p
        · rw [if_pos hs, if_pos hs]
          cases hq : p.Parent with
          | none => rfl
          | some n =>
            simp only
            rw [ih]
            cases walkList fuel n <;> rfl
        · rw [if_neg hs, if_neg hs, ih]
          cases walkList fuel p <;> rfl
    · rw [if_neg hc, if_neg hc]
      rfl

theorem walkList_trail (P : State → Prop) (rel : State → State → Prop)
    (hstep : ∀ t n, P t → Hop t n → P n ∧ rel n t)
    (fuel : Nat) (t : State) (l : List State) (hP : P t) (h : walkList fuel t = some l) :
    ∃ e, P e ∧ Trail rel e t l := by
  induction fuel generalizing t l with
  | zero => simp [walkList] at h
  | succ fuel ih =>
    unfold walkList at h
    by_cases hc : t.Parent ≠ none ∨ t.Step > 0
    · rw [if_pos hc] at h
      cases hp : t.Parent with
      | none => rw [hp] at h; simp at h
      | some p =>
        rw [hp] at h
        simp only at h
        by_cases hs : sameMove t p
        · rw [if_pos hs] at h
          cases hq : p.Parent with
          | none => rw [hq] at h; simp at h
          | some n =>
            rw [hq] at h
            simp only [Option.map_eq_some'] at h
            obtain ⟨l2, hl2, rfl⟩ := h
            have hh : Hop t n := ⟨p, hp, Or.inl ⟨hs, hq⟩⟩
            obtain ⟨hPn, hrel⟩ := hstep t n hP hh
            obtain ⟨e, hPe, htr⟩ := ih n l2 hPn hl2
            exact ⟨e, hPe, Trail.hop t n l2 hh hrel htr⟩
        · rw [if_neg hs] at h
          simp only [Option.map_eq_some'] at h
          obtain ⟨l2, hl2, rfl⟩ := h
          have hh : Hop t p := ⟨p, hp, Or.inr ⟨hs, rfl⟩⟩
          obtain ⟨hPn, hrel⟩ := hstep t p hP hh
          obtain ⟨e, hPe, htr⟩ := ih p l2 hPn hl2
          exact ⟨e, hPe, Trail.hop t p l2 hh hrel htr⟩
    · rw [if_neg hc] at h
      simp only [Option.some.injEq] at h
      subst h
      push_neg at hc
      exact ⟨t, hP, Trail.stop hc.1 (by omega)⟩

theorem Trail.chain {rel : State → State → Prop} {e t : State} {l : List State}
    (h : Trail rel e t l) :
    List.Chain rel e l.reverse ∧ (e :: l.reverse).getLast? = some t := by
  induction h with
  | stop _ _ => exact ⟨List.Chain.nil, rfl⟩
  | hop t n l hh hrel _ ih =>
    obtain ⟨hc, hl⟩ := ih
    constructor
    · rw [List.reverse_cons]
      have : List.Chain' rel ((e :: l.reverse) ++ [t]) := by
        rw [List.chain'_append]
        refine ⟨hc, List.chain'_singleton _, ?_⟩
        intro x hx y hy
        rw [hl] at hx
        simp only [List.head?_cons, Option.mem_def, Option.some.injEq] at hx hy
        subst hx hy
        exact hrel
      exact this
    · rw [List.reverse_cons, ← List.cons_append, List.getLast?_append]
      rfl

theorem mapInsert_of_fresh (acc : List (Int × State)) (k : Int) (s : State)
    (h : ∀ e ∈ acc, e.1 ≠ k) : mapInsert acc k s = (k, s) :: acc := by
  unfold mapInsert
  congr 1
  rw [List.filter_eq_self]
  intro e he
  simpa using h e he

theorem recordAll_eq (l : List State) (acc : List (Int × State))
    (hd : l.Pairwise (fun a b => a.Step ≠ b.Step))
    (hacc : ∀ s ∈ l, ∀ e ∈ acc, e.1 ≠ s.Step) :
    recordAll acc l = (l.reverse.map (fun s => (s.Step, s))) ++ acc := by
  induction l generalizing acc with
  | nil => rfl
  | cons a l ih =>
    rw [List.pairwise_cons] at hd
    unfold recordAll
    rw [List.foldl_cons, mapInsert_of_fresh _ _ _ (hacc a (List.mem_cons_self _ _))]
    have := ih ((a.Step, a) :: acc) hd.2 (by
      intro s hs e he
      rcases List.mem_cons.1 he with rfl | he
      · exact hd.1 s hs
      · exact hacc s (List.mem_cons_of_mem _ hs) e he)
    unfold recordAll at this
    rw [this]
    simp

theorem mapGet_of_distinct (l : List State) (hd : l.Pairwise (fun a b => a.Step ≠ b.Step))
    (s : State) (hs : s ∈ l) : mapGet (l.map (fun s => (s.Step, s))) s.Step = s := by
  induction l with
  | nil => cases hs
  | cons a l ih =>
    rw [List.pairwise_cons] at hd
    unfold mapGet
    rw [List.map_cons, List.find?_cons]
    rcases List.mem_cons.1 hs with rfl | hs
    · simp
    · have hne : a.Step ≠ s.Step := hd.1 s hs
      simp only [hne, decide_False]
      have := ih hd.2 hs
      unfold mapGet at this
      exact this

theorem Trail.steps {e t : State} {l : List State}
    (h : Trail (fun n t => n.Step < t.Step) e t l) :
    (∀ s ∈ l, e.Step < s.Step ∧ s.Step ≤ t.Step) ∧ e.Step ≤ t.Step ∧
      l.Pairwise (fun a b => b.Step < a.Step) := by
  induction h with
  | stop _ _ => exact ⟨by simp, le_refl _, List.Pairwise.nil⟩
  | hop t n l _ hrel _ ih =>
    obtain ⟨h1, h2, h3⟩ := ih
    simp only at hrel
    refine ⟨?_, by omega, ?_⟩
    · intro s hs
      rcases List.mem_cons.1 hs with rfl | hs
      · exact ⟨by omega, le_refl _⟩
      · exact ⟨(h1 s hs).1, by have := (h1 s hs).2; omega⟩
    · rw [List.pairwise_cons]
      exact ⟨fun s hs => by have := (h1 s hs).2; omega, h3⟩

theorem trail_mono {rel rel2 : State → State → Prop} (hr : ∀ n t, rel n t → rel2 n t)
    {e t : State} {l : List State} (h : Trail rel e t l) : Trail rel2 e t l := by
  induction h with
  | stop h1 h2 => exact Trail.stop h1 h2
  | hop t n l hh hrel _ ih => exact Trail.hop t n l hh (hr _ _ hrel) ih

/-- The list `Solve` emits is the recorded trail reversed, whenever the step counter
strictly decreases along the walk. -/
theorem sorted_emit (l : List State) (hl : l.Pairwise (fun a b => b.Step < a.Step)) :
    (((recordAll [] l).map Prod.fst).insertionSort (fun a b => a ≤ b)).map
      (mapGet (recordAll [] l)) = l.reverse := by
  have hd : l.Pairwise (fun a b => a.Step ≠ b.Step) :=
    hl.imp (fun {a b} h => by omega)
  have hdr : l.reverse.Pairwise (fun a b => a.Step ≠ b.Step) := by
    rw [List.pairwise_reverse]
    exact hd.imp (fun {a b} h => fun e => h e.symm)
  rw [recordAll_eq l [] hd (by simp), List.append_nil, List.map_map]
  have hk : ((fun e : Int × State => e.1) ∘ fun s : State => (s.Step, s)) = fun s => s.Step := rfl
  have hk2 : (Prod.fst ∘ fun s : State => (s.Step, s)) = fun s => s.Step := rfl
  rw [hk2]
  have hsorted : (l.reverse.map (fun s => s.Step)).Sorted (fun a b => a ≤ b) := by
    unfold List.Sorted
    rw [List.pairwise_map, List.pairwise_reverse]
    exact hl.imp (fun {a b} h => by omega)
  rw [List.Sorted.insertionSort_eq hsorted, List.map_map]
  conv_rhs => rw [← List.map_id l.reverse]
  apply List.map_congr_left
  intro s hs
  exact mapGet_of_distinct l.reverse hdr s hs

theorem reconstruct_eq_reverse (P : State → Prop) (rel : State → State → Prop)
    (hstep : ∀ t n, P t → Hop t n → P n ∧ rel n t)
    (hlt : ∀ n t, rel n t → n.Step < t.Step)
    (g : State) (res : List State) (hP : P g) (h : reconstruct g = some res) :
    ∃ e l, P e ∧ Trail rel e g l ∧ res = l.reverse := by
  unfold reconstruct at h
  obtain ⟨m, hm, hres⟩ := Option.bind_eq_some.1 h
  rw [walk_eq_walkList] at hm
  obtain ⟨l, hl, rfl⟩ := Option.map_eq_some'.1 hm
  obtain ⟨e, hPe, htr⟩ := walkList_trail P rel hstep _ g l hP hl
  refine ⟨e, l, hPe, htr, ?_⟩
  have hs := (trail_mono hlt htr).steps.2.2
  rw [← sorted_emit l hs]
  exact (Option.some.inj hres).symm

/-! ### C6: the first goal stops the scan -/

theorem stepState_ne_doubleState (p s1 : State) (i j : Nat) (piece piece1 : Piece)
    (m m1 : Move) (h h2 : Nat) :
    stepState p i piece m h ≠ doubleState s1 j piece1 m1 h2 := by
  intro e
  have e1 : (stepState p i piece m h).Parent = (doubleState s1 j piece1 m1 h2).Parent := by
    rw [e]
  have e2 : (stepState p i piece m h).Step = (doubleState s1 j piece1 m1 h2).Step := by
    rw [e]
  simp only [stepState, doubleState, Option.some.injEq] at e1 e2
  subst e1
  omega

theorem Node.of_stepState {side : State → Nat → Piece → Move → Prop} {root s : State}
    {i : Nat} {piece : Piece} {m : Move} {h : Nat} (hroot : root.Parent = none)
    (hn : Node side root (stepState s i piece m h)) : Node side root s := by
  generalize ht : stepState s i piece m h = t at hn
  cases hn with
  | root => rw [← ht] at hroot; simp [stepState] at hroot
  | single p j piece2 m2 h3 hp _ =>
    have : (stepState s i piece m h).Parent = (stepState p j piece2 m2 h3).Parent := by rw [ht]
    simp only [stepState, Option.some.injEq] at this
    subst this
    exact hp
  | double s2 j piece2 m2 h3 h4 _ _ =>
    exact absurd ht (stepState_ne_doubleState _ _ _ _ _ _ _ _ _ _)

theorem Node.eq_root_of_parent_none {side : State → Nat → Piece → Move → Prop}
    {root t : State} (hn : Node side root t) (h : t.Parent = none) : t = root := by
  cases hn with
  | root => rfl
  | single p j piece2 m2 h3 hp _ => simp [stepState] at h
  | double s2 j piece2 m2 h3 h4 _ _ => simp [stepState, doubleState] at h

theorem sameMove_doubleState (i : Nat) (piece : Piece) (m : Move) (h h2 : Nat)
    (s : State) : sameMove (doubleState (stepState s i piece m h) i (shiftPiece piece m) m h2)
      (stepState s i piece m h) := ⟨rfl, rfl⟩

/-- Along one hop of the walk the node stays a node and the step counter drops. -/
theorem Node.hop_step {side : State → Nat → Piece → Move → Prop} {root t n : State}
    (hroot : root.Parent = none) (hn : Node side root t) (hh : Hop t n) :
    Node side root n ∧ n.Step < t.Step := by
  obtain ⟨p, hp, hcase⟩ := hh
  cases hn with
  | root => rw [hroot] at hp; cases hp
  | single q j piece m h hq _ =>
    simp only [stepState, Option.some.injEq] at hp
    subst hp
    rcases hcase with ⟨_, hpar⟩ | ⟨_, rfl⟩
    · cases hq with
      | root => rw [hroot] at hpar; cases hpar
      | single q2 j2 piece2 m2 h2 hq2 _ =>
        simp only [stepState, Option.some.injEq] at hpar
        subst hpar
        exact ⟨hq2, by simp only [stepState]; omega⟩
      | double s2 j2 piece2 m2 h2 h3 hs1 _ =>
        simp only [stepState, doubleState, Option.some.injEq] at hpar
        subst hpar
        exact ⟨hs1, by simp only [stepState, doubleState]; omega⟩
    · exact ⟨hq, by simp only [stepState]; omega⟩
  | double s j piece m h h2 hs1 _ =>
    simp only [stepState, doubleState, Option.some.injEq] at hp
    subst hp
    rcases hcase with ⟨_, hpar⟩ | ⟨hns, _⟩
    · simp only [stepState, Option.some.injEq] at hpar
      subst hpar
      exact ⟨hs1.of_stepState hroot, by simp only [stepState, doubleState]; omega⟩
    · exact absurd (sameMove_doubleState j piece m h h2 s) hns

theorem scanned_induct (I : Board → Prop)
    (hmark : ∀ b cur, I b → cur ∈ b.States → I (b.mark cur.Hash))
    (hexp : ∀ b cur b2, I b → cur ∈ b.States → findNewStates b cur = some b2 → I b2)
    (n idx : Nat) (b bn : Board) (hI : I b) (h : scanned n idx b = some bn) : I bn := by
  induction n generalizing idx b with
  | zero =>
    simp only [scanned, Option.some.injEq] at h
    subst h
    exact hI
  | succ n ih =>
    unfold scanned at h
    cases hc : b.States.get? idx with
    | none => rw [hc] at h; simp at h
    | some cur =>
      rw [hc] at h
      simp only at h
      obtain ⟨b1, h1, h2⟩ := Option.bind_eq_some.1 h
      have hmem : cur ∈ b.States := List.get?_mem hc
      exact ih _ _ (hexp _ cur b1 (hmark b cur hI hmem) hmem h1) h2

theorem Successor.node {T : ZTable} {root s t : State} (hs : Node noSide root s)
    (h : Successor T s t) : Node noSide root t := by
  cases h with
  | single idx piece m h M _ _ _ _ _ => exact Node.single s idx piece m h hs trivial
  | double idx piece m h M M1 h2 _ _ _ _ _ _ _ _ =>
    exact Node.double s idx piece m h h2 (Node.single s idx piece m h hs trivial) trivial

theorem scanned_nodes (root : State) (n idx : Nat) (b bn : Board)
    (hI : ∀ t ∈ b.States, Node noSide root t) (h : scanned n idx b = some bn) :
    ∀ t ∈ bn.States, Node noSide root t := by
  refine scanned_induct (fun b => ∀ t ∈ b.States, Node noSide root t) ?_ ?_ n idx b bn hI h
  · intro b cur hb _ t ht
    exact hb t ht
  · intro b cur b2 hb hcur hfind t ht
    obtain ⟨⟨new, rfl, _, hsucc, _⟩, _⟩ := findNewStates_expands b b2 cur hfind
    rw [extend_states] at ht
    rcases List.mem_append.1 ht with ht | ht
    · exact hb t ht
    · exact (hsucc t ht).node (hb cur hcur)

/-- C6: on a board whose frontier holds only a root without parent (whatever its step
counter, so in particular for step 0), the root not being final, if `Solve` succeeds with the list `res` then `res` is non-empty, its last
element `g` sits at a frontier index `n`, `g` is final and no frontier entry before index
`n` is final, and the final board is exactly the board obtained by marking and expanding the
entries `0 .. n-1` in order and then marking `g`: no entry at or after index `n` has been
expanded. -/
theorem Solve_first_goal (fuel : Nat) (b b2 : Board) (root : State) (res : List State)
    (hb : b.States = [root]) (hpar : root.Parent = none) (hnf : isFinal root = false) (h : Solve fuel b = some ((res, none), b2)) :
    ∃ g n bn, res ≠ [] ∧ res.getLast? = some g ∧ b2.States.get? n = some g ∧
      isFinal g = true ∧ (∀ j, j < n → ∃ s, b2.States.get? j = some s ∧ isFinal s = false) ∧
      scanned n 0 b = some bn ∧ b2 = bn.mark g.Hash := by
  obtain ⟨n, bn, hsc, hbefore, hend⟩ := solveLoop_spec fuel 0 b _ b2 h
  rcases hend with ⟨_, hout, _⟩ | ⟨g, r, hg, hfin, hrec, hout, rfl⟩
  · simp at hout
  · simp only [Prod.mk.injEq, and_true] at hout
    subst hout
    simp only [zero_add] at hg hbefore
    have hnode : Node noSide root g :=
      scanned_nodes root n 0 b bn (by
        intro t ht
        rw [hb] at ht
        simp only [List.mem_singleton] at ht
        subst ht
        exact Node.root) hsc g (List.get?_mem hg)
    obtain ⟨e, l, _, htr, rfl⟩ := reconstruct_eq_reverse (Node noSide root)
      (fun n t => n.Step < t.Step) (fun t n ht hh => ht.hop_step hpar hh)
      (fun _ _ hlt => hlt) g res hnode hrec
    have hl : ∃ l2, l = g :: l2 := by
      cases htr with
      | stop h1 _ =>
        have := hnode.eq_root_of_parent_none h1
        subst this
        rw [hnf] at hfin
        cases hfin
      | hop _ n2 l2 _ _ _ => exact ⟨l2, rfl⟩
    obtain ⟨l2, rfl⟩ := hl
    refine ⟨g, n, bn, by simp, by simp, hg, hfin, hbefore, hsc, rfl⟩

/-- Witness for C6: `tinyBoard`, where the goal is found at frontier index 2. -/
theorem Solve_first_goal_witness :
    Solve 3 tinyBoard = some ((tinyResult, none), tinySolved) ∧
    ∃ g n bn, tinyResult ≠ [] ∧ tinyResult.getLast? = some g ∧
      tinySolved.States.get? n = some g ∧ isFinal g = true ∧
      (∀ j, j < n → ∃ s, tinySolved.States.get? j = some s ∧ isFinal s = false) ∧
      scanned n 0 tinyBoard = some bn ∧ tinySolved = bn.mark g.Hash :=
  ⟨by decide,
   Solve_first_goal 3 tinyBoard tinySolved tinyBoard.State tinyResult (by decide) (by decide)
     (by decide) (by decide)⟩

/-! ### C4: replaying the returned list -/

theorem getMoves_name_inj : ∀ m ∈ getMoves, ∀ m2 ∈ getMoves,
    m.getString = m2.getString → m = m2 := by decide

theorem moveOfName_getString : ∀ m ∈ getMoves, moveOfName m.getString = m := by decide

theorem shiftCells_label (p : Piece) (m : Move) (k : Nat) : (shiftCells p m k).Label = p.Label := by
  induction k with
  | zero => rfl
  | succ k ih => exact ih

theorem map_label_set (l : List Piece) (i : Nat) (a x : Piece) (h : l.get? i = some a)
    (hx : x.Label = a.Label) :
    (l.set i x).map (fun p => p.Label) = l.map (fun p => p.Label) := by
  induction l generalizing i with
  | nil => rfl
  | cons b l ih =>
    cases i with
    | zero =>
      simp only [List.get?_cons_zero, Option.some.injEq] at h
      subst h
      simp [hx]
    | succ i =>
      simp only [List.get?_cons_succ] at h
      simp only [List.set_cons_succ, List.map_cons, ih i h]

theorem get?_set_self {α : Type} (l : List α) (i : Nat) (a x : α) (h : l.get? i = some a) :
    (l.set i x).get? i = some x := by
  have hi : i < l.length := by
    by_contra hc
    rw [List.get?_eq_none.2 (by omega)] at h
    cases h
  simp [hi]

theorem index_unique_of_labels (l : List Piece) (hl : (l.map (fun p => p.Label)).Nodup)
    (i j : Nat) (a b : Piece) (ha : l.get? i = some a) (hb : l.get? j = some b)
    (hab : a.Label = b.Label) : i = j := by
  induction l generalizing i j with
  | nil => cases ha
  | cons c l ih =>
    rw [List.map_cons, List.nodup_cons] at hl
    cases i with
    | zero =>
      cases j with
      | zero => rfl
      | succ j =>
        simp only [List.get?_cons_zero, Option.some.injEq, List.get?_cons_succ] at ha hb
        subst ha
        exact absurd (List.mem_map.2 ⟨b, List.get?_mem hb, hab.symm⟩) hl.1
    | succ i =>
      cases j with
      | zero =>
        simp only [List.get?_cons_zero, Option.some.injEq, List.get?_cons_succ] at ha hb
        subst hb
        exact absurd (List.mem_map.2 ⟨a, List.get?_mem ha, hab⟩) hl.1
      | succ j =>
        simp only [List.get?_cons_succ] at ha hb
        rw [ih hl.2 i j ha hb]

theorem Node.labels {root t : State} (hn : Node coalesceSide root t) :
    t.Pieces.map (fun p => p.Label) = root.Pieces.map (fun p => p.Label) := by
  induction hn with
  | root => rfl
  | single p i piece m h _ hside ih =>
    rw [← ih]
    exact map_label_set _ _ piece _ hside.1 rfl
  | double s i piece m h h2 _ hside ih =>
    rw [← ih]
    exact map_label_set _ _ (shiftPiece piece m) _ (get?_set_self _ _ piece _ hside.1) rfl

/-- Along one hop of the walk the arrangement changes by one piece shifted one or two
cells, when labels are pairwise different. -/
theorem Node.hop_between {root t n : State} (hroot : root.Parent = none)
    (hlab : (root.Pieces.map (fun p => p.Label)).Nodup)
    (hn : Node coalesceSide root t) (hh : Hop t n) :
    StepBetween 1 n t ∨ StepBetween 2 n t := by
  obtain ⟨p, hp, hcase⟩ := hh
  cases hn with
  | root => rw [hroot] at hp; cases hp
  | single q j piece m h hq hside =>
    simp only [stepState, Option.some.injEq] at hp
    subst hp
    rcases hcase with ⟨hsame, hpar⟩ | ⟨_, rfl⟩
    · have hns : ¬ IsSingle q := hside.2.2 hsame.1 hsame.2
      cases hq with
      | root => rw [hroot] at hpar; cases hpar
      | single q2 j2 piece2 m2 h2 hq2 hside2 =>
        exact absurd ⟨q2, j2, piece2, m2, h2, hside2.1, hside2.2.1, rfl⟩ hns
      | double s2 j2 piece2 m2 h2 h3 hs1 hside2 =>
        simp only [stepState, doubleState, Option.some.injEq] at hpar
        subst hpar
        have hm : m = m2 := getMoves_name_inj m hside.2.1 m2 hside2.2.1 hsame.2
        subst hm
        have hlq : ((doubleState (stepState s2 j2 piece2 m h2) j2 (shiftPiece piece2 m) m
            h3).Pieces.map (fun p => p.Label)).Nodup := by
          rw [(Node.double s2 j2 piece2 m h2 h3 hs1 hside2).labels]; exact hlab
        have hg1 : (stepState s2 j2 piece2 m h2).Pieces.get? j2 = some (shiftPiece piece2 m) :=
          get?_set_self _ _ piece2 _ hside2.1
        have hg2 : (doubleState (stepState s2 j2 piece2 m h2) j2 (shiftPiece piece2 m) m
            h3).Pieces.get? j2 = some (shiftPiece (shiftPiece piece2 m) m) :=
          get?_set_self _ _ _ _ hg1
        have hj : j = j2 := index_unique_of_labels _ hlq j j2 piece _ hside.1 hg2 hsame.1
        subst hj
        have hpiece : piece = shiftPiece (shiftPiece piece2 m) m := by
          have := hside.1
          rw [hg2] at this
          exact (Option.some.inj this).symm
        subst hpiece
        refine Or.inr ⟨j, shiftPiece piece2 m, m, hg1, hside.2.1, rfl, rfl, ?_⟩
        simp only [stepState, doubleState, shiftCells, List.set_set]
    · exact Or.inl ⟨j, piece, m, hside.1, hside.2.1, rfl, rfl, rfl⟩
  | double s j piece m h h2 hs1 hside =>
    simp only [stepState, doubleState, Option.some.injEq] at hp
    subst hp
    rcases hcase with ⟨_, hpar⟩ | ⟨hns, _⟩
    · simp only [stepState, Option.some.injEq] at hpar
      subst hpar
      refine Or.inr ⟨j, piece, m, hside.1, hside.2.1, rfl, rfl, ?_⟩
      simp only [stepState, doubleState, shiftCells, List.set_set]
    · exact absurd (sameMove_doubleState j piece m h h2 s) hns

theorem blocked_mono {T : ZTable} {t : State} {v v2 : List Nat} (h : Blocked T t v)
    (hsub : v ⊆ v2) : Blocked T t v2 := by
  intro m hm hname M1 hM1 hc
  obtain ⟨h2, e, hmem⟩ := h m hm hname M1 hM1 hc
  exact ⟨h2, e, hsub hmem⟩

theorem looked_refl (b : Board) : Looked b b :=
  ⟨rfl, fun _ hx => hx, fun _ ht => Or.inl ht⟩

theorem looked_trans {a b c : Board} (h1 : Looked a b) (h2 : Looked b c) : Looked a c := by
  obtain ⟨t1, v1, s1⟩ := h1
  obtain ⟨t2, v2, s2⟩ := h2
  refine ⟨t2.trans t1, fun x hx => v2 (v1 hx), ?_⟩
  intro t ht
  rcases s2 t ht with hb | hB
  · rcases s1 t hb with ha | hB
    · exact Or.inl ha
    · exact Or.inr (fun hs => blocked_mono (hB hs) v2)
  · exact Or.inr (fun hs => by rw [← t1]; exact hB hs)

theorem not_isSingle_doubleState (s1 : State) (i : Nat) (piece1 : Piece) (m : Move) (h2 : Nat) :
    ¬ IsSingle (doubleState s1 i piece1 m h2) := by
  rintro ⟨p, j, piece, m2, h, _, _, e⟩
  exact stepState_ne_doubleState _ _ _ _ _ _ _ _ _ _ e.symm

theorem blocked_of_lookahead (T : ZTable) (s : State) (i : Nat) (p : Piece) (m : Move)
    (hash : Nat) (v : List Nat) (hm : m ∈ getMoves) (M1 : Matrix)
    (hM1 : getMatrix (stepState s i p m hash) = some M1)
    (h : canMove (stepState s i p m hash) (shiftPiece p m) M1
          (getPieceStartingBlock (stepState s i p m hash) p).1 m = some false ∨
        ∃ h2, updatedHash T (stepState s i p m hash) (shiftPiece p m) m = some h2 ∧ h2 ∈ v) :
    Blocked T (stepState s i p m hash) v := by
  intro m2 hm2 hname M2 hM2 hc
  have e : m2 = m := getMoves_name_inj m2 hm2 m hm hname
  subst e
  rw [hM1] at hM2
  cases hM2
  have hc2 : canMove (stepState s i p m2 hash) (shiftPiece p m2) M1
      (getPieceStartingBlock (stepState s i p m2 hash) p).1 m2 = some true := hc
  rcases h with h | h
  · rw [h] at hc2
    cases hc2
  · exact h

theorem tryMove_looked (s : State) (M : Matrix) (i : Nat) (p : Piece) (m : Move)
    (b b1 : Board) (hm : m ∈ getMoves)
    (h : tryMove s M i p (getPieceStartingBlock s p).1 b m = some b1) : Looked b b1 := by
  rcases tryMove_cases _ _ _ _ _ _ _ _ h with ⟨_, rfl⟩ | ⟨_, hash, _, hcase⟩
  · exact looked_refl _
  · rcases hcase with ⟨_, rfl⟩ | ⟨_, _, M1, hM1, hlook⟩
    · exact looked_refl _
    · rcases hlook with ⟨hc2, rfl⟩ | ⟨_, h2, hh2, ⟨hv2, rfl⟩ | ⟨_, rfl⟩⟩
      · refine ⟨rfl, fun x hx => List.mem_append_right _ hx, ?_⟩
        intro t ht
        rw [extend_states] at ht
        rcases List.mem_append.1 ht with ht | ht
        · exact Or.inl ht
        · simp only [List.mem_singleton] at ht
          subst ht
          exact Or.inr (fun _ => blocked_of_lookahead _ s i p m hash _ hm M1 hM1 (Or.inl hc2))
      · refine ⟨rfl, fun x hx => List.mem_append_right _ hx, ?_⟩
        intro t ht
        rw [extend_states] at ht
        rcases List.mem_append.1 ht with ht | ht
        · exact Or.inl ht
        · simp only [List.mem_singleton] at ht
          subst ht
          exact Or.inr (fun _ => blocked_of_lookahead _ s i p m hash _ hm M1 hM1
            (Or.inr ⟨h2, hh2, hv2⟩))
      · refine ⟨rfl, fun x hx => List.mem_append_right _ hx, ?_⟩
        intro t ht
        rw [extend_states] at ht
        rcases List.mem_append.1 ht with ht | ht
        · exact Or.inl ht
        · simp only [List.mem_cons, List.mem_singleton, List.not_mem_nil, or_false] at ht
          rcases ht with rfl | rfl
          · exact Or.inr (fun _ => blocked_of_lookahead _ s i p m hash _ hm M1 hM1
              (Or.inr ⟨h2, hh2, by simp [extend_visited, doubleState, stepState]⟩))
          · exact Or.inr (fun hs => absurd hs (not_isSingle_doubleState _ _ _ _ _))

theorem findNewStates_looked (b b2 : Board) (s : State) (h : findNewStates b s = some b2) :
    Looked b b2 :=
  (findNewStates_induct s Looked (fun _ _ _ _ => True) looked_refl
    (fun _ _ _ h1 h2 => looked_trans h1 h2) (fun _ _ _ _ _ _ _ => trivial)
    (fun M i p m b b1 _ _ hm hb => ⟨tryMove_looked s M i p m b b1 hm hb, trivial⟩) b b2 h).1

theorem Successor.node_side {T : ZTable} {root s t : State} {v : List Nat}
    (hlab : (root.Pieces.map (fun p => p.Label)).Nodup)
    (hs : Node coalesceSide root s) (hB : IsSingle s → Blocked T s v)
    (h : Successor T s t)
    (hfresh : ∀ idx piece m h, t = stepState s idx piece m h ∨
      t.Parent = some (stepState s idx piece m h) → h ∉ v) :
    Node coalesceSide root t := by
  have key : ∀ idx piece m h M, s.Pieces.get? idx = some piece → m ∈ getMoves →
      getMatrix s = some M → canMove s piece M (getPieceStartingBlock s piece).1 m = some true →
      updatedHash T s piece m = some h → h ∉ v → coalesceSide s idx piece m := by
    intro idx piece m h M hget hm hM hc hh hnv
    refine ⟨hget, hm, ?_⟩
    intro hl hname hsingle
    obtain ⟨q, i2, piece2, m2, h3, hget2, _, rfl⟩ := id hsingle
    have hg : (stepState q i2 piece2 m2 h3).Pieces.get? i2 = some (shiftPiece piece2 m2) :=
      get?_set_self _ _ piece2 _ hget2
    have hls : ((stepState q i2 piece2 m2 h3).Pieces.map (fun p => p.Label)).Nodup := by
      rw [hs.labels]; exact hlab
    have hidx : idx = i2 := index_unique_of_labels _ hls idx i2 piece _ hget hg hl
    subst hidx
    have hpiece : piece = shiftPiece piece2 m2 := by
      rw [hg] at hget
      exact (Option.some.inj hget).symm
    subst hpiece
    obtain ⟨h4, e4, hmem⟩ := hB hsingle m hm hname M hM hc
    have e5 : updatedHash T (stepState q idx piece2 m2 h3) (shiftPiece piece2 m2) m = some h4 :=
      e4
    rw [hh] at e5
    cases e5
    exact hnv hmem
  cases h with
  | single idx piece m h M hget hm hM hc hh =>
    exact Node.single s idx piece m h hs
      (key idx piece m h M hget hm hM hc hh (hfresh idx piece m h (Or.inl rfl)))
  | double idx piece m h M M1 h2 hget hm hM hc hh _ _ _ =>
    have hside := key idx piece m h M hget hm hM hc hh (hfresh idx piece m h (Or.inr rfl))
    exact Node.double s idx piece m h h2 (Node.single s idx piece m h hs hside) hside

theorem PathInv.mark {root : State} {b : Board} (h : PathInv root b) (x : Nat) :
    PathInv root (b.mark x) :=
  ⟨h.1, fun t ht hs => blocked_mono (h.2 t ht hs) (fun _ hy => List.mem_cons_of_mem _ hy)⟩

theorem PathInv.findNewStates {root : State} {b b2 : Board} {cur : State}
    (hlab : (root.Pieces.map (fun p => p.Label)).Nodup)
    (h : PathInv root b) (hcur : cur ∈ b.States) (hf : findNewStates b cur = some b2) :
    PathInv root b2 := by
  obtain ⟨ht, hv, hlk⟩ := findNewStates_looked b b2 cur hf
  obtain ⟨⟨new, rfl, ⟨_, hfr⟩, hsucc, hpar⟩, _⟩ := findNewStates_expands b b2 cur hf
  constructor
  · intro t hmem
    rw [extend_states] at hmem
    rcases List.mem_append.1 hmem with hmem | hmem
    · exact h.1 t hmem
    · refine (hsucc t hmem).node_side hlab (h.1 cur hcur) (h.2 cur hcur) ?_
      intro idx piece m hh hcase
      rcases hcase with rfl | hp
      · exact hfr _ hmem
      · rcases hpar t hmem with hp2 | ⟨s1, hs1, hp2⟩
        · rw [hp] at hp2
          have e := Option.some.inj hp2
          have : cur.Parent = some cur := by
            conv_lhs => rw [← e]
            rfl
          exact absurd this (State.parent_ne_self _)
        · rw [hp] at hp2
          have := hfr s1 hs1
          rw [← Option.some.inj hp2] at this
          exact this
  · intro t hmem hs
    rcases hlk t hmem with hold | hnew
    · exact blocked_mono (h.2 t hold hs) hv
    · exact hnew hs

theorem set_eq_shiftLabelled (l : List Piece) (hl : (l.map (fun p => p.Label)).Nodup)
    (i : Nat) (a : Piece) (m : Move) (k : Nat) (ha : l.get? i = some a) :
    shiftLabelled l a.Label m k = l.set i (shiftCells a m k) := by
  induction l generalizing i with
  | nil => cases ha
  | cons b l ih =>
    rw [List.map_cons, List.nodup_cons] at hl
    cases i with
    | zero =>
      simp only [List.get?_cons_zero, Option.some.injEq] at ha
      subst ha
      simp only [shiftLabelled, List.map_cons, if_true, List.set_cons_zero, List.cons.injEq,
        true_and]
      conv_rhs => rw [← List.map_id l]
      apply List.map_congr_left
      intro p hp
      have : p.Label ≠ b.Label := fun e => hl.1 (List.mem_map.2 ⟨p, hp, e⟩)
      simp [this]
    | succ i =>
      simp only [List.get?_cons_succ] at ha
      have hne : b.Label ≠ a.Label := fun e =>
        hl.1 (List.mem_map.2 ⟨a, List.get?_mem ha, e.symm⟩)
      have := ih hl.2 i ha
      simp only [shiftLabelled] at this ⊢
      simp only [List.map_cons, hne, if_false, List.set_cons_succ, this]

theorem StepBetween.replay_eq {k : Nat} {n t : State} (h : StepBetween k n t)
    (hl : (n.Pieces.map (fun p => p.Label)).Nodup) :
    shiftLabelled n.Pieces t.MovePiece.Label (moveOfName t.MoveDirection) k = t.Pieces ∧
      t.Pieces.map (fun p => p.Label) = n.Pieces.map (fun p => p.Label) := by
  obtain ⟨i, piece, m, hget, hm, hlabel, hname, hp⟩ := h
  constructor
  · rw [← hlabel, ← hname, moveOfName_getString m hm, hp]
    exact set_eq_shiftLabelled _ hl i piece m k hget
  · rw [hp]
    exact map_label_set _ _ piece _ hget (shiftCells_label _ _ _)

theorem chain_replay (e : State) (l : List State) (h : List.Chain PathStep e l)
    (hl : (e.Pieces.map (fun p => p.Label)).Nodup) :
    ∃ ks : List Nat, ks.length = l.length ∧ (∀ k ∈ ks, k = 1 ∨ k = 2) ∧
      ∀ last, (e :: l).getLast? = some last → replay e.Pieces (l.zip ks) = last.Pieces := by
  induction l generalizing e with
  | nil =>
    refine ⟨[], rfl, by simp, ?_⟩
    intro last hlast
    simp only [List.getLast?_singleton, Option.some.injEq] at hlast
    subst hlast
    rfl
  | cons a l ih =>
    rw [List.chain_cons] at h
    obtain ⟨⟨_, hstep⟩, hrest⟩ := h
    have hk : ∃ k, (k = 1 ∨ k = 2) ∧ StepBetween k e a := by
      rcases hstep with h1 | h2
      · exact ⟨1, Or.inl rfl, h1⟩
      · exact ⟨2, Or.inr rfl, h2⟩
    obtain ⟨k, hk12, hsb⟩ := hk
    obtain ⟨hrep, hlab⟩ := hsb.replay_eq hl
    obtain ⟨ks, hlen, hks, hlast⟩ := ih a hrest (by rw [hlab]; exact hl)
    refine ⟨k :: ks, by simp [hlen], ?_, ?_⟩
    · intro x hx
      rcases List.mem_cons.1 hx with rfl | hx
      · exact hk12
      · exact hks x hx
    · intro last hl2
      rw [List.getLast?_cons_cons] at hl2
      simp only [List.zip_cons_cons, replay, List.foldl_cons]
      rw [hrep]
      exact hlast last hl2

theorem Trail.end_parent {rel : State → State → Prop} {e t : State} {l : List State}
    (h : Trail rel e t l) : e.Parent = none := by
  induction h with
  | stop h1 _ => exact h1
  | hop _ _ _ _ _ _ ih => exact ih

theorem isFinal_congr (s t : State) (h : s.Pieces = t.Pieces) : isFinal s = isFinal t := by
  unfold isFinal getPieceStartingBlock
  rw [h]

theorem scanned_pathInv (root : State) (hlab : (root.Pieces.map (fun p => p.Label)).Nodup)
    (n idx : Nat) (b bn : Board) (hI : PathInv root b) (h : scanned n idx b = some bn) :
    PathInv root bn :=
  scanned_induct (PathInv root) (fun _ cur hb _ => hb.mark cur.Hash)
    (fun _ _ _ hb hcur hf => hb.findNewStates hlab hcur hf) n idx b bn hI h

theorem pathInv_init (root : State) (b : Board) (hb : b.States = [root])
    (hpar : root.Parent = none) : PathInv root b := by
  constructor
  · intro t ht
    rw [hb] at ht
    simp only [List.mem_singleton] at ht
    subst ht
    exact Node.root
  · intro t ht hs
    rw [hb] at ht
    simp only [List.mem_singleton] at ht
    subst ht
    obtain ⟨p, i, piece, m, h, _, _, e⟩ := hs
    rw [e] at hpar
    simp [stepState] at hpar

/-- The list `Solve` returns is a path from the root to the arrangement found final. -/
theorem Solve_path (fuel : Nat) (b b2 : Board) (root : State) (res : List State)
    (hb : b.States = [root]) (hpar : root.Parent = none)
    (hlab : (root.Pieces.map (fun p => p.Label)).Nodup)
    (h : Solve fuel b = some ((res, none), b2)) :
    ∃ g, g ∈ b2.States ∧ isFinal g = true ∧ List.Chain PathStep root res ∧
      (root :: res).getLast? = some g := by
  obtain ⟨n, bn, hsc, _, hend⟩ := solveLoop_spec fuel 0 b _ b2 h
  rcases hend with ⟨_, hout, _⟩ | ⟨g, r, hg, hfin, hrec, hout, rfl⟩
  · simp at hout
  · simp only [Prod.mk.injEq, and_true] at hout
    subst hout
    have hinv := scanned_pathInv root hlab n 0 b bn (pathInv_init root b hb hpar) hsc
    have hnode : Node coalesceSide root g := hinv.1 g (List.get?_mem hg)
    obtain ⟨e, l, he, htr, rfl⟩ := reconstruct_eq_reverse (Node coalesceSide root) PathStep
      (fun t n ht hh => ⟨(ht.hop_step hpar hh).1,
        (ht.hop_step hpar hh).2, ht.hop_between hpar hlab hh⟩)
      (fun _ _ hps => hps.1) g res hnode hrec
    have : e = root := he.eq_root_of_parent_none htr.end_parent
    subst this
    exact ⟨g, List.get?_mem hg, hfin, htr.chain.1, htr.chain.2⟩

/-- C4 (amended): on a board whose frontier holds only a root without parent and with
pairwise different labels, if `Solve` returns a list without error then, starting from the
root arrangement and applying for each returned entry in order a shift of the piece
labelled `entry.MovePiece.Label` in the direction `entry.MoveDirection` by one cell or by
two cells (two for an entry that coalesces a lookahead double step), one obtains an
arrangement that satisfies `isFinal`. -/
theorem Solve_replay (fuel : Nat) (b b2 : Board) (root : State) (res : List State)
    (hb : b.States = [root]) (hpar : root.Parent = none)
    (hlab : (root.Pieces.map (fun p => p.Label)).Nodup)
    (h : Solve fuel b = some ((res, none), b2)) :
    ∃ ks : List Nat, ks.length = res.length ∧ (∀ k ∈ ks, k = 1 ∨ k = 2) ∧
      isFinal (rootState (replay root.Pieces (res.zip ks)) 0) = true := by
  obtain ⟨g, _, hfin, hchain, hlast⟩ := Solve_path fuel b b2 root res hb hpar hlab h
  obtain ⟨ks, hlen, hks, hrep⟩ := chain_replay root res hchain hlab
  refine ⟨ks, hlen, hks, ?_⟩
  rw [isFinal_congr _ g (hrep g hlast)]
  exact hfin

/-- Witness for C4: `tinyBoard`, whose returned list has one entry, a double step. -/
theorem Solve_replay_witness :
    Solve 3 tinyBoard = some ((tinyResult, none), tinySolved) ∧
    ∃ ks : List Nat, ks.length = tinyResult.length ∧ (∀ k ∈ ks, k = 1 ∨ k = 2) ∧
      isFinal (rootState (replay tinyBoard.State.Pieces (tinyResult.zip ks)) 0) = true :=
  ⟨by decide,
   Solve_replay 3 tinyBoard tinySolved tinyBoard.State tinyResult (by decide) (by decide)
     (by decide) (by decide)⟩

/-- Counterexample to C4 as stated: on `tinyBoard` (piece `b` at (1,1)) `Solve` returns
without error the single entry "b down", which stands for the lookahead double step to
(1,3); replaying it as a one-cell shift leaves `b` at (1,2), which is not final, while the
two-cell replay is. -/
theorem Solve_replay_one_cell_counterexample :
    Solve 3 tinyBoard = some ((tinyResult, none), tinySolved) ∧
    tinyResult.map (fun e => (e.MovePiece.Label, e.MoveDirection)) = [("b", "down")] ∧
    isFinal (rootState (replayOneCell tinyBoard.State.Pieces tinyResult) 0) = false ∧
    isFinal (rootState (replay tinyBoard.State.Pieces (tinyResult.zip [2])) 0) = true := by
  decide

/-! ### C3: the starting layout is solved -/

theorem index_some_of_lt {α : Type} (l : List α) (i : Int) (h0 : 0 ≤ i)
    (h1 : i < l.length) : ∃ a, index l i = some a ∧ a ∈ l := by
  have hl : i.toNat < l.length := by omega
  exact ⟨_, index_of_lt l i h0 hl, List.get_mem _ _ _⟩

theorem tableAt_some (T : ZTable) (hT : TableOK T) (y x : Int) (c : Nat)
    (hy0 : 0 ≤ y) (hy1 : y < 5) (hx0 : 0 ≤ x) (hx1 : x < 4) (hc : c < 5) :
    ∃ v, tableAt T y x c = some v := by
  obtain ⟨hlen, hrows⟩ := hT
  obtain ⟨row, hrow, hmem⟩ := index_some_of_lt T y hy0 (by omega)
  obtain ⟨hrl, hcells⟩ := hrows row hmem
  obtain ⟨cell, hcell, hmem2⟩ := index_some_of_lt row x hx0 (by omega)
  have hcl := hcells cell hmem2
  unfold tableAt
  rw [hrow, Option.some_bind, hcell, Option.some_bind]
  exact ⟨cell.get ⟨c, by omega⟩, by simp [List.getElem?_eq_getElem (show c < cell.length by omega)]⟩

theorem index_mem {α : Type} (l : List α) (i : Int) (a : α) (h : index l i = some a) :
    a ∈ l := by
  unfold index at h
  split_ifs at h
  exact List.get?_mem h

theorem tableAt_below (T : ZTable) (N : Nat) (hT : TableBelow T N) (y x : Int) (c v : Nat)
    (h : tableAt T y x c = some v) : v < 2 ^ N := by
  unfold tableAt at h
  obtain ⟨row, hrow, h2⟩ := Option.bind_eq_some.1 h
  obtain ⟨cell, hcell, h3⟩ := Option.bind_eq_some.1 h2
  exact hT row (index_mem _ _ _ hrow) cell (index_mem _ _ _ hcell) v (List.get?_mem h3)

theorem pieceTypeOf_some (p : Piece) (hw1 : 1 ≤ p.Width) (hw2 : p.Width ≤ 2)
    (hh1 : 1 ≤ p.Height) (hh2 : p.Height ≤ 2) :
    ∃ c, pieceTypeOf p = some c ∧ 1 ≤ c ∧ c < 5 := by
  have hw : p.Width = 1 ∨ p.Width = 2 := by omega
  have hh : p.Height = 1 ∨ p.Height = 2 := by omega
  unfold pieceTypeOf
  rcases hw with e1 | e1 <;> rcases hh with e2 | e2 <;> rw [e1, e2]
  · exact ⟨4, by decide, by decide, by decide⟩
  · exact ⟨1, by decide, by decide, by decide⟩
  · exact ⟨3, by decide, by decide, by decide⟩
  · exact ⟨2, by decide, by decide, by decide⟩

theorem updateBlock_some (T : ZTable) (hT : TableOK T) (c : Nat) (hc : c < 5) (m : Move)
    (hash : Nat) (b : Block) (hb : b.Inside) (hs : (b.shift m).Inside) :
    ∃ v, updateBlock T c m hash b = some v := by
  obtain ⟨b0, b1, b2, b3⟩ := hb
  obtain ⟨s0, s1, s2, s3⟩ := hs
  simp only [Block.shift] at s0 s1 s2 s3
  obtain ⟨v1, e1⟩ := tableAt_some T hT b.Y b.X c b2 b3 b0 b1 hc
  obtain ⟨v2, e2⟩ := tableAt_some T hT b.Y b.X 0 b2 b3 b0 b1 (by omega)
  obtain ⟨v3, e3⟩ := tableAt_some T hT (b.Y + m.Y) (b.X + m.X) 0 s2 s3 s0 s1 (by omega)
  obtain ⟨v4, e4⟩ := tableAt_some T hT (b.Y + m.Y) (b.X + m.X) c s2 s3 s0 s1 hc
  unfold updateBlock
  rw [e1, Option.some_bind, e2, Option.some_bind, e3, Option.some_bind, e4, Option.some_bind]
  exact ⟨_, rfl⟩

theorem updateBlock_below (T : ZTable) (N : Nat) (hT : TableBelow T N) (c : Nat) (m : Move)
    (hash : Nat) (b : Block) (v : Nat) (hh : hash < 2 ^ N)
    (h : updateBlock T c m hash b = some v) : v < 2 ^ N := by
  unfold updateBlock at h
  obtain ⟨v1, e1, h⟩ := Option.bind_eq_some.1 h
  obtain ⟨v2, e2, h⟩ := Option.bind_eq_some.1 h
  obtain ⟨v3, e3, h⟩ := Option.bind_eq_some.1 h
  obtain ⟨v4, e4, h⟩ := Option.bind_eq_some.1 h
  cases h
  have := tableAt_below T N hT _ _ _ _ e1
  have := tableAt_below T N hT _ _ _ _ e2
  have := tableAt_below T N hT _ _ _ _ e3
  have := tableAt_below T N hT _ _ _ _ e4
  exact Nat.xor_lt_two_pow (Nat.xor_lt_two_pow (Nat.xor_lt_two_pow
    (Nat.xor_lt_two_pow hh ‹_›) ‹_›) ‹_›) ‹_›

theorem foldlM_updateBlock_some (T : ZTable) (hT : TableOK T) (c : Nat) (hc : c < 5) (m : Move)
    (blocks : List Block) (hash : Nat)
    (hb : ∀ b ∈ blocks, b.Inside ∧ (b.shift m).Inside) :
    ∃ v, blocks.foldlM (updateBlock T c m) hash = some v := by
  induction blocks generalizing hash with
  | nil => exact ⟨hash, rfl⟩
  | cons b bs ih =>
    obtain ⟨v, e⟩ := updateBlock_some T hT c hc m hash b (hb b (List.mem_cons_self _ _)).1
      (hb b (List.mem_cons_self _ _)).2
    rw [List.foldlM_cons, e]
    exact ih v (fun b2 h2 => hb b2 (List.mem_cons_of_mem _ h2))

theorem foldlM_updateBlock_below (T : ZTable) (N : Nat) (hT : TableBelow T N) (c : Nat)
    (m : Move) (blocks : List Block) (hash v : Nat) (hh : hash < 2 ^ N)
    (h : blocks.foldlM (updateBlock T c m) hash = some v) : v < 2 ^ N := by
  induction blocks generalizing hash with
  | nil =>
    simp only [List.foldlM_nil] at h
    cases h
    exact hh
  | cons b bs ih =>
    rw [List.foldlM_cons] at h
    obtain ⟨v1, e1, h⟩ := Option.bind_eq_some.1 h
    exact ih v1 (updateBlock_below T N hT c m hash b v1 hh e1) h

theorem updatedHash_some (T : ZTable) (hT : TableOK T) (s : State) (p : Piece) (m : Move)
    (hin : p.InGrid) (hw : p.Width ≤ 2 ∧ p.Height ≤ 2)
    (hs : ∀ b ∈ p.Blocks, (b.shift m).Inside) : ∃ v, updatedHash T s p m = some v := by
  have hins := hin.inside
  obtain ⟨ax, ay, hr⟩ := hin
  obtain ⟨c, hc, _, hc5⟩ := pieceTypeOf_some p hr.1 hw.1 hr.2.1 hw.2
  unfold updatedHash
  rw [hc, Option.some_bind]
  exact foldlM_updateBlock_some T hT c hc5 m p.Blocks s.Hash (fun b hb => ⟨hins b hb, hs b hb⟩)

theorem updatedHash_below (T : ZTable) (N : Nat) (hT : TableBelow T N) (s : State) (p : Piece)
    (m : Move) (v : Nat) (hh : s.Hash < 2 ^ N) (h : updatedHash T s p m = some v) :
    v < 2 ^ N := by
  unfold updatedHash at h
  obtain ⟨c, _, h⟩ := Option.bind_eq_some.1 h
  exact foldlM_updateBlock_below T N hT c m p.Blocks s.Hash v hh h

theorem intRange_map_add (a d : Int) (n : Nat) :
    (intRange a n).map (fun v => v + d) = intRange (a + d) n := by
  induction n generalizing a with
  | zero => rfl
  | succ n ih =>
    simp only [intRange, List.map_cons, List.cons.injEq, true_and]
    rw [ih (a + 1)]
    congr 1
    omega

theorem rectCells_map_shift (ax ay : Int) (w h : Nat) (m : Move) :
    (rectCells ax ay w h).map (fun b => (⟨b.X + m.X, b.Y + m.Y⟩ : Block))
      = rectCells (ax + m.X) (ay + m.Y) w h := by
  unfold rectCells
  rw [List.map_flatMap, ← intRange_map_add ay m.Y h, List.flatMap_map]
  congr 1
  funext y
  rw [List.map_map, ← intRange_map_add ax m.X w, List.map_map]
  rfl

theorem shiftPiece_isRectAt {p : Piece} {ax ay : Int} (m : Move) (hr : p.IsRectAt ax ay)
    (hs : ∀ b ∈ p.Blocks, (b.shift m).Inside) :
    (shiftPiece p m).IsRectAt (ax + m.X) (ay + m.Y) := by
  have hm := hr.mem_iff
  obtain ⟨hw, hh, hx0, hx1, hy0, hy1, hperm⟩ := hr
  have h1 := hs ⟨ax, ay⟩ ((hm _).2 (by simp; omega))
  have h2 := hs ⟨ax + p.Width - 1, ay + p.Height - 1⟩ ((hm _).2 (by simp; omega))
  simp only [Block.Inside, Block.shift] at h1 h2
  refine ⟨hw, hh, by omega, ?_, by omega, ?_, ?_⟩
  · show ax + m.X + p.Width ≤ 4
    omega
  · show ay + m.Y + p.Height ≤ 5
    omega
  · show (p.Blocks.map _).Perm (rectCells _ _ p.Width.toNat p.Height.toNat)
    rw [← rectCells_map_shift]
    exact hperm.map _

theorem mem_shiftPiece (p : Piece) (m : Move) (c : Block) :
    c ∈ (shiftPiece p m).Blocks ↔ ∃ b ∈ p.Blocks, b.shift m = c := by
  simp only [shiftPiece, List.mem_map, Block.shift]

theorem ne_of_mem_labels {pieces : List Piece}
    (hl : pieces.Pairwise (fun p q => p.Label ≠ q.Label)) {i j : Nat} {a b : Piece}
    (ha : pieces.get? i = some a) (hb : pieces.get? j = some b) (hij : i ≠ j) : a ≠ b := by
  intro e
  apply hij
  have hn : (pieces.map (fun p => p.Label)).Nodup := by
    unfold List.Nodup
    rw [List.pairwise_map]
    exact hl
  exact index_unique_of_labels pieces hn i j a b ha hb (by rw [e])

theorem get?_set_ne' {α : Type} (l : List α) (i j : Nat) (x : α) (h : i ≠ j) :
    (l.set i x).get? j = l.get? j := by
  simp [List.getElem?_set, h]

theorem pairwise_set_of_symm {α : Type} (R : α → α → Prop) (hsym : ∀ a b, R a b → R b a)
    (l : List α) (i : Nat) (x : α) (hl : l.Pairwise R)
    (hx : ∀ j a, j ≠ i → l.get? j = some a → R x a) : (l.set i x).Pairwise R := by
  rw [List.pairwise_iff_get] at hl ⊢
  intro a b hab
  have ha : a.val < l.length := by simpa using a.isLt
  have hb : b.val < l.length := by simpa using b.isLt
  have hab' : a.val < b.val := hab
  simp only [List.get_eq_getElem, List.getElem_set]
  by_cases h1 : i = a.val
  · have h2 : ¬ i = b.val := by omega
    rw [if_pos h1, if_neg h2]
    exact hx b.val _ (by omega) (by simp [List.getElem?_eq_getElem hb])
  · by_cases h2 : i = b.val
    · rw [if_neg h1, if_pos h2]
      exact hsym _ _ (hx a.val _ (by omega) (by simp [List.getElem?_eq_getElem ha]))
    · rw [if_neg h1, if_neg h2]
      exact hl ⟨a.val, ha⟩ ⟨b.val, hb⟩ hab'

theorem disjointFrom_symm (a b : Piece) (h : a.DisjointFrom b) : b.DisjointFrom a :=
  fun c hc hca => h c hca hc

theorem shapes_set (l : List Piece) (i : Nat) (p : Piece) (m : Move)
    (h : l.get? i = some p) : shapes (l.set i (shiftPiece p m)) = shapes l := by
  unfold shapes
  induction l generalizing i with
  | nil => rfl
  | cons b l ih =>
    cases i with
    | zero =>
      simp only [List.get?_cons_zero, Option.some.injEq] at h
      subst h
      rfl
    | succ i =>
      simp only [List.get?_cons_succ] at h
      simp only [List.set_cons_succ, List.map_cons, ih i h]

theorem labelsDistinct_of_shapes {l l2 : List Piece} (h : shapes l2 = shapes l)
    (hl : LabelsDistinct l) : LabelsDistinct l2 := by
  have e : l2.map (fun p => p.Label) = l.map (fun p => p.Label) := by
    have := congrArg (List.map (fun t : String × Int × Int => t.1)) h
    simpa [shapes, List.map_map, Function.comp] using this
  obtain ⟨h1, h2⟩ := hl
  constructor
  · have : (l.map (fun p => p.Label)).Pairwise (fun a b => a ≠ b) := by
      rw [List.pairwise_map]; exact h1
    rw [← e, List.pairwise_map] at this
    exact this
  · intro p hp
    have : p.Label ∈ l.map (fun p => p.Label) := by
      rw [← e]; exact List.mem_map.2 ⟨p, hp, rfl⟩
    obtain ⟨q, hq, hqe⟩ := List.mem_map.1 this
    rw [← hqe]
    exact h2 q hq

theorem sizes_of_shapes {l l2 : List Piece} (h : shapes l2 = shapes l)
    (hl : ∀ p ∈ l, p.Width ≤ 2 ∧ p.Height ≤ 2) : ∀ p ∈ l2, p.Width ≤ 2 ∧ p.Height ≤ 2 := by
  intro p hp
  have : (p.Label, p.Width, p.Height) ∈ shapes l := by
    rw [← h]; exact List.mem_map.2 ⟨p, hp, rfl⟩
  obtain ⟨q, hq, hqe⟩ := List.mem_map.1 this
  simp only [Prod.mk.injEq] at hqe
  rw [← hqe.2.1, ← hqe.2.2]
  exact hl q hq

/-- A legal one-cell shift keeps the arrangement valid. -/
theorem arrangement_step {pieces : List Piece} (ha : Arrangement pieces) (i : Nat) (p : Piece)
    (m : Move) (hget : pieces.get? i = some p) (hd : DestFree pieces p m) :
    Arrangement (pieces.set i (shiftPiece p m)) := by
  obtain ⟨⟨hin, hdis⟩, hlab, hsz⟩ := ha
  have hp : p ∈ pieces := List.get?_mem hget
  have hsh := shapes_set pieces i p m hget
  refine ⟨⟨?_, ?_⟩, labelsDistinct_of_shapes hsh hlab, sizes_of_shapes hsh hsz⟩
  · intro q hq
    rcases List.mem_or_eq_of_mem_set hq with hq | rfl
    · exact hin q hq
    · obtain ⟨ax, ay, hr⟩ := hin p hp
      exact ⟨_, _, shiftPiece_isRectAt m hr (fun b hb => (hd b hb).1)⟩
  · apply pairwise_set_of_symm _ disjointFrom_symm _ _ _ hdis
    intro j a hj hja c hc
    obtain ⟨b, hb, rfl⟩ := (mem_shiftPiece p m c).1 hc
    exact (hd b hb).2 a (List.get?_mem hja) (ne_of_mem_labels hlab.1 hja hget hj)

theorem tryMove_double_seen (s : State) (M : Matrix) (i : Nat) (p : Piece) (sb : Block)
    (b : Board) (m : Move) (hash h2 : Nat) (hc : canMove s p M sb m = some true)
    (hh : updatedHash b.ZobristHash s p m = some hash) (hv : hash ∉ b.VisitedStatesHashes)
    (hi : i < s.Pieces.length)
    (hlook : (getMatrix (stepState s i p m hash)).bind (fun M1 =>
      canMove (stepState s i p m hash) (shiftPiece p m) M1
        (getPieceStartingBlock (stepState s i p m hash) p).1 m) = some true)
    (hh2 : updatedHash b.ZobristHash (stepState s i p m hash) (shiftPiece p m) m = some h2)
    (hseen : h2 = hash ∨ h2 ∈ b.VisitedStatesHashes) :
    tryMove s M i p sb b m = some (b.extend [stepState s i p m hash]) := by
  obtain ⟨M1, hM1, hc2⟩ := Option.bind_eq_some.1 hlook
  have hmp : movePiece b s i p m = some (stepState s i p m hash, none) := by
    unfold movePiece
    rw [getUpdatedZobristHash_eq, hh]
    simp only [Option.some_bind, if_neg hv, assign_natCast, if_pos hi]
    rfl
  have hv1 : (stepState s i p m hash).Hash ∉ b.VisitedStatesHashes := hv
  have hidx : (stepState s i p m hash).Pieces.get? i = some (shiftPiece p m) := by
    simp [stepState, hi]
  have hv3 : h2 ∈ (b.record (stepState s i p m hash)).VisitedStatesHashes := by
    simp only [Board.record, List.mem_cons]
    exact hseen
  have hmp2 : movePiece (b.record (stepState s i p m hash)) (stepState s i p m hash) i
      (shiftPiece p m) m = some (zeroState, some "State visited already") := by
    unfold movePiece
    rw [getUpdatedZobristHash_eq]
    have : (b.record (stepState s i p m hash)).ZobristHash = b.ZobristHash := rfl
    rw [this, hh2]
    simp only [Option.some_bind, if_pos hv3]
  unfold tryMove
  rw [hc]
  simp only [Option.some_bind, if_true, hmp, if_neg hv1]
  unfold lookahead
  rw [hM1]
  simp only [Option.some_bind, index_natCast, hidx, hc2, if_true, hmp2, reduceCtorEq, if_false]
  rfl

/-- On a valid arrangement and a well-shaped table the body of the move loop never panics. -/
theorem tryMove_total (s : State) (M : Matrix) (i : Nat) (p : Piece) (m : Move) (b : Board)
    (ha : Arrangement s.Pieces) (hT : TableOK b.ZobristHash) (hM : getMatrix s = some M)
    (hget : s.Pieces.get? i = some p) (hm : m ∈ getMoves) :
    ∃ b1, tryMove s M i p (getPieceStartingBlock s p).1 b m = some b1 := by
  have hp : p ∈ s.Pieces := List.get?_mem hget
  obtain ⟨M2, hM2, hc⟩ := canMove_decides_destFree s p m ha.1 ha.2.1 hp hm
  rw [hM] at hM2
  cases hM2
  by_cases hd : DestFree s.Pieces p m
  · rw [decide_eq_true hd] at hc
    obtain ⟨hash, hh⟩ := updatedHash_some b.ZobristHash hT s p m (ha.1.1 p hp) (ha.2.2 p hp)
      (fun c hcb => (hd c hcb).1)
    by_cases hv : hash ∈ b.VisitedStatesHashes
    · exact ⟨b, tryMove_of_visited _ _ _ _ _ _ _ hash hc hh hv⟩
    · have hi : i < s.Pieces.length := by
        by_contra hcon
        rw [List.get?_eq_none.2 (by omega)] at hget
        cases hget
      have ha1 : Arrangement (stepState s i p m hash).Pieces := arrangement_step ha i p m hget hd
      have hp1 : shiftPiece p m ∈ (stepState s i p m hash).Pieces :=
        List.get?_mem (get?_set_self _ _ p _ hget)
      obtain ⟨M1, hM1, hc1⟩ := canMove_decides_destFree (stepState s i p m hash)
        (shiftPiece p m) m ha1.1 ha1.2.1 hp1 hm
      have hc1' : canMove (stepState s i p m hash) (shiftPiece p m) M1
          (getPieceStartingBlock (stepState s i p m hash) p).1 m
            = some (decide (DestFree (stepState s i p m hash).Pieces (shiftPiece p m) m)) := hc1
      by_cases hd1 : DestFree (stepState s i p m hash).Pieces (shiftPiece p m) m
      · rw [decide_eq_true hd1] at hc1'
        obtain ⟨h2, hh2⟩ := updatedHash_some b.ZobristHash hT (stepState s i p m hash)
          (shiftPiece p m) m (ha1.1.1 _ hp1) (ha1.2.2 _ hp1) (fun c hcb => (hd1 c hcb).1)
        by_cases hseen : h2 = hash ∨ h2 ∈ b.VisitedStatesHashes
        · exact ⟨_, tryMove_double_seen s M i p _ b m hash h2 hc hh hv hi
            (by rw [hM1]; exact hc1') hh2 hseen⟩
        · push_neg at hseen
          exact ⟨_, tryMove_double s M i p _ b m hash h2 hc hh hv hi
            (by rw [hM1]; exact hc1') hh2 hseen.1 hseen.2⟩
      · rw [decide_eq_false hd1] at hc1'
        exact ⟨_, tryMove_single s M i p _ b m hash hc hh hv hi (by rw [hM1]; exact hc1')⟩
  · rw [decide_eq_false hd] at hc
    exact ⟨b, tryMove_of_false _ _ _ _ _ _ _ hc⟩

theorem tryMove_table (s : State) (M : Matrix) (i : Nat) (p : Piece) (sb : Block) (m : Move)
    (b b1 : Board) (h : tryMove s M i p sb b m = some b1) : b1.ZobristHash = b.ZobristHash := by
  rcases tryMove_cases _ _ _ _ _ _ _ _ h with ⟨_, rfl⟩ | ⟨_, hash, _, hcase⟩
  · rfl
  · rcases hcase with ⟨_, rfl⟩ | ⟨_, _, M1, _, hlook⟩
    · rfl
    · rcases hlook with ⟨_, rfl⟩ | ⟨_, h2, _, ⟨_, rfl⟩ | ⟨_, rfl⟩⟩ <;> rfl

theorem movesLoop_total (s : State) (M : Matrix) (i : Nat) (p : Piece)
    (ha : Arrangement s.Pieces) (hM : getMatrix s = some M) (hget : s.Pieces.get? i = some p)
    (moves : List Move) (hmoves : ∀ m ∈ moves, m ∈ getMoves) (b : Board)
    (hT : TableOK b.ZobristHash) :
    ∃ b1, movesLoop s M i p (getPieceStartingBlock s p).1 moves b = some b1 ∧
      b1.ZobristHash = b.ZobristHash := by
  induction moves generalizing b with
  | nil => exact ⟨b, rfl, rfl⟩
  | cons m rest ih =>
    obtain ⟨b1, h1⟩ := tryMove_total s M i p m b ha hT hM hget (hmoves m (List.mem_cons_self _ _))
    have ht := tryMove_table _ _ _ _ _ _ _ _ h1
    obtain ⟨b2, h2, ht2⟩ := ih (fun m2 hm2 => hmoves m2 (List.mem_cons_of_mem _ hm2)) b1
      (by rw [ht]; exact hT)
    refine ⟨b2, ?_, ht2.trans ht⟩
    unfold movesLoop
    rw [h1]
    exact h2

theorem piecesLoop_total (s : State) (M : Matrix) (ha : Arrangement s.Pieces)
    (hM : getMatrix s = some M) (l : List Piece) (k : Nat)
    (hl : ∀ j p, l.get? j = some p → s.Pieces.get? (k + j) = some p) (b : Board)
    (hT : TableOK b.ZobristHash) : ∃ b1, piecesLoop s M l k b = some b1 := by
  induction l generalizing b k with
  | nil => exact ⟨b, rfl⟩
  | cons p rest ih =>
    obtain ⟨b1, h1, ht⟩ := movesLoop_total s M k p ha hM (by simpa using hl 0 p (by simp))
      getMoves (fun m hm => hm) b hT
    obtain ⟨b2, h2⟩ := ih (k + 1) (fun j q hq => by
      have := hl (j + 1) q (by simpa using hq)
      rwa [show k + (j + 1) = k + 1 + j by omega] at this) b1 (by rw [ht]; exact hT)
    refine ⟨b2, ?_⟩
    unfold piecesLoop
    rw [h1]
    exact h2

/-- Expanding a valid arrangement over a well-shaped table never panics. -/
theorem findNewStates_total (b : Board) (s : State) (ha : Arrangement s.Pieces)
    (hT : TableOK b.ZobristHash) : ∃ b1, findNewStates b s = some b1 := by
  obtain ⟨M, hM, _⟩ := getMatrix_spec s ha.1.1 ha.2.1.2
  obtain ⟨b1, h1⟩ := piecesLoop_total s M ha hM s.Pieces 0 (fun j p hj => by simpa using hj) b hT
  refine ⟨b1, ?_⟩
  unfold findNewStates
  rw [hM]
  exact h1

theorem pathStep_of_legal (T : ZTable) (s : State) (i : Nat) (p : Piece) (m : Move)
    (h : Nat) (M : Matrix) (hget : s.Pieces.get? i = some p) (hm : m ∈ getMoves)
    (hM : getMatrix s = some M)
    (hc : canMove s p M (getPieceStartingBlock s p).1 m = some true)
    (hh : updatedHash T s p m = some h) :
    pathStep T (s.Pieces, s.Hash) (i, m) = some ((stepState s i p m h).Pieces, h) := by
  have hM2 : getMatrix (rootState s.Pieces 0) = some M := hM
  have hc2 : canMove (rootState s.Pieces 0) p M
      (getPieceStartingBlock (rootState s.Pieces 0) p).1 m = some true := hc
  have hh2 : updatedHash T (rootState s.Pieces s.Hash) p m = some h := hh
  unfold pathStep legalShift
  simp only [hget, Option.some_bind, hM2, hc2, true_and, if_pos hm, hh2]
  rfl

theorem runPath_snoc (T : ZTable) (ms : List (Nat × Move)) (x : Nat × Move)
    (ph : List Piece × Nat) :
    runPath T (ms ++ [x]) ph = (runPath T ms ph).bind (fun r => pathStep T r x) := by
  unfold runPath
  rw [List.foldlM_append]
  cases List.foldlM (pathStep T) ph ms with
  | none => rfl
  | some r => simp [List.foldlM_cons, List.foldlM_nil]

theorem Successor.reach {T : ZTable} {s t : State} {r : List Piece × Nat}
    {ms : List (Nat × Move)} (hs : runPath T ms r = some (s.Pieces, s.Hash))
    (h : Successor T s t) : ∃ ms2, runPath T ms2 r = some (t.Pieces, t.Hash) := by
  cases h with
  | single idx piece m h M hget hm hM hc hh =>
    refine ⟨ms ++ [(idx, m)], ?_⟩
    rw [runPath_snoc, hs, Option.some_bind]
    exact pathStep_of_legal T s idx piece m h M hget hm hM hc hh
  | double idx piece m h M M1 h2 hget hm hM hc hh hM1 hc1 hh2 =>
    refine ⟨(ms ++ [(idx, m)]) ++ [(idx, m)], ?_⟩
    rw [runPath_snoc, runPath_snoc, hs, Option.some_bind,
      pathStep_of_legal T s idx piece m h M hget hm hM hc hh, Option.some_bind]
    exact pathStep_of_legal T (stepState s idx piece m h) idx (shiftPiece piece m) m h2 M1
      (get?_set_self _ _ piece _ hget) hm hM1 hc1 hh2

theorem Successor.below {T : ZTable} {N : Nat} {s t : State} (hT : TableBelow T N)
    (hs : s.Hash < 2 ^ N) (h : Successor T s t) : t.Hash < 2 ^ N := by
  cases h with
  | single idx piece m h M _ _ _ _ hh => exact updatedHash_below T N hT s piece m h hs hh
  | double idx piece m h M M1 h2 _ _ _ _ hh _ _ hh2 =>
    exact updatedHash_below T N hT _ _ m h2 (updatedHash_below T N hT s piece m h hs hh) hh2

theorem scanInv_mark {T : ZTable} {N : Nat} {root : State} {b : Board}
    (h : ScanInv T N root b) (cur : State) (hcur : cur ∈ b.States) :
    ScanInv T N root (b.mark cur.Hash) := by
  refine ⟨h.table, h.path.mark _, h.reach, ?_, ?_, h.below⟩
  · intro x hx
    rcases List.mem_cons.1 hx with rfl | hx
    · exact ⟨cur, hcur, rfl⟩
    · exact h.seen x hx
  · obtain ⟨rest, e, hnd, hv⟩ := h.front
    exact ⟨rest, e, hnd, fun t ht => List.mem_cons_of_mem _ (hv t ht)⟩

theorem scanInv_findNewStates {T : ZTable} {N : Nat} {root : State} {b b2 : Board}
    {cur : State} (hlab : (root.Pieces.map (fun p => p.Label)).Nodup)
    (hT : TableBelow T N) (h : ScanInv T N root b) (hcur : cur ∈ b.States)
    (hf : findNewStates b cur = some b2) : ScanInv T N root b2 := by
  have hpath := h.path.findNewStates hlab hcur hf
  obtain ⟨⟨new, rfl, ⟨hnd, hfr⟩, hsucc, _⟩, _⟩ := findNewStates_expands b b2 cur hf
  refine ⟨h.table, hpath, ?_, ?_, ?_, ?_⟩
  · intro t ht
    rw [extend_states] at ht
    rcases List.mem_append.1 ht with ht | ht
    · exact h.reach t ht
    · obtain ⟨ms, hms⟩ := h.reach cur hcur
      have hs := hsucc t ht
      rw [h.table] at hs
      exact hs.reach hms
  · intro x hx
    rw [extend_visited] at hx
    rcases List.mem_append.1 hx with hx | hx
    · obtain ⟨t, ht, rfl⟩ := List.mem_map.1 (List.mem_reverse.1 hx)
      exact ⟨t, by rw [extend_states]; exact List.mem_append_right _ ht, rfl⟩
    · obtain ⟨t, ht, e⟩ := h.seen x hx
      exact ⟨t, by rw [extend_states]; exact List.mem_append_left _ ht, e⟩
  · obtain ⟨rest, e, hndr, hv⟩ := h.front
    refine ⟨rest ++ new, by rw [extend_states, e]; rfl, ?_, ?_⟩
    · rw [List.map_append, List.nodup_append]
      refine ⟨hndr, hnd, ?_⟩
      intro x hx1 hx2
      obtain ⟨t, ht, rfl⟩ := List.mem_map.1 hx1
      obtain ⟨t2, ht2, e2⟩ := List.mem_map.1 hx2
      apply hfr t2 ht2
      rw [e2]
      exact hv t ht
    · intro t ht
      rw [extend_visited]
      rcases List.mem_append.1 ht with ht | ht
      · exact List.mem_append_right _ (hv t ht)
      · exact List.mem_append_left _ (List.mem_reverse.2 (List.mem_map.2 ⟨t, ht, rfl⟩))
  · intro t ht
    rw [extend_states] at ht
    rcases List.mem_append.1 ht with ht | ht
    · exact h.below t ht
    · have hs := hsucc t ht
      rw [h.table] at hs
      exact hs.below hT (h.below cur hcur)

theorem scanInv_init (T : ZTable) (N : Nat) (root : State) (b : Board)
    (hb : b.States = [root]) (hv : b.VisitedStatesHashes = []) (ht : b.ZobristHash = T)
    (hpar : root.Parent = none) (hN : root.Hash < 2 ^ N) : ScanInv T N root b := by
  refine ⟨ht, pathInv_init root b hb hpar, ?_, ?_, ⟨[], hb, by simp, by simp⟩, ?_⟩
  · intro t hmem
    rw [hb] at hmem
    simp only [List.mem_singleton] at hmem
    subst hmem
    exact ⟨[], rfl⟩
  · intro x hx
    rw [hv] at hx
    cases hx
  · intro t hmem
    rw [hb] at hmem
    simp only [List.mem_singleton] at hmem
    subst hmem
    exact hN

theorem scanned_scanInv {T : ZTable} {N : Nat} {root : State}
    (hlab : (root.Pieces.map (fun p => p.Label)).Nodup) (hT : TableBelow T N)
    (n idx : Nat) (b bn : Board) (hI : ScanInv T N root b) (h : scanned n idx b = some bn) :
    ScanInv T N root bn :=
  scanned_induct (ScanInv T N root) (fun _ cur hb hcur => scanInv_mark hb cur hcur)
    (fun _ _ _ hb hcur hf => scanInv_findNewStates hlab hT hb hcur hf) n idx b bn hI h

theorem nodup_length_le_of_lt (l : List Nat) (B : Nat) (hn : l.Nodup) (hb : ∀ x ∈ l, x < B) :
    l.length ≤ B := by
  have h1 : l.toFinset.card = l.length := List.toFinset_card_of_nodup hn
  have h2 : l.toFinset ⊆ Finset.range B := by
    intro x hx
    rw [List.mem_toFinset] at hx
    exact Finset.mem_range.2 (hb x hx)
  have h3 := Finset.card_le_card h2
  rw [Finset.card_range] at h3
  omega

theorem scanInv_length {T : ZTable} {N : Nat} {root : State} {b : Board}
    (h : ScanInv T N root b) : b.States.length ≤ 2 ^ N + 1 := by
  obtain ⟨rest, e, hnd, _⟩ := h.front
  have hb : ∀ x ∈ rest.map (fun t => t.Hash), x < 2 ^ N := by
    intro x hx
    obtain ⟨t, ht, rfl⟩ := List.mem_map.1 hx
    exact h.below t (by rw [e]; exact List.mem_cons_of_mem _ ht)
  have := nodup_length_le_of_lt _ _ hnd hb
  rw [e]
  simp only [List.length_cons, List.length_map] at this ⊢
  omega

theorem legalShift_spec {pieces : List Piece} {i : Nat} {m : Move} {p : Piece}
    (h : legalShift pieces i m = some p) :
    pieces.get? i = some p ∧ m ∈ getMoves ∧ ∃ M, getMatrix (rootState pieces 0) = some M ∧
      canMove (rootState pieces 0) p M (getPieceStartingBlock (rootState pieces 0) p).1 m
        = some true := by
  unfold legalShift at h
  obtain ⟨q, hq, h⟩ := Option.bind_eq_some.1 h
  obtain ⟨M, hM, h⟩ := Option.bind_eq_some.1 h
  obtain ⟨c, hc, h⟩ := Option.bind_eq_some.1 h
  split_ifs at h with hcm
  cases h
  obtain ⟨rfl, hm⟩ := hcm
  exact ⟨hq, hm, M, hM, hc⟩

theorem legalShift_iff_destFree {pieces : List Piece} (ha : Arrangement pieces) (i : Nat)
    (m : Move) (p : Piece) (hget : pieces.get? i = some p) (hm : m ∈ getMoves) :
    legalShift pieces i m = some p ↔ DestFree pieces p m := by
  obtain ⟨M, hM, hc⟩ := canMove_decides_destFree (rootState pieces 0) p m ha.1 ha.2.1
    (List.get?_mem hget) hm
  constructor
  · intro h
    obtain ⟨_, _, M2, hM2, hc2⟩ := legalShift_spec h
    rw [hM] at hM2
    cases hM2
    rw [hc] at hc2
    simpa using hc2
  · intro hd
    unfold legalShift
    have hc' : canMove (rootState pieces 0) p M
        (getPieceStartingBlock (rootState pieces 0) p).1 m = some true := by
      rw [hc]
      simp only [Option.some.injEq, decide_eq_true_eq]
      exact hd
    simp only [hget, Option.some_bind, hM, hc', true_and, if_pos hm]

theorem pathStep_arrangement {T : ZTable} {ph ph2 : List Piece × Nat} {im : Nat × Move}
    (ha : Arrangement ph.1) (h : pathStep T ph im = some ph2) :
    Arrangement ph2.1 ∧ shapes ph2.1 = shapes ph.1 := by
  unfold pathStep at h
  obtain ⟨p, hp, h⟩ := Option.bind_eq_some.1 h
  obtain ⟨v, _, h⟩ := Option.bind_eq_some.1 h
  cases h
  obtain ⟨hget, hm, _⟩ := legalShift_spec hp
  have hd := (legalShift_iff_destFree ha im.1 im.2 p hget hm).1 hp
  exact ⟨arrangement_step ha im.1 p im.2 hget hd, shapes_set _ _ _ _ hget⟩

theorem runPath_arrangement {T : ZTable} (ms : List (Nat × Move)) {ph ph2 : List Piece × Nat}
    (ha : Arrangement ph.1) (h : runPath T ms ph = some ph2) :
    Arrangement ph2.1 ∧ shapes ph2.1 = shapes ph.1 := by
  induction ms generalizing ph with
  | nil =>
    simp only [runPath, List.foldlM_nil] at h
    cases h
    exact ⟨ha, rfl⟩
  | cons x ms ih =>
    simp only [runPath, List.foldlM_cons] at h
    obtain ⟨ph1, h1, h2⟩ := Option.bind_eq_some.1 h
    obtain ⟨ha1, hs1⟩ := pathStep_arrangement ha h1
    obtain ⟨ha2, hs2⟩ := ih ha1 h2
    exact ⟨ha2, hs2.trans hs1⟩

theorem getString_ne_empty : ∀ m ∈ getMoves, m.getString ≠ "" := by decide

theorem Hop.depth_lt {t n : State} (h : Hop t n) : n.depth < t.depth := by
  obtain ⟨p, hp, hcase⟩ := h
  have h1 := State.depth_parent hp
  rcases hcase with ⟨_, hq⟩ | ⟨_, rfl⟩
  · have h2 := State.depth_parent hq
    omega
  · omega

theorem noRootMove_of_direction (root : State) (h : root.MoveDirection = "") :
    NoRootMove root := by
  intro piece _ m hm hc
  exact getString_ne_empty m hm (hc.2.trans h)

theorem noRootMove_of_label (root : State) (h : root.MovePiece.Label = "")
    (hne : ∀ p ∈ root.Pieces, p.Label ≠ "") : NoRootMove root := by
  intro piece hp m _ hc
  exact hne piece hp (hc.1.trans h)

/-- The backward walk from a node succeeds when the root has no parent, step at most 0 and
no move of a piece of the root passes the coalescing test against the root. -/
theorem walkList_total {root : State} (hroot : root.Parent = none) (hstep : root.Step ≤ 0)
    (hdir : NoRootMove root)
    (fuel : Nat) (t : State) (hn : Node coalesceSide root t) (hf : t.depth < fuel) :
    ∃ l, walkList fuel t = some l := by
  induction fuel generalizing t with
  | zero => omega
  | succ fuel ih =>
    unfold walkList
    cases hp : t.Parent with
    | none =>
      have := hn.eq_root_of_parent_none hp
      subst this
      have hc : ¬ (t.Parent ≠ none ∨ t.Step > 0) := by
        rw [hp]
        simp only [ne_eq, not_true_eq_false, false_or, not_lt]
        exact hstep
      rw [hp] at hc
      rw [if_neg hc]
      exact ⟨[], rfl⟩
    | some p =>
      rw [if_pos (Or.inl (by simp))]
      simp only
      by_cases hs : sameMove t p
      · rw [if_pos hs]
        have hpp : ∃ n, p.Parent = some n := by
          cases hq : p.Parent with
          | some n => exact ⟨n, rfl⟩
          | none =>
            exfalso
            cases hn with
            | root => rw [hroot] at hp; cases hp
            | single q j piece m h hq2 hside =>
              simp only [stepState, Option.some.injEq] at hp
              subst hp
              have := hq2.eq_root_of_parent_none hq
              subst this
              exact hdir piece (List.get?_mem hside.1) m hside.2.1 ⟨hs.1, hs.2⟩
            | double s j piece m h h2 hs1 hside =>
              simp only [stepState, doubleState, Option.some.injEq] at hp
              subst hp
              simp [stepState] at hq
        obtain ⟨n, hq⟩ := hpp
        rw [hq]
        simp only
        have hh : Hop t n := ⟨p, hp, Or.inl ⟨hs, hq⟩⟩
        obtain ⟨l, hl⟩ := ih n (hn.hop_step hroot hh).1 (by have := hh.depth_lt; omega)
        exact ⟨t :: l, by rw [hl]; rfl⟩
      · rw [if_neg hs]
        have hh : Hop t p := ⟨p, hp, Or.inr ⟨hs, rfl⟩⟩
        obtain ⟨l, hl⟩ := ih p (hn.hop_step hroot hh).1 (by have := hh.depth_lt; omega)
        exact ⟨t :: l, by rw [hl]; rfl⟩

theorem reconstruct_total {root : State} (hroot : root.Parent = none) (hstep : root.Step ≤ 0)
    (hdir : NoRootMove root)
    (g : State) (hn : Node coalesceSide root g) : ∃ res, reconstruct g = some res := by
  obtain ⟨l, hl⟩ := walkList_total hroot hstep hdir (g.depth + 1) g hn (by omega)
  unfold reconstruct
  rw [walk_eq_walkList, hl]
  exact ⟨_, rfl⟩

/-- The scan of `Solve` returns when given enough fuel: every expansion succeeds on a valid
arrangement and the frontier cannot outgrow the number of signatures below `2 ^ N`. -/
theorem solveLoop_total {T : ZTable} {N : Nat} {root : State}
    (hlab : (root.Pieces.map (fun p => p.Label)).Nodup) (hTb : TableBelow T N)
    (hT : TableOK T) (ha : Arrangement root.Pieces)
    (hroot : root.Parent = none) (hstep : root.Step ≤ 0)
    (hdir : NoRootMove root)
    (fuel idx : Nat) (b : Board) (hI : ScanInv T N root b)
    (hidx : idx ≤ b.States.length)
    (hfuel : 2 ^ N + 2 ≤ fuel + idx) : ∃ r, solveLoop fuel idx b = some r := by
  induction fuel generalizing idx b with
  | zero =>
    have hlen := scanInv_length hI
    omega
  | succ fuel ih =>
    unfold solveLoop
    cases hc : b.States.get? idx with
    | none => exact ⟨_, rfl⟩
    | some cur =>
      simp only
      have hcur : cur ∈ b.States := List.get?_mem hc
      by_cases hf : isFinal cur = true
      · rw [if_pos hf]
        obtain ⟨res, hres⟩ := reconstruct_total hroot hstep hdir cur (hI.path.1 cur hcur)
        rw [hres]
        exact ⟨_, rfl⟩
      · rw [if_neg hf]
        obtain ⟨ms, hms⟩ := hI.reach cur hcur
        have hacur : Arrangement cur.Pieces := (runPath_arrangement ms ha hms).1
        obtain ⟨b1, hb1⟩ := findNewStates_total (b.mark cur.Hash) cur hacur
          (by rw [mark_table, hI.table]; exact hT)
        rw [hb1]
        simp only [Option.some_bind]
        have hI1 := scanInv_findNewStates hlab hTb (scanInv_mark hI cur hcur) hcur hb1
        have hlt : idx < b.States.length := by
          by_contra hge
          rw [List.get?_eq_none.2 (by omega)] at hc
          cases hc
        have hlen : b.States.length ≤ b1.States.length := by
          obtain ⟨⟨new, e, _⟩, _⟩ := findNewStates_expands _ b1 cur hb1
          rw [e, extend_states, List.length_append]
          simp only [Board.mark]
          omega
        exact ih (idx + 1) b1 hI1 (by omega) (by omega)

theorem settled_of_subset {s : State} {i : Nat} {p : Piece} {m : Move} {b b2 : Board}
    (h : Settled s i p m b) (ht : b2.ZobristHash = b.ZobristHash)
    (hv : b.VisitedStatesHashes ⊆ b2.VisitedStatesHashes) : Settled s i p m b2 := by
  intro M b3 hM ht3 hsub
  exact h M b3 hM (ht3.trans ht) (fun x hx => hsub (hv hx))

theorem scanned_grows (n idx : Nat) (b bn : Board) (h : scanned n idx b = some bn) :
    bn.ZobristHash = b.ZobristHash ∧ b.VisitedStatesHashes ⊆ bn.VisitedStatesHashes :=
  scanned_induct
    (fun x => x.ZobristHash = b.ZobristHash ∧ b.VisitedStatesHashes ⊆ x.VisitedStatesHashes)
    (fun _ _ hx _ => ⟨hx.1, fun _ hy => List.mem_cons_of_mem _ (hx.2 hy)⟩)
    (fun x cur x2 hx _ hf =>
      ⟨(findNewStates_expands x x2 cur hf).1.table.trans hx.1,
       fun _ hy => (findNewStates_expands x x2 cur hf).1.visited_subset (hx.2 hy)⟩)
    n idx b bn ⟨rfl, fun _ hy => hy⟩ h

/-- After the scan of the entries `idx .. idx+n-1` every move from each of them is settled. -/
theorem scanned_settled (n idx : Nat) (b bn : Board) (h : scanned n idx b = some bn) :
    ∀ j, idx ≤ j → j < idx + n → ∃ s, bn.States.get? j = some s ∧
      ∀ i p m, s.Pieces.get? i = some p → m ∈ getMoves → Settled s i p m bn := by
  induction n generalizing idx b with
  | zero => intro j h1 h2; omega
  | succ n ih =>
    unfold scanned at h
    cases hc : b.States.get? idx with
    | none => rw [hc] at h; simp at h
    | some cur =>
      rw [hc] at h
      simp only at h
      obtain ⟨b1, h1, h2⟩ := Option.bind_eq_some.1 h
      intro j hj1 hj2
      by_cases hj : j = idx
      · subst hj
        obtain ⟨hexp, hset⟩ := findNewStates_expands _ b1 cur h1
        obtain ⟨l1, e1⟩ := findNewStates_states _ _ _ h1
        obtain ⟨l2, e2⟩ := scanned_states _ _ _ _ h2
        obtain ⟨hg1, hg2⟩ := scanned_grows _ _ _ _ h2
        refine ⟨cur, ?_, ?_⟩
        · rw [e2, e1, mark_states]
          exact get?_append_of_some (get?_append_of_some hc)
        · intro i p m hp hm
          exact settled_of_subset (hset i p m hp hm) hg1 hg2
      · exact ih (idx + 1) b1 h2 j (by omega) (by omega)

/-- A settled legal move leads to a signature in the seen set. -/
theorem settled_seen {s : State} {i : Nat} {p : Piece} {m : Move} {b : Board} {M : Matrix}
    {u : Nat} (h : Settled s i p m b) (hM : getMatrix s = some M)
    (hc : canMove s p M (getPieceStartingBlock s p).1 m = some true)
    (hu : updatedHash b.ZobristHash s p m = some u) : u ∈ b.VisitedStatesHashes := by
  have ht := h M b hM rfl (fun _ hx => hx)
  rcases tryMove_cases s M i p _ b m b ht with ⟨hf, _⟩ | ⟨_, hash, hh, hcase⟩
  · rw [hc] at hf; cases hf
  · rw [hu] at hh
    cases hh
    rcases hcase with ⟨hv, _⟩ | ⟨_, _, M1, _, hl⟩
    · exact hv
    · exfalso
      have hlen : ∀ l : List State, l ≠ [] → b ≠ b.extend l := by
        intro l hl e
        have := congrArg (fun x => x.States.length) e
        simp only [extend_states, List.length_append] at this
        have : l.length = 0 := by omega
        exact hl (List.length_eq_zero.1 this)
      rcases hl with ⟨_, e⟩ | ⟨_, h2, _, ⟨_, e⟩ | ⟨_, e⟩⟩
      · exact hlen _ (by simp) e
      · exact hlen _ (by simp) e
      · exact hlen _ (by simp) e

theorem shapeAt_some {pieces : List Piece} {c : Block} {wh : Int × Int}
    (h : shapeAt pieces c = some wh) :
    ∃ p ∈ pieces, c ∈ p.Blocks ∧ (p.Width, p.Height) = wh := by
  unfold shapeAt at h
  obtain ⟨p, hp, rfl⟩ := Option.map_eq_some'.1 h
  have h1 := List.find?_some hp
  exact ⟨p, List.mem_of_find?_eq_some hp, by simpa using h1, rfl⟩

theorem shapeAt_of_mem {pieces : List Piece} (hd : RectsDisjoint pieces) {p : Piece}
    (hp : p ∈ pieces) {c : Block} (hc : c ∈ p.Blocks) :
    shapeAt pieces c = some (p.Width, p.Height) := by
  unfold shapeAt
  cases hf : pieces.find? (fun p => decide (c ∈ p.Blocks)) with
  | none =>
    have := List.find?_eq_none.1 hf p hp
    simp [hc] at this
  | some q =>
    have hq : q ∈ pieces := List.mem_of_find?_eq_some hf
    have hcq : c ∈ q.Blocks := by simpa using List.find?_some hf
    have : q = p := by
      by_contra hne
      exact hd.disjoint hp hq hne c hc hcq
    rw [this]
    rfl

theorem occupancy_eq {P Q : List Piece} (h : occupancy P = occupancy Q) (c : Block)
    (hc : c.Inside) : shapeAt P c = shapeAt Q c := by
  unfold occupancy at h
  have hm : c ∈ rectCells 0 0 4 5 := by
    rw [mem_rectCells]
    unfold Block.Inside at hc
    simp only [Nat.cast_ofNat]
    omega
  exact List.map_inj_left.1 h c hm

theorem isRectAt_anchor_unique {p : Piece} {ax ay bx bY : Int} (h1 : p.IsRectAt ax ay)
    (h2 : p.IsRectAt bx bY) : ax = bx ∧ ay = bY := by
  have e1 := minCorner_of_isRectAt h1
  have e2 := minCorner_of_isRectAt h2
  rw [e1] at e2
  simp only [Prod.mk.injEq] at e2
  exact e2

/-- Two valid arrangements with the same footprint on every cell hold, at every anchor, pieces
of the same footprint. -/
theorem same_anchor_of_pattern {P Q : List Piece} (hP : RectsDisjoint P) (hQ : RectsDisjoint Q)
    (hpat : ∀ c : Block, c.Inside → shapeAt P c = shapeAt Q c) (n : Nat) :
    ∀ p ∈ P, ∀ ax ay : Int, p.IsRectAt ax ay → (ax + ay).toNat ≤ n →
      ∃ q ∈ Q, q.Width = p.Width ∧ q.Height = p.Height ∧ q.IsRectAt ax ay := by
  induction n using Nat.strong_induction_on with
  | _ n ih =>
    intro p hp ax ay hr hn
    have hma := hr.mem_iff
    have ha : (⟨ax, ay⟩ : Block) ∈ p.Blocks := by
      rw [hma]; obtain ⟨hw, hh, _⟩ := hr; simp only; omega
    have hain : (⟨ax, ay⟩ : Block).Inside := (hP.1 p hp).inside _ ha
    have h1 := shapeAt_of_mem hP hp ha
    rw [hpat _ hain] at h1
    obtain ⟨q, hq, haq, hwh⟩ := shapeAt_some h1
    simp only [Prod.mk.injEq] at hwh
    obtain ⟨bx, bY, hrq⟩ := hQ.1 q hq
    have hmq := hrq.mem_iff
    have haq2 := (hmq _).1 haq
    simp only at haq2
    by_cases hab : bx = ax ∧ bY = ay
    · obtain ⟨rfl, rfl⟩ := hab
      exact ⟨q, hq, hwh.1, hwh.2, hrq⟩
    · exfalso
      have hb : (⟨bx, bY⟩ : Block) ∈ q.Blocks := by
        rw [hmq]; obtain ⟨hw, hh, _⟩ := hrq; simp only; omega
      have hbin : (⟨bx, bY⟩ : Block).Inside := (hQ.1 q hq).inside _ hb
      have h2 := shapeAt_of_mem hQ hq hb
      rw [← hpat _ hbin] at h2
      obtain ⟨p2, hp2, hbp2, hwh2⟩ := shapeAt_some h2
      simp only [Prod.mk.injEq] at hwh2
      obtain ⟨cx, cy, hrp2⟩ := hP.1 p2 hp2
      have hmp2 := hrp2.mem_iff
      have hbp3 := (hmp2 _).1 hbp2
      simp only at hbp3
      obtain ⟨_, _, hax0, _, hay0, _, _⟩ := hr
      obtain ⟨_, _, hcx0, _, hcy0, _, _⟩ := hrp2
      have hlt : (cx + cy).toNat < n := by omega
      obtain ⟨q2, hq2, hw2, hh2, hrq2⟩ := ih _ hlt p2 hp2 cx cy
        ⟨by assumption, by assumption, hcx0, by assumption, hcy0, by assumption, by assumption⟩
        le_rfl
      have hb2 : (⟨bx, bY⟩ : Block) ∈ q2.Blocks := by
        rw [hrq2.mem_iff]; simp only; rw [hw2, hh2]; omega
      have hqq : q2 = q := by
        by_contra hne
        exact hQ.disjoint hq hq2 hne _ hb hb2
      subst hqq
      obtain ⟨e1, e2⟩ := isRectAt_anchor_unique hrq hrq2
      subst e1 e2
      have ha2 : (⟨ax, ay⟩ : Block) ∈ p2.Blocks := by
        rw [hmp2]; simp only; rw [hwh2.1, hwh2.2]; omega
      have hpp : p2 = p := by
        by_contra hne
        exact hP.disjoint hp hp2 hne _ ha ha2
      subst hpp
      have hrp : p2.IsRectAt ax ay :=
        ⟨by assumption, by assumption, hax0, by assumption, hay0, by assumption, by assumption⟩
      have hrp2b : p2.IsRectAt bx bY :=
        ⟨by assumption, by assumption, hcx0, by assumption, hcy0, by assumption, by assumption⟩
      obtain ⟨e1, e2⟩ := isRectAt_anchor_unique hrp hrp2b
      exact hab ⟨e1.symm, e2.symm⟩

theorem same_cells {p q : Piece} {ax ay : Int} (hp : p.IsRectAt ax ay) (hq : q.IsRectAt ax ay)
    (hw : q.Width = p.Width) (hh : q.Height = p.Height) (c : Block) :
    c ∈ p.Blocks ↔ c ∈ q.Blocks := by
  rw [hp.mem_iff, hq.mem_iff, hw, hh]

theorem destFree_transfer {P Q : List Piece} (hQ : RectsDisjoint Q)
    (hpat : ∀ c : Block, c.Inside → shapeAt P c = shapeAt Q c) {p q : Piece}
    (hp : p ∈ P) (hq : q ∈ Q) (hsame : ∀ c, c ∈ p.Blocks ↔ c ∈ q.Blocks) (m : Move)
    (hd : DestFree P p m) : DestFree Q q m := by
  intro b hb
  have hbp : b ∈ p.Blocks := (hsame b).2 hb
  obtain ⟨hin, hfree⟩ := hd b hbp
  refine ⟨hin, ?_⟩
  intro q2 hq2 hne hc
  have h1 := shapeAt_of_mem hQ hq2 hc
  rw [← hpat _ hin] at h1
  obtain ⟨p2, hp2, hcp2, _⟩ := shapeAt_some h1
  by_cases hpp : p2 = p
  · subst hpp
    exact hQ.disjoint hq hq2 hne _ ((hsame _).1 hcp2) hc
  · exact hfree p2 hp2 hpp hcp2

theorem mem_set_cases {α : Type} {l : List α} {i : Nat} {x a : α} (h : a ∈ l.set i x) :
    a = x ∨ ∃ k, k ≠ i ∧ l.get? k = some a := by
  obtain ⟨k, hk⟩ := List.get?_of_mem h
  by_cases hki : k = i
  · subst hki
    have hlt : k < l.length := by
      by_contra hc
      rw [List.get?_eq_none.2 (by simp; omega)] at hk
      cases hk
    left
    simpa [hlt] using hk.symm
  · right
    refine ⟨k, hki, ?_⟩
    rw [← hk]
    exact (get?_set_ne' l i k x (fun e => hki e.symm)).symm

theorem pattern_step_aux {P Q : List Piece} (hP : Arrangement P) (hQ : Arrangement Q)
    (hpat : ∀ c : Block, c.Inside → shapeAt P c = shapeAt Q c) {p q : Piece} {i j : Nat}
    (hp : P.get? i = some p) (hq : Q.get? j = some q)
    (hsame : ∀ c, c ∈ p.Blocks ↔ c ∈ q.Blocks) (hw : q.Width = p.Width)
    (hh : q.Height = p.Height) (m : Move) (hdQ : DestFree Q q m)
    (c : Block) (hc : c.Inside) (wh : Int × Int)
    (h : shapeAt (P.set i (shiftPiece p m)) c = some wh) :
    shapeAt (Q.set j (shiftPiece q m)) c = some wh := by
  have hQ2 := arrangement_step hQ j q m hq hdQ
  obtain ⟨p1, hp1, hcp1, rfl⟩ := shapeAt_some h
  rcases mem_set_cases hp1 with rfl | ⟨k, hk, hpk⟩
  · have hmem : shiftPiece q m ∈ Q.set j (shiftPiece q m) :=
      List.get?_mem (get?_set_self Q j q _ hq)
    have hcq : c ∈ (shiftPiece q m).Blocks := by
      rw [mem_shiftPiece] at hcp1 ⊢
      obtain ⟨b, hb, e⟩ := hcp1
      exact ⟨b, (hsame b).1 hb, e⟩
    have := shapeAt_of_mem hQ2.1 hmem hcq
    rw [this]
    simp only [shiftPiece, hw, hh]
  · have hp1P : p1 ∈ P := List.get?_mem hpk
    have hne : p1 ≠ p := ne_of_mem_labels hP.2.1.1 hpk hp hk
    have h1 := shapeAt_of_mem hP.1 hp1P hcp1
    rw [hpat _ hc] at h1
    obtain ⟨q1, hq1, hcq1, e⟩ := shapeAt_some h1
    have hq1ne : q1 ≠ q := by
      rintro rfl
      exact hP.1.disjoint (List.get?_mem hp) hp1P hne c ((hsame c).2 hcq1) hcp1
    obtain ⟨k2, hk2⟩ := List.get?_of_mem hq1
    have hk2j : k2 ≠ j := by
      rintro rfl
      rw [hq] at hk2
      exact hq1ne (Option.some.inj hk2).symm
    have hmem : q1 ∈ Q.set j (shiftPiece q m) := by
      apply List.get?_mem (n := k2)
      rw [get?_set_ne' Q j k2 _ (fun e => hk2j e.symm)]
      exact hk2
    rw [shapeAt_of_mem hQ2.1 hmem hcq1, e]

/-- Shifting pieces with the same cells in two arrangements of the same pattern gives two
arrangements of the same pattern. -/
theorem pattern_step {P Q : List Piece} (hP : Arrangement P) (hQ : Arrangement Q)
    (hpat : ∀ c : Block, c.Inside → shapeAt P c = shapeAt Q c) {p q : Piece} {i j : Nat}
    (hp : P.get? i = some p) (hq : Q.get? j = some q)
    (hsame : ∀ c, c ∈ p.Blocks ↔ c ∈ q.Blocks) (hw : q.Width = p.Width)
    (hh : q.Height = p.Height) (m : Move) (hdP : DestFree P p m) (hdQ : DestFree Q q m)
    (c : Block) (hc : c.Inside) :
    shapeAt (P.set i (shiftPiece p m)) c = shapeAt (Q.set j (shiftPiece q m)) c := by
  have h1 := pattern_step_aux hP hQ hpat hp hq hsame hw hh m hdQ c hc
  have h2 := pattern_step_aux hQ hP (fun c hc => (hpat c hc).symm) hq hp
    (fun c => (hsame c).symm) hw.symm hh.symm m hdP c hc
  cases ha : shapeAt (P.set i (shiftPiece p m)) c with
  | some wh => exact (h1 wh ha).symm
  | none =>
    cases hb : shapeAt (Q.set j (shiftPiece q m)) c with
    | none => rfl
    | some wh => rw [h2 wh hb] at ha; cases ha

/-- Once every frontier entry is expanded, every arrangement reachable by legal unit moves has
the occupancy pattern of some frontier entry. -/
theorem frontier_covers {T : ZTable} {N : Nat} {root : State} {bn : Board}
    (hI : ScanInv T N root bn) (hT : TableOK T) (ha : Arrangement root.Pieces)
    (hcol : Collisionless T root)
    (hset : ∀ t ∈ bn.States, ∀ i p m, t.Pieces.get? i = some p → m ∈ getMoves →
      Settled t i p m bn)
    (ms : List (Nat × Move)) :
    ∀ P h, runPath T ms (root.Pieces, root.Hash) = some (P, h) →
      ∃ t ∈ bn.States, ∀ c : Block, c.Inside → shapeAt t.Pieces c = shapeAt P c := by
  induction ms using List.reverseRecOn with
  | nil =>
    intro P h hr
    simp only [runPath, List.foldlM_nil] at hr
    cases hr
    obtain ⟨rest, e, _⟩ := hI.front
    exact ⟨root, by rw [e]; exact List.mem_cons_self _ _, fun _ _ => rfl⟩
  | append_singleton ms x ih =>
    intro P h hr
    rw [runPath_snoc] at hr
    obtain ⟨⟨P0, h0⟩, hr0, hstep⟩ := Option.bind_eq_some.1 hr
    obtain ⟨t, ht, hpat⟩ := ih P0 h0 hr0
    have hP0 : Arrangement P0 := (runPath_arrangement ms ha hr0).1
    obtain ⟨mt, hmt⟩ := hI.reach t ht
    have hQ : Arrangement t.Pieces := (runPath_arrangement mt ha hmt).1
    unfold pathStep at hstep
    obtain ⟨p, hleg, hstep⟩ := Option.bind_eq_some.1 hstep
    obtain ⟨v, _, hstep⟩ := Option.bind_eq_some.1 hstep
    simp only [Option.some.injEq, Prod.mk.injEq] at hstep
    obtain ⟨rfl, rfl⟩ := hstep
    obtain ⟨hget, hm, _⟩ := legalShift_spec hleg
    have hdP : DestFree P0 p x.2 := (legalShift_iff_destFree hP0 x.1 x.2 p hget hm).1 hleg
    have hp : p ∈ P0 := List.get?_mem hget
    obtain ⟨ax, ay, hrp⟩ := hP0.1.1 p hp
    obtain ⟨q, hq, hw, hh, hrq⟩ := same_anchor_of_pattern hP0.1 hQ.1
      (fun c hc => (hpat c hc).symm) _ p hp ax ay hrp le_rfl
    obtain ⟨j, hj⟩ := List.get?_of_mem hq
    have hsame := same_cells hrp hrq hw hh
    have hdQ : DestFree t.Pieces q x.2 :=
      destFree_transfer hQ.1 (fun c hc => (hpat c hc).symm) hp hq hsame x.2 hdP
    have hlegQ := (legalShift_iff_destFree hQ j x.2 q hj hm).2 hdQ
    obtain ⟨_, _, M, hM0, hc0⟩ := legalShift_spec hlegQ
    have hM : getMatrix t = some M := hM0
    have hc : canMove t q M (getPieceStartingBlock t q).1 x.2 = some true := hc0
    obtain ⟨u, hu⟩ := updatedHash_some T hT t q x.2 (hQ.1.1 q hq) (hQ.2.2 q hq)
      (fun b hb => (hdQ b hb).1)
    have huv : u ∈ bn.VisitedStatesHashes :=
      settled_seen (hset t ht j q x.2 hj hm) hM hc (by rw [hI.table]; exact hu)
    obtain ⟨t2, ht2, hash2⟩ := hI.seen u huv
    obtain ⟨m2, hm2⟩ := hI.reach t2 ht2
    rw [hash2] at hm2
    have hpath : runPath T (mt ++ [(j, x.2)]) (root.Pieces, root.Hash)
        = some (t.Pieces.set j (shiftPiece q x.2), u) := by
      rw [runPath_snoc, hmt, Option.some_bind]
      exact pathStep_of_legal T t j q x.2 u M hj hm hM hc hu
    have hocc := hcol m2 (mt ++ [(j, x.2)]) _ _ u hm2 hpath
    refine ⟨t2, ht2, ?_⟩
    intro c hc
    rw [occupancy_eq hocc c hc]
    exact pattern_step hQ hP0 hpat hj hget (fun c => (hsame c).symm) hw.symm hh.symm x.2
      hdQ hdP c hc

theorem label_of_big : ∀ x ∈ shapes initPieces, x.2.1 = 2 → x.2.2 = 2 → x.1 = "b" := by
  decide

/-- An arrangement with the pieces of the starting layout is final when its pattern has a
2x2 footprint anchored at column 1, row 3. -/
theorem isFinal_of_pattern {P : List Piece} {t : State} (hP : RectsDisjoint P)
    (hQ : Arrangement t.Pieces) (hsh : shapes t.Pieces = shapes initPieces)
    (hpat : ∀ c : Block, c.Inside → shapeAt t.Pieces c = shapeAt P c)
    {p : Piece} (hp : p ∈ P) (hw : p.Width = 2) (hh : p.Height = 2) (hr : p.IsRectAt 1 3) :
    isFinal t = true := by
  obtain ⟨q, hq, hqw, hqh, hrq⟩ := same_anchor_of_pattern hP hQ.1
    (fun c hc => (hpat c hc).symm) _ p hp 1 3 hr le_rfl
  have hmem : (q.Label, q.Width, q.Height) ∈ shapes initPieces := by
    rw [← hsh]; exact List.mem_map.2 ⟨q, hq, rfl⟩
  have hlab : q.Label = "b" := label_of_big _ hmem (by rw [hqw, hw]) (by rw [hqh, hh])
  unfold isFinal
  rw [List.any_eq_true]
  refine ⟨q, hq, ?_⟩
  rw [getPieceStartingBlock_of_mem t q 1 3 hQ.2.1.1 hq hrq]
  simp [hlab]

theorem tableBelow_exists (T : ZTable) (h0 : Nat) : ∃ N, TableBelow T N ∧ h0 < 2 ^ N := by
  refine ⟨T.flatten.flatten.sum + h0, ?_, ?_⟩
  · intro row hrow cell hcell v hv
    have hmem : v ∈ T.flatten.flatten :=
      List.mem_flatten.2 ⟨cell, List.mem_flatten.2 ⟨row, hrow, hcell⟩, hv⟩
    have hle : v ≤ T.flatten.flatten.sum := List.single_le_sum (fun _ _ => Nat.zero_le _) v hmem
    calc v < 2 ^ v := Nat.lt_two_pow v
      _ ≤ 2 ^ (T.flatten.flatten.sum + h0) := Nat.pow_le_pow_right (by norm_num) (by omega)
  · calc h0 < 2 ^ h0 := Nat.lt_two_pow h0
      _ ≤ 2 ^ (T.flatten.flatten.sum + h0) := Nat.pow_le_pow_right (by norm_num) (by omega)

theorem solveLoop_fuel (fuel k idx : Nat) (b : Board)
    (r : (List State × Option String) × Board) (h : solveLoop fuel idx b = some r) :
    solveLoop (fuel + k) idx b = some r := by
  induction fuel generalizing idx b with
  | zero => simp [solveLoop] at h
  | succ fuel ih =>
    rw [Nat.add_right_comm]
    unfold solveLoop at h ⊢
    cases hc : b.States.get? idx with
    | none => rw [hc] at h; exact h
    | some cur =>
      rw [hc] at h
      simp only at h ⊢
      by_cases hf : isFinal cur = true
      · rw [if_pos hf] at h ⊢
        exact h
      · rw [if_neg hf] at h ⊢
        obtain ⟨b1, h1, h2⟩ := Option.bind_eq_some.1 h
        rw [h1, Option.some_bind]
        exact ih _ _ h2

theorem reconstruct_ne_nil {side : State → Nat → Piece → Move → Prop} {root g : State}
    {res : List State} (hpar : root.Parent = none) (hnf : isFinal root = false)
    (hfin : isFinal g = true) (hnode : Node side root g) (hrec : reconstruct g = some res) :
    res ≠ [] := by
  obtain ⟨e, l, _, htr, rfl⟩ := reconstruct_eq_reverse (Node side root)
    (fun n t => n.Step < t.Step) (fun t n ht hh => ht.hop_step hpar hh)
    (fun _ _ hlt => hlt) g res hnode hrec
  cases htr with
  | stop h1 _ =>
    have := hnode.eq_root_of_parent_none h1
    subst this
    rw [hnf] at hfin
    cases hfin
  | hop _ n2 l2 _ _ _ => simp

theorem runPath_of_runShifts (T : ZTable) (hT : TableOK T) (ms : List (Nat × Move)) :
    ∀ (P P2 : List Piece) (h : Nat), Arrangement P → runShifts ms P = some P2 →
      ∃ h2, runPath T ms (P, h) = some (P2, h2) := by
  induction ms with
  | nil =>
    intro P P2 h _ hr
    simp only [runShifts, List.foldlM_nil] at hr
    cases hr
    exact ⟨h, rfl⟩
  | cons x ms ih =>
    intro P P2 h ha hr
    simp only [runShifts, List.foldlM_cons] at hr
    obtain ⟨P1, h1, h2⟩ := Option.bind_eq_some.1 hr
    unfold shiftStep at h1
    obtain ⟨p, hleg, h1⟩ := Option.bind_eq_some.1 h1
    cases h1
    obtain ⟨hget, hm, _⟩ := legalShift_spec hleg
    have hd := (legalShift_iff_destFree ha x.1 x.2 p hget hm).1 hleg
    have hp : p ∈ P := List.get?_mem hget
    obtain ⟨v, hv⟩ := updatedHash_some T hT (rootState P h) p x.2 (ha.1.1 p hp) (ha.2.2 p hp)
      (fun b hb => (hd b hb).1)
    obtain ⟨h3, hr3⟩ := ih _ P2 v (arrangement_step ha x.1 p x.2 hget hd) h2
    refine ⟨h3, ?_⟩
    simp only [runPath, List.foldlM_cons]
    have hstep : pathStep T (P, h) x = some (P.set x.1 (shiftPiece p x.2), v) := by
      unfold pathStep
      simp only [hleg, Option.some_bind, hv]
    rw [hstep]
    exact hr3

set_option maxRecDepth 100000 in
/-- The 118 unit moves of `solutionMoves` are legal one after the other from the starting
layout and end in `solvedPieces`. -/
theorem runShifts_solution : runShifts solutionMoves initPieces = some solvedPieces := by
  decide

theorem arrangement_initPieces : Arrangement initPieces :=
  ⟨rectsDisjoint_initPieces, by decide, by decide⟩

/-- The scan of `Solve` from the starting layout under a collision-free table of the
allocated shape: with enough fuel it returns a nil error and a non-empty list. -/
theorem Solve_initState (T : ZTable) (h0 : Nat) (hT : TableOK T)
    (hcol : Collisionless T (initState h0)) :
    ∃ res b2, res ≠ [] ∧ ∃ fuel0, ∀ fuel, fuel0 ≤ fuel →
      Solve fuel ⟨4, 5, T, initState h0, [initState h0], []⟩ = some ((res, none), b2) := by
  have ha : Arrangement (initState h0).Pieces := arrangement_initPieces
  have hlab : ((initState h0).Pieces.map (fun p => p.Label)).Nodup :=
    (by decide : (initPieces.map (fun p => p.Label)).Nodup)
  have hdir : NoRootMove (initState h0) := noRootMove_of_direction _ rfl
  have hnf : isFinal (initState h0) = false :=
    (isFinal_congr (initState h0) (initState 0) rfl).trans (by decide)
  obtain ⟨N, hTb, hN⟩ := tableBelow_exists T h0
  have hI : ScanInv T N (initState h0) ⟨4, 5, T, initState h0, [initState h0], []⟩ :=
    scanInv_init T N (initState h0) _ rfl rfl rfl rfl hN
  obtain ⟨r, hr⟩ := solveLoop_total hlab hTb hT ha rfl (le_refl _) hdir (2 ^ N + 2) 0 _ hI
    (Nat.zero_le _) (by omega)
  obtain ⟨⟨res, err⟩, b2⟩ := r
  obtain ⟨n, bn, hsc, hbefore, hend⟩ := solveLoop_spec _ 0 _ _ b2 hr
  have hIn := scanned_scanInv hlab hTb n 0 _ bn hI hsc
  rcases hend with ⟨hnone, _, _⟩ | ⟨g, r, hg, hfin, hrec, hout, rfl⟩
  · exfalso
    simp only [zero_add] at hnone hbefore
    have hlen : bn.States.length ≤ n := by simpa using List.get?_eq_none.1 hnone
    have hsettled := scanned_settled n 0 _ bn hsc
    have hall : ∀ t ∈ bn.States, isFinal t = false ∧
        ∀ i p m, t.Pieces.get? i = some p → m ∈ getMoves → Settled t i p m bn := by
      intro t ht
      obtain ⟨j, hj⟩ := List.get?_of_mem ht
      have hjl : j < bn.States.length := by
        by_contra hc
        rw [List.get?_eq_none.2 (by omega)] at hj
        cases hj
      obtain ⟨s, hs, hsf⟩ := hbefore j (by omega)
      obtain ⟨s2, hs2, hset⟩ := hsettled j (Nat.zero_le _) (by omega)
      rw [hj] at hs hs2
      cases hs
      cases hs2
      exact ⟨hsf, hset⟩
    obtain ⟨h2, hpath⟩ := runPath_of_runShifts T hT solutionMoves initPieces solvedPieces h0
      arrangement_initPieces runShifts_solution
    obtain ⟨t, ht, hpat⟩ := frontier_covers hIn hT ha hcol (fun t ht => (hall t ht).2)
      solutionMoves solvedPieces h2 hpath
    obtain ⟨mt, hmt⟩ := hIn.reach t ht
    obtain ⟨hat, hsh⟩ := runPath_arrangement mt ha hmt
    have hsol := (runPath_arrangement solutionMoves ha hpath).1
    have hmem : (⟨"b", 2, 2, [⟨1, 3⟩, ⟨2, 3⟩, ⟨1, 4⟩, ⟨2, 4⟩]⟩ : Piece) ∈ solvedPieces := by
      decide
    have hfin : isFinal t = true :=
      isFinal_of_pattern hsol.1 hat hsh hpat hmem rfl rfl (by decide)
    rw [(hall t ht).1] at hfin
    cases hfin
  · simp only [Prod.mk.injEq] at hout
    obtain ⟨rfl, rfl⟩ := hout
    simp only [zero_add] at hg
    have hne : res ≠ [] :=
      reconstruct_ne_nil rfl hnf hfin (hIn.path.1 g (List.get?_mem hg)) hrec
    refine ⟨res, bn.mark g.Hash, hne, 2 ^ N + 2, ?_⟩
    intro fuel hfuel
    obtain ⟨k, rfl⟩ := Nat.exists_eq_add_of_le hfuel
    exact solveLoop_fuel _ k 0 _ _ hr

theorem foldl_xor (l : List Nat) (a : Nat) :
    l.foldl (fun a v => a ^^^ v) a = a ^^^ xorAll l := by
  unfold xorAll
  induction l generalizing a with
  | nil => simp
  | cons x l ih =>
    simp only [List.foldl_cons]
    rw [ih (a ^^^ x), ih (0 ^^^ x), Nat.zero_xor, Nat.xor_assoc]

theorem xorAll_nil : xorAll [] = 0 := rfl

theorem xorAll_cons (x : Nat) (l : List Nat) : xorAll (x :: l) = x ^^^ xorAll l := by
  show List.foldl (fun a v => a ^^^ v) (0 ^^^ x) l = _
  rw [foldl_xor, Nat.zero_xor]

theorem xorAll_append (l1 l2 : List Nat) : xorAll (l1 ++ l2) = xorAll l1 ^^^ xorAll l2 := by
  induction l1 with
  | nil => simp [xorAll_nil]
  | cons x l ih => rw [List.cons_append, xorAll_cons, xorAll_cons, ih, Nat.xor_assoc]

theorem xorAll_perm {l1 l2 : List Nat} (h : l1.Perm l2) : xorAll l1 = xorAll l2 := by
  induction h with
  | nil => rfl
  | cons x _ ih => rw [xorAll_cons, xorAll_cons, ih]
  | swap x y l =>
    rw [xorAll_cons, xorAll_cons, xorAll_cons, xorAll_cons, ← Nat.xor_assoc, ← Nat.xor_assoc,
      Nat.xor_comm y x]
  | trans _ _ ih1 ih2 => exact ih1.trans ih2

theorem xorAll_map_xor {α : Type} (l : List α) (f g : α → Nat) :
    xorAll (l.map (fun t => f t ^^^ g t)) = xorAll (l.map f) ^^^ xorAll (l.map g) := by
  induction l with
  | nil => simp [xorAll_nil]
  | cons x l ih =>
    simp only [List.map_cons, xorAll_cons, ih]
    simp only [Nat.xor_assoc]
    congr 1
    rw [← Nat.xor_assoc, ← Nat.xor_assoc, Nat.xor_comm (xorAll _) (g x)]

theorem hashBlock_closed {T : ZTable} {p : Piece} {h v : Nat} {b : Block}
    (e : hashBlock T p h b = some v) : v = h ^^^ entry T b (category p) := by
  unfold hashBlock at e
  obtain ⟨c, hc, e⟩ := Option.bind_eq_some.1 e
  obtain ⟨a, ha, e⟩ := Option.bind_eq_some.1 e
  cases e
  simp [entry, category, hc, ha]

theorem foldlM_hashBlock_closed {T : ZTable} {p : Piece} (blocks : List Block) {h g : Nat}
    (e : blocks.foldlM (hashBlock T p) h = some g) :
    g = h ^^^ xorAll (blocks.map (fun b => entry T b (category p))) := by
  induction blocks generalizing h with
  | nil =>
    simp only [List.foldlM_nil] at e
    cases e
    simp [xorAll_nil]
  | cons b bs ih =>
    simp only [List.foldlM_cons] at e
    obtain ⟨v, hv, e⟩ := Option.bind_eq_some.1 e
    rw [ih e, hashBlock_closed hv, List.map_cons, xorAll_cons, Nat.xor_assoc]

theorem foldlM_pieces_closed {T : ZTable} (pieces : List Piece) {h g : Nat}
    (e : pieces.foldlM (fun hash piece => piece.Blocks.foldlM (hashBlock T piece) hash) h
      = some g) : g = h ^^^ fullXor T pieces := by
  unfold fullXor cells
  induction pieces generalizing h with
  | nil =>
    simp only [List.foldlM_nil] at e
    cases e
    simp [xorAll_nil]
  | cons p ps ih =>
    simp only [List.foldlM_cons] at e
    obtain ⟨v, hv, e⟩ := Option.bind_eq_some.1 e
    rw [ih e, foldlM_hashBlock_closed _ hv, List.flatMap_cons, List.map_append, xorAll_append,
      List.map_map, Nat.xor_assoc]
    rfl

/-- When `GetZobristHash` returns, it returns the XOR of the entries of the occupied cells
under their categories. -/
theorem GetZobristHash_closed {board : Board} {s : State} {g : Nat}
    (e : GetZobristHash board s = some g) : g = fullXor board.ZobristHash s.Pieces := by
  have := foldlM_pieces_closed s.Pieces e
  rw [this, Nat.zero_xor]

theorem updateBlock_closed {T : ZTable} {c : Nat} {m : Move} {h v : Nat} {b : Block}
    (e : updateBlock T c m h b = some v) :
    v = h ^^^ ((entry T b c ^^^ entry T b 0) ^^^
      (entry T (b.shift m) c ^^^ entry T (b.shift m) 0)) := by
  unfold updateBlock at e
  obtain ⟨a1, h1, e⟩ := Option.bind_eq_some.1 e
  obtain ⟨a2, h2, e⟩ := Option.bind_eq_some.1 e
  obtain ⟨a3, h3, e⟩ := Option.bind_eq_some.1 e
  obtain ⟨a4, h4, e⟩ := Option.bind_eq_some.1 e
  cases e
  simp only [entry, Block.shift, h1, h2, h3, h4, Option.getD_some]
  simp only [Nat.xor_assoc]
  congr 3
  exact Nat.xor_comm _ _

theorem foldlM_updateBlock_closed {T : ZTable} {c : Nat} {m : Move} (blocks : List Block)
    {h v : Nat} (e : blocks.foldlM (updateBlock T c m) h = some v) :
    v = h ^^^ (xorAll (blocks.map (fun b => entry T b c ^^^ entry T b 0)) ^^^
      xorAll (blocks.map (fun b => entry T (b.shift m) c ^^^ entry T (b.shift m) 0))) := by
  induction blocks generalizing h with
  | nil =>
    simp only [List.foldlM_nil] at e
    cases e
    simp [xorAll_nil]
  | cons b bs ih =>
    simp only [List.foldlM_cons] at e
    obtain ⟨w, hw, e⟩ := Option.bind_eq_some.1 e
    rw [ih e, updateBlock_closed hw]
    simp only [List.map_cons, xorAll_cons, Nat.xor_assoc]
    congr 3
    rw [← Nat.xor_assoc, ← Nat.xor_assoc,
      Nat.xor_comm (entry T (b.shift m) c ^^^ entry T (b.shift m) 0)]
    simp only [Nat.xor_assoc]

/-- When `getUpdatedZobristHash` returns, it returns the old signature XOR the contribution
of the piece before and after the move. -/
theorem updatedHash_closed {T : ZTable} {s : State} {p : Piece} {m : Move} {v : Nat}
    (e : updatedHash T s p m = some v) :
    v = s.Hash ^^^ (delta T p ^^^ delta T (shiftPiece p m)) := by
  unfold updatedHash at e
  obtain ⟨c, hc, e⟩ := Option.bind_eq_some.1 e
  have hcat : category p = c := by simp [category, hc]
  have hcat2 : category (shiftPiece p m) = c := hcat
  rw [foldlM_updateBlock_closed _ e]
  unfold delta
  rw [hcat, hcat2]
  congr 2
  simp only [shiftPiece, List.map_map]
  rfl

theorem mixXor_eq (T : ZTable) (pieces : List Piece) :
    mixXor T pieces = fullXor T pieces ^^^ zeroXor T pieces := by
  unfold mixXor fullXor zeroXor cells
  induction pieces with
  | nil => simp [xorAll_nil]
  | cons p ps ih =>
    simp only [List.map_cons, xorAll_cons, List.flatMap_cons, List.map_append, xorAll_append,
      ih, List.map_map]
    have : delta T p = xorAll (p.Blocks.map ((fun t : Block × Nat => entry T t.1 t.2) ∘
        fun b => (b, category p))) ^^^
        xorAll (p.Blocks.map ((fun t : Block × Nat => entry T t.1 0) ∘
          fun b => (b, category p))) := by
      unfold delta
      rw [xorAll_map_xor]
      rfl
    rw [this]
    simp only [Nat.xor_assoc]
    congr 1
    rw [← Nat.xor_assoc, ← Nat.xor_assoc, Nat.xor_comm (xorAll _) (xorAll _)]

theorem mixXor_set (T : ZTable) (pieces : List Piece) (i : Nat) (p q : Piece)
    (h : pieces.get? i = some p) :
    mixXor T (pieces.set i q) = mixXor T pieces ^^^ (delta T p ^^^ delta T q) := by
  unfold mixXor
  induction pieces generalizing i with
  | nil => cases h
  | cons a l ih =>
    cases i with
    | zero =>
      simp only [List.get?_cons_zero, Option.some.injEq] at h
      subst h
      simp only [List.set_cons_zero, List.map_cons, xorAll_cons]
      rw [Nat.xor_comm (delta T a) (xorAll _), Nat.xor_assoc, ← Nat.xor_assoc (delta T a),
        Nat.xor_self, Nat.zero_xor, Nat.xor_comm]
    | succ i =>
      simp only [List.get?_cons_succ] at h
      simp only [List.set_cons_succ, List.map_cons, xorAll_cons, ih i h, Nat.xor_assoc]

theorem pathStep_closed {T : ZTable} {ph ph2 : List Piece × Nat} {im : Nat × Move}
    (h : pathStep T ph im = some ph2) :
    ph2.2 ^^^ mixXor T ph2.1 = ph.2 ^^^ mixXor T ph.1 := by
  unfold pathStep at h
  obtain ⟨p, hp, h⟩ := Option.bind_eq_some.1 h
  obtain ⟨v, hv, h⟩ := Option.bind_eq_some.1 h
  cases h
  obtain ⟨hget, _, _⟩ := legalShift_spec hp
  have hv2 := updatedHash_closed hv
  simp only [rootState] at hv2
  simp only
  rw [mixXor_set T ph.1 im.1 p _ hget, hv2]
  generalize delta T p ^^^ delta T (shiftPiece p im.2) = d
  rw [Nat.xor_assoc, Nat.xor_comm (mixXor T ph.1) d, ← Nat.xor_assoc d, Nat.xor_self,
    Nat.zero_xor]

/-- Along a sequence of legal unit moves the signature XOR the contributions of all pieces
does not change. -/
theorem runPath_closed {T : ZTable} (ms : List (Nat × Move)) {ph ph2 : List Piece × Nat}
    (h : runPath T ms ph = some ph2) :
    ph2.2 ^^^ mixXor T ph2.1 = ph.2 ^^^ mixXor T ph.1 := by
  induction ms generalizing ph with
  | nil =>
    simp only [runPath, List.foldlM_nil] at h
    cases h
    rfl
  | cons x ms ih =>
    simp only [runPath, List.foldlM_cons] at h
    obtain ⟨ph1, h1, h2⟩ := Option.bind_eq_some.1 h
    rw [ih h2, pathStep_closed h1]

theorem entry_codeTable_aux : ∀ y ∈ List.range 5, ∀ x ∈ List.range 4, ∀ c ∈ List.range 5,
    entry codeTable ⟨(x : Int), (y : Int)⟩ c = c * 8 ^ (4 * y + x) := by
  decide

theorem entry_codeTable (b : Block) (c : Nat) (hb : b.Inside) (hc : c < 5) :
    entry codeTable b c = c * 8 ^ cellNo b := by
  obtain ⟨h0, h1, h2, h3⟩ := hb
  have := entry_codeTable_aux b.Y.toNat (List.mem_range.2 (by omega)) b.X.toNat
    (List.mem_range.2 (by omega)) c (List.mem_range.2 hc)
  rw [Int.toNat_of_nonneg h0, Int.toNat_of_nonneg h2] at this
  exact this

theorem testBit_digit (c q q2 r : Nat) (hc : c < 8) (hr : r < 3) :
    (c * 8 ^ q).testBit (3 * q2 + r) = (decide (q = q2) && c.testBit r) := by
  have e : c * 8 ^ q = c <<< (3 * q) := by
    rw [Nat.shiftLeft_eq, pow_mul]
    norm_num
  rw [e, Nat.testBit_shiftLeft]
  by_cases h1 : q = q2
  · subst h1
    have : 3 * q + r - 3 * q = r := by omega
    simp [this]
  · by_cases h2 : q < q2
    · have hge : 3 * q2 + r ≥ 3 * q := by omega
      have hbig : c < 2 ^ (3 * q2 + r - 3 * q) :=
        lt_of_lt_of_le hc (by
          calc 8 = 2 ^ 3 := by norm_num
            _ ≤ 2 ^ (3 * q2 + r - 3 * q) := Nat.pow_le_pow_right (by norm_num) (by omega))
      simp [h1, hge, Nat.testBit_eq_false_of_lt hbig]
    · have hlt : ¬ (3 * q2 + r ≥ 3 * q) := by omega
      simp [h1, hlt]

theorem testBit_code_cons (t : Nat × Nat) (l : List (Nat × Nat)) (k : Nat) :
    (code (t :: l)).testBit k = xor ((t.2 * 8 ^ t.1).testBit k) ((code l).testBit k) := by
  unfold code
  rw [List.map_cons, xorAll_cons, Nat.testBit_xor]

/-- Reading a digit back: with pairwise different positions and digits below 8, the bits of
the digit at a listed position are those of the listed digit, and the bits at a position
not listed are 0. -/
theorem testBit_code (l : List (Nat × Nat)) (hn : (l.map (fun t => t.1)).Nodup)
    (hd : ∀ t ∈ l, t.2 < 8) (q r : Nat) (hr : r < 3) :
    (∀ c, (q, c) ∈ l → (code l).testBit (3 * q + r) = c.testBit r) ∧
    (q ∉ l.map (fun t => t.1) → (code l).testBit (3 * q + r) = false) := by
  induction l with
  | nil =>
    constructor
    · intro c hc; cases hc
    · intro _; simp [code, xorAll_nil]
  | cons t l ih =>
    rw [List.map_cons, List.nodup_cons] at hn
    obtain ⟨ih1, ih2⟩ := ih hn.2 (fun t ht => hd t (List.mem_cons_of_mem _ ht))
    have ht8 := hd t (List.mem_cons_self _ _)
    constructor
    · intro c hc
      rw [testBit_code_cons, testBit_digit t.2 t.1 q r ht8 hr]
      rcases List.mem_cons.1 hc with e | hc
      · subst e
        rw [ih2 hn.1]
        simp
      · have hne : t.1 ≠ q := by
          intro e
          apply hn.1
          rw [e]
          exact List.mem_map.2 ⟨(q, c), hc, rfl⟩
        rw [ih1 c hc]
        simp [hne]
    · intro hq
      rw [List.map_cons, List.mem_cons, not_or] at hq
      rw [testBit_code_cons, testBit_digit t.2 t.1 q r ht8 hr, ih2 hq.2]
      have hne : t.1 ≠ q := fun e => hq.1 e.symm
      simp [hne]

theorem rectCells_nodup (ax ay : Int) (w h : Nat) (hw : w ≤ 2) (hh : h ≤ 2) :
    (rectCells ax ay w h).Nodup := by
  interval_cases w <;> interval_cases h <;>
    simp [rectCells, intRange, List.flatMap]

theorem blocks_nodup {P : List Piece} (ha : Arrangement P) :
    (P.flatMap (fun p => p.Blocks)).Nodup := by
  rw [List.nodup_flatMap]
  constructor
  · intro p hp
    obtain ⟨ax, ay, hr⟩ := ha.1.1 p hp
    obtain ⟨hw, hh, _, _, _, _, hperm⟩ := hr
    rw [hperm.nodup_iff]
    have := ha.2.2 p hp
    exact rectCells_nodup ax ay _ _ (by omega) (by omega)
  · exact ha.1.2.imp (fun {a b} hab => by
      intro c hca hcb
      exact hab c hca hcb)

theorem cellNo_inj {b1 b2 : Block} (h1 : b1.Inside) (h2 : b2.Inside)
    (e : cellNo b1 = cellNo b2) : b1 = b2 := by
  obtain ⟨x1, y1⟩ := b1
  obtain ⟨x2, y2⟩ := b2
  unfold Block.Inside at h1 h2
  unfold cellNo at e
  simp only at h1 h2 e
  simp only [Block.mk.injEq]
  omega

theorem mem_cells {P : List Piece} {t : Block × Nat} :
    t ∈ cells P ↔ ∃ p ∈ P, t.1 ∈ p.Blocks ∧ t.2 = category p := by
  unfold cells
  simp only [List.mem_flatMap, List.mem_map]
  constructor
  · rintro ⟨p, hp, b, hb, rfl⟩
    exact ⟨p, hp, hb, rfl⟩
  · rintro ⟨p, hp, hb, hc⟩
    exact ⟨p, hp, t.1, hb, by rw [← hc]⟩

theorem cells_fst (P : List Piece) :
    (cells P).map (fun t => t.1) = P.flatMap (fun p => p.Blocks) := by
  unfold cells
  induction P with
  | nil => rfl
  | cons p ps ih =>
    simp only [List.flatMap_cons, List.map_append, ih, List.map_map]
    congr 1
    exact List.map_id _

theorem category_bounds {P : List Piece} (ha : Arrangement P) {p : Piece} (hp : p ∈ P) :
    1 ≤ category p ∧ category p < 5 := by
  obtain ⟨ax, ay, hr⟩ := ha.1.1 p hp
  have hs := ha.2.2 p hp
  obtain ⟨c, hc, h1, h2⟩ := pieceTypeOf_some p hr.1 hs.1 hr.2.1 hs.2
  simp only [category, hc, Option.getD_some]
  exact ⟨h1, h2⟩

theorem category_inj {P Q : List Piece} (hP : Arrangement P) (hQ : Arrangement Q)
    {p q : Piece} (hp : p ∈ P) (hq : q ∈ Q) (e : category p = category q) :
    (p.Width, p.Height) = (q.Width, q.Height) := by
  obtain ⟨ax, ay, hr⟩ := hP.1.1 p hp
  obtain ⟨bx, bY, hr2⟩ := hQ.1.1 q hq
  have hs := hP.2.2 p hp
  have hs2 := hQ.2.2 q hq
  have hw : p.Width = 1 ∨ p.Width = 2 := by have := hr.1; omega
  have hh : p.Height = 1 ∨ p.Height = 2 := by have := hr.2.1; omega
  have hw2 : q.Width = 1 ∨ q.Width = 2 := by have := hr2.1; omega
  have hh2 : q.Height = 1 ∨ q.Height = 2 := by have := hr2.2.1; omega
  unfold category pieceTypeOf at e
  rcases hw with a | a <;> rcases hh with b | b <;> rcases hw2 with c | c <;>
    rcases hh2 with d | d <;> rw [a, b, c, d] at e <;> rw [a, b, c, d] <;>
    first | rfl | (exfalso; revert e; decide)

theorem xorAll_zero (l : List Nat) (h : ∀ x ∈ l, x = 0) : xorAll l = 0 := by
  induction l with
  | nil => rfl
  | cons x l ih =>
    rw [xorAll_cons, h x (List.mem_cons_self _ _), ih (fun y hy => h y (List.mem_cons_of_mem _ hy))]
    rfl

theorem cells_inside {P : List Piece} (ha : Arrangement P) {t : Block × Nat}
    (ht : t ∈ cells P) : t.1.Inside ∧ t.2 < 5 := by
  obtain ⟨p, hp, hb, hc⟩ := mem_cells.1 ht
  exact ⟨(ha.1.1 p hp).inside _ hb, by rw [hc]; exact (category_bounds ha hp).2⟩

theorem zeroXor_codeTable {P : List Piece} (ha : Arrangement P) : zeroXor codeTable P = 0 := by
  unfold zeroXor
  apply xorAll_zero
  intro x hx
  obtain ⟨t, ht, rfl⟩ := List.mem_map.1 hx
  rw [entry_codeTable t.1 0 (cells_inside ha ht).1 (by norm_num)]
  simp

theorem fullXor_codeTable {P : List Piece} (ha : Arrangement P) :
    fullXor codeTable P = code ((cells P).map (fun t => (cellNo t.1, t.2))) := by
  unfold fullXor code
  rw [List.map_map]
  congr 1
  apply List.map_congr_left
  intro t ht
  obtain ⟨h1, h2⟩ := cells_inside ha ht
  exact entry_codeTable t.1 t.2 h1 h2

theorem cellNos_nodup {P : List Piece} (ha : Arrangement P) :
    (((cells P).map (fun t => (cellNo t.1, t.2))).map (fun t => t.1)).Nodup := by
  have e : ((cells P).map (fun t => (cellNo t.1, t.2))).map (fun t => t.1)
      = (P.flatMap (fun p => p.Blocks)).map cellNo := by
    rw [← cells_fst, List.map_map, List.map_map]
    rfl
  rw [e]
  apply List.Nodup.map_on _ (blocks_nodup ha)
  intro b1 hb1 b2 hb2 e12
  obtain ⟨p1, hp1, hm1⟩ := List.mem_flatMap.1 hb1
  obtain ⟨p2, hp2, hm2⟩ := List.mem_flatMap.1 hb2
  exact cellNo_inj ((ha.1.1 p1 hp1).inside _ hm1) ((ha.1.1 p2 hp2).inside _ hm2) e12

theorem digit_of_cover {P : List Piece} (ha : Arrangement P) {p : Piece} (hp : p ∈ P)
    {c0 : Block} (h : c0 ∈ p.Blocks) (r : Nat) (hr : r < 3) :
    (fullXor codeTable P).testBit (3 * cellNo c0 + r) = (category p).testBit r := by
  rw [fullXor_codeTable ha]
  apply (testBit_code _ (cellNos_nodup ha) _ (cellNo c0) r hr).1
  · exact List.mem_map.2 ⟨(c0, category p), mem_cells.2 ⟨p, hp, h, rfl⟩, rfl⟩
  · intro t ht
    obtain ⟨t0, ht0, rfl⟩ := List.mem_map.1 ht
    have := (cells_inside ha ht0).2
    simp only
    omega

theorem digit_of_free {P : List Piece} (ha : Arrangement P) {c0 : Block} (hc0 : c0.Inside)
    (h : ∀ p ∈ P, c0 ∉ p.Blocks) (r : Nat) (hr : r < 3) :
    (fullXor codeTable P).testBit (3 * cellNo c0 + r) = false := by
  rw [fullXor_codeTable ha]
  apply (testBit_code _ (cellNos_nodup ha) _ (cellNo c0) r hr).2
  · intro hmem
    obtain ⟨t, ht, e⟩ := List.mem_map.1 hmem
    obtain ⟨t0, ht0, rfl⟩ := List.mem_map.1 ht
    simp only at e
    have e2 := cellNo_inj (cells_inside ha ht0).1 hc0 e
    obtain ⟨p, hp, hb, _⟩ := mem_cells.1 ht0
    rw [e2] at hb
    exact h p hp hb
  · intro t ht
    obtain ⟨t0, ht0, rfl⟩ := List.mem_map.1 ht
    have := (cells_inside ha ht0).2
    simp only
    omega

theorem shapeAt_none {P : List Piece} {c : Block} (h : shapeAt P c = none) :
    ∀ p ∈ P, c ∉ p.Blocks := by
  unfold shapeAt at h
  rw [Option.map_eq_none'] at h
  intro p hp hc
  have := List.find?_eq_none.1 h p hp
  simp [hc] at this

theorem eq_of_low_bits {a b : Nat} (ha : a < 8) (hb : b < 8)
    (h : ∀ r, r < 3 → a.testBit r = b.testBit r) : a = b := by
  apply Nat.eq_of_testBit_eq
  intro i
  by_cases hi : i < 3
  · exact h i hi
  · have h8 : 8 ≤ 2 ^ i := by
      calc 8 = 2 ^ 3 := by norm_num
        _ ≤ 2 ^ i := Nat.pow_le_pow_right (by norm_num) (by omega)
    rw [Nat.testBit_eq_false_of_lt (lt_of_lt_of_le ha h8),
      Nat.testBit_eq_false_of_lt (lt_of_lt_of_le hb h8)]

/-- Under `codeTable` the full signature determines the footprint at every cell. -/
theorem shapeAt_of_fullXor {P Q : List Piece} (hP : Arrangement P) (hQ : Arrangement Q)
    (e : fullXor codeTable P = fullXor codeTable Q) (c0 : Block) (hc0 : c0.Inside) :
    shapeAt P c0 = shapeAt Q c0 := by
  have key : ∀ {A B : List Piece}, Arrangement A → Arrangement B →
      fullXor codeTable A = fullXor codeTable B → ∀ wh, shapeAt A c0 = some wh →
      shapeAt B c0 = some wh := by
    intro A B hA hB eAB wh hwh
    obtain ⟨p, hp, hcp, rfl⟩ := shapeAt_some hwh
    have hcatp := category_bounds hA hp
    cases hB0 : shapeAt B c0 with
    | none =>
      exfalso
      have hfree := shapeAt_none hB0
      have : category p = 0 := by
        apply eq_of_low_bits (by omega) (by norm_num)
        intro r hr
        rw [← digit_of_cover hA hp hcp r hr, eAB, digit_of_free hB hc0 hfree r hr]
        simp
      omega
    | some wh2 =>
      obtain ⟨q, hq, hcq, rfl⟩ := shapeAt_some hB0
      have hcatq := category_bounds hB hq
      have : category p = category q := by
        apply eq_of_low_bits (by omega) (by omega)
        intro r hr
        rw [← digit_of_cover hA hp hcp r hr, eAB, digit_of_cover hB hq hcq r hr]
      rw [category_inj hA hB hp hq this]
  cases h1 : shapeAt P c0 with
  | some wh => exact (key hP hQ e wh h1).symm
  | none =>
    cases h2 : shapeAt Q c0 with
    | none => rfl
    | some wh => rw [key hQ hP e.symm wh h2] at h1; cases h1

theorem occupancy_congr {P Q : List Piece}
    (h : ∀ c : Block, c.Inside → shapeAt P c = shapeAt Q c) : occupancy P = occupancy Q := by
  unfold occupancy
  apply List.map_congr_left
  intro c hc
  rw [mem_rectCells] at hc
  apply h
  unfold Block.Inside
  simp only [Nat.cast_ofNat] at hc
  omega

theorem runPath_codeTable {P0 P : List Piece} {h : Nat} (ms : List (Nat × Move))
    (ha : Arrangement P0)
    (hr : runPath codeTable ms (P0, fullXor codeTable P0) = some (P, h)) :
    h = fullXor codeTable P := by
  have hc := runPath_closed ms hr
  have haP := (runPath_arrangement ms ha hr).1
  simp only [mixXor_eq, zeroXor_codeTable ha, zeroXor_codeTable haP, Nat.xor_zero,
    Nat.xor_self] at hc
  calc h = (h ^^^ fullXor codeTable P) ^^^ fullXor codeTable P := by
        rw [Nat.xor_assoc, Nat.xor_self, Nat.xor_zero]
    _ = fullXor codeTable P := by rw [hc, Nat.zero_xor]

/-- Under `codeTable`, from a valid root carrying its full signature, move sequences ending
in the same signature end in the same occupancy pattern. -/
theorem collisionless_codeTable (root : State) (ha : Arrangement root.Pieces)
    (hh : root.Hash = fullXor codeTable root.Pieces) : Collisionless codeTable root := by
  intro ms ms2 P P2 h h1 h2
  rw [hh] at h1 h2
  have e1 := runPath_codeTable ms ha h1
  have e2 := runPath_codeTable ms2 ha h2
  apply occupancy_congr
  intro c hc
  exact shapeAt_of_fullXor (runPath_arrangement ms ha h1).1 (runPath_arrangement ms2 ha h2).1
    (e1.symm.trans e2) c hc

theorem collisionless_codeBoard : Collisionless codeTable codeBoard.State :=
  collisionless_codeTable codeBoard.State arrangement_initPieces (by decide)

/-- C3: for the ten-piece starting layout `initBoard` builds over a hash table `T` of the
allocated shape (5 rows, 4 columns, 5 categories) — root signature computed by
`GetZobristHash`, empty seen set, frontier holding only the root — under which move
sequences reaching distinct occupancy patterns reach distinct signatures, `Solve` returns a
nil error and a non-empty list, for every fuel from some bound on. -/
theorem Solve_initBoard (T : ZTable) (b : Board) (hT : TableOK T)
    (hb : initBoard T = some b) (hcol : Collisionless T b.State) :
    b.States = [b.State] ∧ b.VisitedStatesHashes = [] ∧ b.State.Pieces = initPieces ∧
    GetZobristHash b b.State = some b.State.Hash ∧
    ∃ res b2, res ≠ [] ∧ ∃ fuel0, ∀ fuel, fuel0 ≤ fuel →
      Solve fuel b = some ((res, none), b2) := by
  obtain ⟨h0, hh0, rfl⟩ := initBoard_eq hb
  exact ⟨rfl, rfl, rfl, hh0, Solve_initState T h0 hT hcol⟩

/-- Witness for C3: the table `codeTable`, whose signatures spell the occupancy pattern in
base 8. -/
theorem Solve_initBoard_witness :
    TableOK codeTable ∧ initBoard codeTable = some codeBoard ∧
    Collisionless codeTable codeBoard.State ∧
    ∃ res b2, res ≠ [] ∧ ∃ fuel0, ∀ fuel, fuel0 ≤ fuel →
      Solve fuel codeBoard = some ((res, none), b2) :=
  ⟨by decide, by decide, collisionless_codeBoard,
   (Solve_initBoard codeTable codeBoard (by decide) (by decide)
      collisionless_codeBoard).2.2.2.2⟩

theorem stepKeyed_mapInsert {m : List (Int × State)} (h : StepKeyed m) (s : State) :
    StepKeyed (mapInsert m s.Step s) := by
  obtain ⟨h1, h2⟩ := h
  unfold mapInsert
  constructor
  · intro e he
    rcases List.mem_cons.1 he with rfl | he
    · rfl
    · exact h1 e (List.mem_filter.1 he).1
  · rw [List.map_cons, List.nodup_cons]
    constructor
    · intro hmem
      obtain ⟨e, he, hk⟩ := List.mem_map.1 hmem
      have := (List.mem_filter.1 he).2
      simp only [ne_eq, decide_not, Bool.not_eq_eq_eq_not, Bool.not_true,
        decide_eq_false_iff_not] at this
      exact this hk
    · exact (h2.sublist ((List.filter_sublist _).map _))

theorem stepKeyed_recordAll (l : List State) {m : List (Int × State)} (h : StepKeyed m) :
    StepKeyed (recordAll m l) := by
  unfold recordAll
  induction l generalizing m with
  | nil => exact h
  | cons a l ih => exact ih (stepKeyed_mapInsert h a)

theorem mapGet_step {m : List (Int × State)} (h : StepKeyed m) {k : Int}
    (hk : k ∈ m.map Prod.fst) : (mapGet m k).Step = k := by
  unfold mapGet
  cases hf : m.find? (fun e => decide (e.1 = k)) with
  | none =>
    obtain ⟨e, he, rfl⟩ := List.mem_map.1 hk
    have := List.find?_eq_none.1 hf e he
    simp at this
  | some e =>
    have h1 := List.find?_some hf
    simp only [decide_eq_true_eq] at h1
    rw [← h1]
    exact h.1 e (List.mem_of_find?_eq_some hf)

/-- The emitted list has strictly increasing step counters, whatever the walk recorded. -/
theorem emit_increasing {m : List (Int × State)} (h : StepKeyed m) :
    ((((m.map Prod.fst).insertionSort (fun a b => a ≤ b)).map (mapGet m)).Pairwise
      (fun a c => a.Step < c.Step)) := by
  have hperm := List.perm_insertionSort (fun a b : Int => a ≤ b) (m.map Prod.fst)
  have hsorted : ((m.map Prod.fst).insertionSort (fun a b => a ≤ b)).Sorted
      (fun a b => a ≤ b) := List.sorted_insertionSort _ _
  have hnd : ((m.map Prod.fst).insertionSort (fun a b => a ≤ b)).Nodup :=
    hperm.nodup_iff.2 h.2
  have hlt : ((m.map Prod.fst).insertionSort (fun a b => a ≤ b)).Pairwise
      (fun a b => a < b) := by
    have := List.Pairwise.and hsorted hnd
    exact this.imp (fun {a b} hab => lt_of_le_of_ne hab.1 hab.2)
  rw [List.pairwise_map]
  refine List.Pairwise.imp_of_mem ?_ hlt
  intro a c ha hc hac
  rw [mapGet_step h (hperm.mem_iff.1 ha), mapGet_step h (hperm.mem_iff.1 hc)]
  exact hac

theorem reconstruct_increasing {g : State} {res : List State}
    (h : reconstruct g = some res) : res.Pairwise (fun a c => a.Step < c.Step) := by
  unfold reconstruct at h
  obtain ⟨m, hm, hres⟩ := Option.bind_eq_some.1 h
  rw [walk_eq_walkList] at hm
  obtain ⟨l, _, rfl⟩ := Option.map_eq_some'.1 hm
  cases hres
  exact emit_increasing (stepKeyed_recordAll l ⟨by simp, by simp⟩)

/-- C11: on every board on which `Solve` returns a list without error, the step counters of
the returned list are strictly increasing from the first entry to the last; and when the
frontier held only a root without parent, the list is the backward walk from the goal to the
root read in reverse (the entry nearest the root first, the goal last). -/
theorem Solve_steps_increasing (fuel : Nat) (b b2 : Board) (res : List State)
    (h : Solve fuel b = some ((res, none), b2)) :
    res.Pairwise (fun a c => a.Step < c.Step) ∧
    ∀ root, b.States = [root] → root.Parent = none →
      ∃ g l, g ∈ b2.States ∧ isFinal g = true ∧
        Trail (fun n t => n.Step < t.Step) root g l ∧ res = l.reverse := by
  obtain ⟨n, bn, hsc, _, hend⟩ := solveLoop_spec fuel 0 b _ b2 h
  rcases hend with ⟨_, hout, _⟩ | ⟨g, r, hg, hfin, hrec, hout, rfl⟩
  · simp at hout
  · simp only [Prod.mk.injEq, and_true] at hout
    subst hout
    refine ⟨reconstruct_increasing hrec, ?_⟩
    intro root hb hpar
    simp only [zero_add] at hg
    have hnode : Node noSide root g :=
      scanned_nodes root n 0 b bn (by
        intro t ht
        rw [hb] at ht
        simp only [List.mem_singleton] at ht
        subst ht
        exact Node.root) hsc g (List.get?_mem hg)
    obtain ⟨e, l, he, htr, hres⟩ := reconstruct_eq_reverse (Node noSide root)
      (fun n t => n.Step < t.Step) (fun t n ht hh => ht.hop_step hpar hh)
      (fun _ _ hlt => hlt) g _ hnode hrec
    have := he.eq_root_of_parent_none htr.end_parent
    subst this
    exact ⟨g, l, List.get?_mem hg, hfin, htr, hres⟩

/-- Witness for C11: `hopBoard`, where `Solve` returns two entries with steps 1 and 2. -/
theorem Solve_steps_increasing_witness :
    Solve 10 hopBoard = some ((hopResult, none), hopSolved) ∧
    hopResult.map (fun s => s.Step) = [1, 2] ∧
    hopResult.Pairwise (fun a c => a.Step < c.Step) :=
  ⟨by decide, by decide,
   (Solve_steps_increasing 10 hopBoard hopSolved hopResult (by decide)).1⟩

theorem movePiece_seen (b : Board) (s : State) (i : Int) (p : Piece) (m : Move) (h : Nat)
    (hh : getUpdatedZobristHash b s p m = some h) (hv : h ∈ b.VisitedStatesHashes) :
    movePiece b s i p m = some (zeroState, some "State visited already") := by
  unfold movePiece
  rw [hh, Option.some_bind, if_pos hv]

theorem movePiece_unseen (b : Board) (s : State) (i : Int) (p : Piece) (m : Move) (h : Nat)
    (hh : getUpdatedZobristHash b s p m = some h) (hv : h ∉ b.VisitedStatesHashes) :
    movePiece b s i p m = (assign s.Pieces i (shiftPiece p m)).bind (fun newPieces =>
      some ({ Pieces := newPieces, Hash := h, Parent := some s, Step := s.Step + 1,
              MoveDirection := m.getString, MovePiece := shiftPiece p m }, none)) := by
  unfold movePiece
  rw [hh, Option.some_bind, if_neg hv]

/-- C12: `movePiece(s, i, p, m)` returns the error exactly when the signature
`getUpdatedZobristHash(s, p, m)` is in the seen set of the board, and then the returned state
is the zero `State`; when the signature is unseen and `i` is an index of `s.Pieces` it
returns a state and no error. (`movePiece` never assigns to a field of the board, so the
embedding gives it no board result: frontier and seen set are those of the argument.) -/
theorem movePiece_error_iff (b : Board) (s : State) (i : Int) (p : Piece) (m : Move) :
    (∀ t err, movePiece b s i p m = some (t, err) →
      ∃ h, getUpdatedZobristHash b s p m = some h ∧
        (err ≠ none ↔ h ∈ b.VisitedStatesHashes) ∧
        (err ≠ none → t = zeroState ∧ err = some "State visited already")) ∧
    (∀ h, getUpdatedZobristHash b s p m = some h → h ∈ b.VisitedStatesHashes →
      movePiece b s i p m = some (zeroState, some "State visited already")) ∧
    (∀ h, getUpdatedZobristHash b s p m = some h → h ∉ b.VisitedStatesHashes →
      0 ≤ i → i < s.Pieces.length → ∃ t, movePiece b s i p m = some (t, none)) := by
  refine ⟨?_, movePiece_seen b s i p m, ?_⟩
  · intro t err hr
    cases hh : getUpdatedZobristHash b s p m with
    | none => simp [movePiece, hh] at hr
    | some h =>
      refine ⟨h, rfl, ?_⟩
      by_cases hv : h ∈ b.VisitedStatesHashes
      · rw [movePiece_seen b s i p m h hh hv] at hr
        simp only [Option.some.injEq, Prod.mk.injEq] at hr
        obtain ⟨rfl, rfl⟩ := hr
        simp [hv]
      · rw [movePiece_unseen b s i p m h hh hv] at hr
        obtain ⟨l, _, hr⟩ := Option.bind_eq_some.1 hr
        simp only [Option.some.injEq, Prod.mk.injEq] at hr
        obtain ⟨_, rfl⟩ := hr
        simp [hv]
  · intro h hh hv h0 h1
    rw [movePiece_unseen b s i p m h hh hv]
    have : assign s.Pieces i (shiftPiece p m) = some (s.Pieces.set i.toNat (shiftPiece p m)) := by
      unfold assign
      have hn : ¬ i < 0 := by omega
      have hl : i.toNat < s.Pieces.length := by omega
      simp [hn, hl]
    rw [this]
    exact ⟨_, rfl⟩

/-- Witness for C12: moving piece `i` of the starting layout right over `demoTable`, with its
signature 703142361 seen and unseen. -/
theorem movePiece_error_iff_witness :
    movePiece (demoBoard.mark 703142361) demoBoard.State 8 pieceI ⟨1, 0⟩
      = some (zeroState, some "State visited already") ∧
    ∃ t, movePiece demoBoard demoBoard.State 8 pieceI ⟨1, 0⟩ = some (t, none) :=
  ⟨(movePiece_error_iff (demoBoard.mark 703142361) demoBoard.State 8 pieceI ⟨1, 0⟩).2.1
      703142361 (by decide) (by decide),
   (movePiece_error_iff demoBoard demoBoard.State 8 pieceI ⟨1, 0⟩).2.2
      703142361 (by decide) (by decide) (by decide) (by decide)⟩

/-- C13: when `movePiece(s, i, p, m)` returns a state `t` without error and `s.Step + 1` is
a 64-bit `int` (the source computes it without wrap-around), `t` has step
`s.Step + 1`, parent `s`, the name of `m` as direction, the signature
`getUpdatedZobristHash(s, p, m)`, as many pieces as `s`, at every index other than `i` the
piece of `s`, and at index `i` (also as `MovePiece`) a piece with the label, width and
height of `p` and the blocks of `p` shifted by `m` in the same order. (`s` is a value of the
embedding and the source works on a copy of `s.Pieces`, so `s.Pieces` is not modified.) -/
theorem movePiece_frame (b : Board) (s t : State) (i : Int) (p : Piece) (m : Move)
    (h : movePiece b s i p m = some (t, none)) (_hstep : InInt64 (s.Step + 1)) :
    t.Step = s.Step + 1 ∧ t.Parent = some s ∧ t.MoveDirection = m.getString ∧
    getUpdatedZobristHash b s p m = some t.Hash ∧
    t.Pieces.length = s.Pieces.length ∧
    (∀ j : Int, j ≠ i → index t.Pieces j = index s.Pieces j) ∧
    ∃ q, index t.Pieces i = some q ∧ t.MovePiece = q ∧ q.Label = p.Label ∧
      q.Width = p.Width ∧ q.Height = p.Height ∧
      q.Blocks = p.Blocks.map (fun c => ⟨c.X + m.X, c.Y + m.Y⟩) := by
  cases hh : getUpdatedZobristHash b s p m with
  | none => simp [movePiece, hh] at h
  | some v =>
    by_cases hv : v ∈ b.VisitedStatesHashes
    · rw [movePiece_seen b s i p m v hh hv] at h
      simp at h
    · rw [movePiece_unseen b s i p m v hh hv] at h
      obtain ⟨l, hl, h⟩ := Option.bind_eq_some.1 h
      simp only [Option.some.injEq, Prod.mk.injEq, and_true] at h
      subst h
      unfold assign at hl
      have hn : ¬ i < 0 := by
        intro hc
        rw [if_pos hc] at hl
        cases hl
      rw [if_neg hn] at hl
      have hlen : i.toNat < s.Pieces.length := by
        by_contra hc
        rw [if_neg hc] at hl
        cases hl
      rw [if_pos hlen] at hl
      cases hl
      refine ⟨rfl, rfl, rfl, rfl, by simp, ?_, shiftPiece p m, ?_, rfl, rfl, rfl, rfl, rfl⟩
      · intro j hj
        simp only
        rw [index_set]
        have : ¬ (0 ≤ j ∧ j.toNat = i.toNat ∧ i.toNat < s.Pieces.length) := by
          rintro ⟨h0, h1, _⟩
          apply hj
          omega
        rw [if_neg this]
      · simp only
        rw [index_set, if_pos ⟨by omega, rfl, hlen⟩]

/-- Witness for C13: moving piece `i` (index 8) of the starting layout right. -/
theorem movePiece_frame_witness :
    movePiece demoBoard demoBoard.State 8 pieceI ⟨1, 0⟩
      = some (stepState demoBoard.State 8 pieceI ⟨1, 0⟩ 703142361, none) ∧
    InInt64 (demoBoard.State.Step + 1) ∧
    (stepState demoBoard.State 8 pieceI ⟨1, 0⟩ 703142361).Step = demoBoard.State.Step + 1 ∧
    index (stepState demoBoard.State 8 pieceI ⟨1, 0⟩ 703142361).Pieces 8
      = some ⟨"i", 1, 1, [⟨1, 4⟩]⟩ :=
  ⟨by decide, by decide,
   (movePiece_frame demoBoard demoBoard.State _ 8 pieceI ⟨1, 0⟩
      (by decide : movePiece demoBoard demoBoard.State 8 pieceI ⟨1, 0⟩
        = some (stepState demoBoard.State 8 pieceI ⟨1, 0⟩ 703142361, none))
      (by decide)).1,
   by decide⟩

theorem startingBlockLoop_find (label : String) (pieces : List Piece) :
    startingBlockLoop label pieces =
      match pieces.find? (fun q => decide (q.Label = label)) with
      | some q => (⟨(minCorner q.Blocks).1, (minCorner q.Blocks).2⟩, none)
      | none => (⟨0, 0⟩, some "Cannot find piece starting block") := by
  induction pieces with
  | nil => rfl
  | cons p rest ih =>
    unfold startingBlockLoop
    rw [List.find?_cons]
    by_cases h : p.Label = label
    · simp [h]
    · simp only [h, if_false, decide_False]
      exact ih

theorem minCorner_eq_iff (p : Piece) (hne : p.Blocks ≠ [])
    (hin : ∀ c ∈ p.Blocks, c.Inside) (x y : Int) :
    minCorner p.Blocks = (x, y) ↔ HasAnchor p x y := by
  have e1 : (minCorner p.Blocks).1 = p.Blocks.foldl (fun x b => if b.X < x then b.X else x) 4 :=
    minCorner_fst p.Blocks 4 5
  have e2 : (minCorner p.Blocks).2 = p.Blocks.foldl (fun y b => if b.Y < y then b.Y else y) 5 :=
    minCorner_snd p.Blocks 4 5
  obtain ⟨a1, a2, a3⟩ := minFold_spec (fun b => b.X) p.Blocks 4
  obtain ⟨b1, b2, b3⟩ := minFold_spec (fun b => b.Y) p.Blocks 5
  rw [← e1] at a1 a2 a3
  rw [← e2] at b1 b2 b3
  obtain ⟨c0, hc0⟩ := List.exists_mem_of_ne_nil _ hne
  have hx : ∃ c ∈ p.Blocks, (minCorner p.Blocks).1 = c.X := by
    rcases a3 with a3 | a3
    · have := a2 c0 hc0
      have := (hin c0 hc0).2.1
      omega
    · exact a3
  have hy : ∃ c ∈ p.Blocks, (minCorner p.Blocks).2 = c.Y := by
    rcases b3 with b3 | b3
    · have := b2 c0 hc0
      have := (hin c0 hc0).2.2.2
      omega
    · exact b3
  constructor
  · intro e
    rw [e] at a2 b2 hx hy
    simp only at a2 b2 hx hy
    obtain ⟨cx, hcx, ex⟩ := hx
    obtain ⟨cy, hcy, ey⟩ := hy
    exact ⟨fun c hc => ⟨a2 c hc, b2 c hc⟩, ⟨cx, hcx, ex.symm⟩, ⟨cy, hcy, ey.symm⟩⟩
  · rintro ⟨hall, ⟨cx, hcx, ex⟩, ⟨cy, hcy, ey⟩⟩
    obtain ⟨dx, hdx, fx⟩ := hx
    obtain ⟨dy, hdy, fy⟩ := hy
    have h1 := a2 cx hcx
    have h2 := b2 cy hcy
    have h3 := (hall dx hdx).1
    have h4 := (hall dy hdy).2
    apply Prod.ext
    · simp only; omega
    · simp only; omega

/-- C14 (amended): for every arrangement whose pieces have non-empty in-bounds blocks,
`isFinal` returns true if and only if the first piece labelled "b", in piece order, exists
and has its anchor (minimum x, minimum y over its blocks) at x = 1, y = 3; when the labels
are pairwise different this is: some piece labelled "b" has its anchor there. -/
theorem isFinal_iff (s : State)
    (hin : ∀ p ∈ s.Pieces, p.Blocks ≠ [] ∧ ∀ c ∈ p.Blocks, c.Inside) :
    (isFinal s = true ↔
      ∃ p, s.Pieces.find? (fun q => decide (q.Label = "b")) = some p ∧ HasAnchor p 1 3) ∧
    (s.Pieces.Pairwise (fun p q => p.Label ≠ q.Label) →
      (isFinal s = true ↔ ∃ p ∈ s.Pieces, p.Label = "b" ∧ HasAnchor p 1 3)) := by
  have key : isFinal s = true ↔
      ∃ p, s.Pieces.find? (fun q => decide (q.Label = "b")) = some p ∧ HasAnchor p 1 3 := by
    unfold isFinal getPieceStartingBlock
    rw [List.any_eq_true]
    constructor
    · rintro ⟨q, hq, h⟩
      simp only [Bool.and_eq_true, decide_eq_true_eq] at h
      obtain ⟨hl, hy, hx⟩ := h
      rw [startingBlockLoop_find, hl] at hy hx
      cases hf : s.Pieces.find? (fun q => decide (q.Label = "b")) with
      | none => rw [hf] at hy; simp at hy
      | some p =>
        rw [hf] at hy hx
        simp only at hy hx
        have hp := List.mem_of_find?_eq_some hf
        refine ⟨p, rfl, (minCorner_eq_iff p (hin p hp).1 (hin p hp).2 1 3).1 ?_⟩
        exact Prod.ext hx hy
    · rintro ⟨p, hf, ha⟩
      have hp := List.mem_of_find?_eq_some hf
      have hl : p.Label = "b" := by simpa using List.find?_some hf
      have hm := (minCorner_eq_iff p (hin p hp).1 (hin p hp).2 1 3).2 ha
      refine ⟨p, hp, ?_⟩
      simp only [Bool.and_eq_true, decide_eq_true_eq]
      rw [startingBlockLoop_find, hl, hf]
      simp only [hm, and_self]
  refine ⟨key, ?_⟩
  intro hlab
  rw [key]
  constructor
  · rintro ⟨p, hf, ha⟩
    exact ⟨p, List.mem_of_find?_eq_some hf, by simpa using List.find?_some hf, ha⟩
  · rintro ⟨p, hp, hl, ha⟩
    refine ⟨p, ?_, ha⟩
    cases hf : s.Pieces.find? (fun q => decide (q.Label = "b")) with
    | none =>
      have := List.find?_eq_none.1 hf p hp
      simp [hl] at this
    | some q =>
      have hq := List.mem_of_find?_eq_some hf
      have hql : q.Label = "b" := by simpa using List.find?_some hf
      by_contra hne
      have hne2 : q ≠ p := fun e => hne (by rw [e])
      have := hlab.forall (fun a b hab => fun e => hab e.symm) hq hp hne2
      exact this (hql.trans hl.symm)

/-- Witness for C14: the layout of `finalBoard`, where piece `b` has anchor (1,2) and
`isFinal` is false. -/
theorem isFinal_iff_witness :
    isFinal (rootState finalPieces 0) = false ∧
    (isFinal (rootState finalPieces 0) = true ↔
      ∃ p, (rootState finalPieces 0).Pieces.find? (fun q => decide (q.Label = "b")) = some p ∧
        HasAnchor p 1 3) :=
  ⟨by decide, (isFinal_iff (rootState finalPieces 0) (by decide)).1⟩

/-- Counterexample to C14 as stated: with two pieces labelled "b", the second at the goal
anchor (1,3), every piece has non-empty in-bounds blocks and some piece labelled "b" has its
anchor at (1,3), yet `isFinal` is false: it reads the anchor of the first piece labelled
"b". -/
theorem isFinal_second_b_counterexample :
    (∀ p ∈ (rootState twoGoalPieces 0).Pieces, p.Blocks ≠ [] ∧ ∀ c ∈ p.Blocks, c.Inside) ∧
    (∃ p ∈ (rootState twoGoalPieces 0).Pieces, p.Label = "b" ∧ HasAnchor p 1 3) ∧
    isFinal (rootState twoGoalPieces 0) = false := by
  decide

theorem appendOnly_refl (b : Board) : AppendOnly b b :=
  ⟨⟨[], by simp⟩, fun _ h => h, rfl, rfl, rfl, rfl⟩

theorem appendOnly_trans {a b c : Board} (h1 : AppendOnly a b) (h2 : AppendOnly b c) :
    AppendOnly a c := by
  obtain ⟨⟨n1, e1⟩, v1, t1, w1, g1, s1⟩ := h1
  obtain ⟨⟨n2, e2⟩, v2, t2, w2, g2, s2⟩ := h2
  refine ⟨⟨n1 ++ n2, by rw [e2, e1, List.append_assoc]⟩, fun x hx => v2 (v1 hx),
    t2.trans t1, w2.trans w1, g2.trans g1, s2.trans s1⟩

theorem appendOnly_mark (b : Board) (h : Nat) : AppendOnly b (b.mark h) :=
  ⟨⟨[], by simp [Board.mark]⟩, fun _ hx => List.mem_cons_of_mem _ hx, rfl, rfl, rfl, rfl⟩

theorem appendOnly_findNewStates {b b2 : Board} {s : State}
    (h : findNewStates b s = some b2) : AppendOnly b b2 := by
  obtain ⟨⟨new, rfl, _⟩, _⟩ := findNewStates_expands b b2 s h
  refine ⟨⟨new, rfl⟩, ?_, rfl, rfl, rfl, rfl⟩
  intro x hx
  rw [extend_visited]
  exact List.mem_append_right _ hx

theorem appendOnly_scanned (n idx : Nat) (b bn : Board) (h : scanned n idx b = some bn) :
    AppendOnly b bn :=
  scanned_induct (AppendOnly b)
    (fun x cur hx _ => appendOnly_trans hx (appendOnly_mark x cur.Hash))
    (fun _ _ _ hx _ hf => appendOnly_trans hx (appendOnly_findNewStates hf))
    n idx b bn (appendOnly_refl b) h

/-- C16: `findNewStates` and `Solve` are append-only on the search space. For every board
and arrangement, when `findNewStates` returns, the previous frontier is a prefix of the new
frontier, every signature of the seen set is still in it, and the hash table, `Width` and
`Height` are unchanged; the same holds for the board `Solve` leaves, with or without
error. -/
theorem search_append_only (b : Board) :
    (∀ s b2, findNewStates b s = some b2 → AppendOnly b b2) ∧
    (∀ fuel out b2, Solve fuel b = some (out, b2) → AppendOnly b b2) := by
  refine ⟨fun s b2 h => appendOnly_findNewStates h, ?_⟩
  intro fuel out b2 h
  obtain ⟨n, bn, hsc, _, hend⟩ := solveLoop_spec fuel 0 b out b2 h
  have hbn := appendOnly_scanned n 0 b bn hsc
  rcases hend with ⟨_, _, rfl⟩ | ⟨g, r, _, _, _, _, rfl⟩
  · exact hbn
  · exact appendOnly_trans hbn (appendOnly_mark bn g.Hash)

/-- Witness for C16: expanding the root of `demoBoard` (frontier 1 to 7 entries) and solving
`hopBoard` (frontier 1 to 14 entries). -/
theorem search_append_only_witness :
    findNewStates demoBoard demoBoard.State = some demoExpanded ∧
    AppendOnly demoBoard demoExpanded ∧ demoExpanded.States.length = 7 ∧
    Solve 10 hopBoard = some ((hopResult, none), hopSolved) ∧
    AppendOnly hopBoard hopSolved ∧ hopSolved.States.length = 14 :=
  ⟨by decide, (search_append_only demoBoard).1 demoBoard.State demoExpanded (by decide),
   by decide, by decide,
   (search_append_only hopBoard).2 10 (hopResult, none) hopSolved (by decide), by decide⟩

theorem hashBlock_some (T : ZTable) (hT : TableOK T) (p : Piece) (hw : 1 ≤ p.Width ∧ p.Width ≤ 2)
    (hh : 1 ≤ p.Height ∧ p.Height ≤ 2) (h : Nat) (b : Block) (hb : b.Inside) :
    ∃ v, hashBlock T p h b = some v := by
  obtain ⟨c, hc, _, hc5⟩ := pieceTypeOf_some p hw.1 hw.2 hh.1 hh.2
  obtain ⟨b0, b1, b2, b3⟩ := hb
  obtain ⟨v, hv⟩ := tableAt_some T hT b.Y b.X c b2 b3 b0 b1 hc5
  exact ⟨h ^^^ v, by simp [hashBlock, hc, hv]⟩

theorem foldlM_hashBlock_some (T : ZTable) (hT : TableOK T) (p : Piece)
    (hw : 1 ≤ p.Width ∧ p.Width ≤ 2) (hh : 1 ≤ p.Height ∧ p.Height ≤ 2)
    (blocks : List Block) (hb : ∀ b ∈ blocks, b.Inside) (h : Nat) :
    ∃ v, blocks.foldlM (hashBlock T p) h = some v := by
  induction blocks generalizing h with
  | nil => exact ⟨h, rfl⟩
  | cons b bs ih =>
    obtain ⟨v, hv⟩ := hashBlock_some T hT p hw hh h b (hb b (List.mem_cons_self _ _))
    obtain ⟨v2, hv2⟩ := ih (fun c hc => hb c (List.mem_cons_of_mem _ hc)) v
    exact ⟨v2, by rw [List.foldlM_cons, hv]; exact hv2⟩

/-- On a valid arrangement and a table of the allocated shape `GetZobristHash` returns. -/
theorem GetZobristHash_some (b : Board) (s : State) (hT : TableOK b.ZobristHash)
    (ha : Arrangement s.Pieces) : ∃ g, GetZobristHash b s = some g := by
  unfold GetZobristHash
  have key : ∀ (l : List Piece) (h : Nat), (∀ p ∈ l, p ∈ s.Pieces) →
      ∃ g, l.foldlM (fun hash piece =>
        piece.Blocks.foldlM (hashBlock b.ZobristHash piece) hash) h = some g := by
    intro l
    induction l with
    | nil => intro h _; exact ⟨h, rfl⟩
    | cons p ps ih =>
      intro h hmem
      have hp := hmem p (List.mem_cons_self _ _)
      obtain ⟨ax, ay, hr⟩ := ha.1.1 p hp
      obtain ⟨v, hv⟩ := foldlM_hashBlock_some b.ZobristHash hT p ⟨hr.1, (ha.2.2 p hp).1⟩
        ⟨hr.2.1, (ha.2.2 p hp).2⟩ p.Blocks (ha.1.1 p hp).inside h
      obtain ⟨g, hg⟩ := ih v (fun q hq => hmem q (List.mem_cons_of_mem _ hq))
      exact ⟨g, by rw [List.foldlM_cons, hv]; exact hg⟩
  exact key s.Pieces 0 (fun _ hp => hp)

theorem scanned_reach {T : ZTable} {root : State} (n idx : Nat) (b bn : Board)
    (ht : b.ZobristHash = T)
    (hI : ∀ t ∈ b.States, ∃ ms, runPath T ms (root.Pieces, root.Hash) = some (t.Pieces, t.Hash))
    (h : scanned n idx b = some bn) :
    bn.ZobristHash = T ∧
    ∀ t ∈ bn.States, ∃ ms, runPath T ms (root.Pieces, root.Hash) = some (t.Pieces, t.Hash) := by
  refine scanned_induct (fun x => x.ZobristHash = T ∧ ∀ t ∈ x.States, ∃ ms,
    runPath T ms (root.Pieces, root.Hash) = some (t.Pieces, t.Hash)) ?_ ?_ n idx b bn ⟨ht, hI⟩ h
  · intro x cur hx _
    exact hx
  · intro x cur x2 hx hcur hf
    obtain ⟨⟨new, rfl, _, hsucc, _⟩, _⟩ := findNewStates_expands x x2 cur hf
    refine ⟨hx.1, ?_⟩
    intro t ht
    rw [extend_states] at ht
    rcases List.mem_append.1 ht with ht | ht
    · exact hx.2 t ht
    · obtain ⟨ms, hms⟩ := hx.2 cur hcur
      have hs := hsucc t ht
      rw [hx.1] at hs
      exact hs.reach hms

theorem cells_nodup {P : List Piece} (ha : Arrangement P) : (cells P).Nodup := by
  have h := blocks_nodup ha
  rw [← cells_fst] at h
  exact List.Nodup.of_map _ h

theorem category_congr {p q : Piece} (hw : q.Width = p.Width) (hh : q.Height = p.Height) :
    category q = category p := by
  unfold category pieceTypeOf
  rw [hw, hh]

theorem cells_subset_of_pattern {P Q : List Piece} (hP : Arrangement P)
    (hpat : ∀ c : Block, c.Inside → shapeAt P c = shapeAt Q c) (t : Block × Nat)
    (ht : t ∈ cells P) : t ∈ cells Q := by
  obtain ⟨p, hp, hb, hc⟩ := mem_cells.1 ht
  have hin := (hP.1.1 p hp).inside _ hb
  have h1 := shapeAt_of_mem hP.1 hp hb
  rw [hpat _ hin] at h1
  obtain ⟨q, hq, hbq, e⟩ := shapeAt_some h1
  simp only [Prod.mk.injEq] at e
  exact mem_cells.2 ⟨q, hq, hbq, by rw [hc, category_congr e.1 e.2]⟩

/-- Valid arrangements with the same occupancy pattern have the same contributions. -/
theorem mixXor_of_pattern (T : ZTable) {P Q : List Piece} (hP : Arrangement P)
    (hQ : Arrangement Q) (hocc : occupancy P = occupancy Q) : mixXor T P = mixXor T Q := by
  have hpat := fun c hc => occupancy_eq hocc c hc
  have hperm : (cells P).Perm (cells Q) := by
    rw [List.perm_ext_iff_of_nodup (cells_nodup hP) (cells_nodup hQ)]
    intro t
    exact ⟨cells_subset_of_pattern hP hpat t,
      cells_subset_of_pattern hQ (fun c hc => (hpat c hc).symm) t⟩
  rw [mixXor_eq, mixXor_eq]
  unfold fullXor zeroXor
  rw [xorAll_perm (hperm.map _), xorAll_perm (hperm.map (fun t => entry T t.1 0))]

/-- C18: on a board of table `T` (of the allocated shape) whose frontier holds only a valid
root `r` with `r.Hash = GetZobristHash(r)`, after any number of steps of the scan of `Solve`
every frontier arrangement `t` satisfies `t.Hash = GetZobristHash(t) XOR K(r) XOR K(t)`,
where K is the XOR of the category-0 entries over the occupied cells; and two frontier
arrangements with the same occupancy pattern carry the same signature. -/
theorem stored_signature (T : ZTable) (b bn : Board) (root : State) (n : Nat)
    (hT : TableOK T) (ht : b.ZobristHash = T) (hb : b.States = [root])
    (ha : Arrangement root.Pieces) (hh : GetZobristHash b root = some root.Hash)
    (hsc : scanned n 0 b = some bn) :
    (∀ t ∈ bn.States, ∃ g, GetZobristHash bn t = some g ∧
      t.Hash = g ^^^ zeroXor T root.Pieces ^^^ zeroXor T t.Pieces) ∧
    (∀ t1 ∈ bn.States, ∀ t2 ∈ bn.States,
      occupancy t1.Pieces = occupancy t2.Pieces → t1.Hash = t2.Hash) := by
  obtain ⟨htn, hreach⟩ := scanned_reach n 0 b bn ht (by
    intro t hmem
    rw [hb] at hmem
    simp only [List.mem_singleton] at hmem
    subst hmem
    exact ⟨[], rfl⟩) hsc
  have hroot : root.Hash = fullXor T root.Pieces := by
    have := GetZobristHash_closed hh
    rw [ht] at this
    exact this
  have hform : ∀ t ∈ bn.States, Arrangement t.Pieces ∧
      t.Hash = zeroXor T root.Pieces ^^^ mixXor T t.Pieces := by
    intro t hmem
    obtain ⟨ms, hms⟩ := hreach t hmem
    have hc := runPath_closed ms hms
    simp only at hc
    refine ⟨(runPath_arrangement ms ha hms).1, ?_⟩
    have e : root.Hash ^^^ mixXor T root.Pieces = zeroXor T root.Pieces := by
      rw [mixXor_eq, hroot, ← Nat.xor_assoc, Nat.xor_self, Nat.zero_xor]
    rw [e] at hc
    calc t.Hash = (t.Hash ^^^ mixXor T t.Pieces) ^^^ mixXor T t.Pieces := by
          rw [Nat.xor_assoc, Nat.xor_self, Nat.xor_zero]
      _ = zeroXor T root.Pieces ^^^ mixXor T t.Pieces := by rw [hc]
  constructor
  · intro t hmem
    obtain ⟨hat, hf⟩ := hform t hmem
    obtain ⟨g, hg⟩ := GetZobristHash_some bn t (by rw [htn]; exact hT) hat
    refine ⟨g, hg, ?_⟩
    have hg2 := GetZobristHash_closed hg
    rw [htn] at hg2
    rw [hf, mixXor_eq, hg2, ← Nat.xor_assoc, Nat.xor_comm (zeroXor T root.Pieces)]
  · intro t1 h1 t2 h2 hocc
    obtain ⟨ha1, hf1⟩ := hform t1 h1
    obtain ⟨ha2, hf2⟩ := hform t2 h2
    rw [hf1, hf2, mixXor_of_pattern T ha1 ha2 hocc]

/-- Witness for C18: one step of the scan on `demoBoard` (seven frontier arrangements). -/
theorem stored_signature_witness :
    scanned 1 0 demoBoard = some demoScanned ∧ demoScanned.States.length = 7 ∧
    (∀ t ∈ demoScanned.States, ∃ g, GetZobristHash demoScanned t = some g ∧
      t.Hash = g ^^^ zeroXor demoTable demoBoard.State.Pieces ^^^ zeroXor demoTable t.Pieces) ∧
    (∀ t1 ∈ demoScanned.States, ∀ t2 ∈ demoScanned.States,
      occupancy t1.Pieces = occupancy t2.Pieces → t1.Hash = t2.Hash) :=
  ⟨by decide, by decide,
   stored_signature demoTable demoBoard demoScanned demoBoard.State 1 (by decide) rfl rfl
     arrangement_initPieces (by decide) (by decide)⟩

theorem Node.hop_succ {root t n : State} (hroot : root.Parent = none)
    (hn : Node coalesceSide root t) (hh : Hop t n) : t.Step = n.Step + 1 := by
  obtain ⟨p, hp, hcase⟩ := hh
  cases hn with
  | root => rw [hroot] at hp; cases hp
  | single q j piece m h hq hside =>
    simp only [stepState, Option.some.injEq] at hp
    subst hp
    rcases hcase with ⟨hsame, hpar⟩ | ⟨_, rfl⟩
    · have hns : ¬ IsSingle q := hside.2.2 hsame.1 hsame.2
      cases hq with
      | root => rw [hroot] at hpar; cases hpar
      | single q2 j2 piece2 m2 h2 hq2 hside2 =>
        exact absurd ⟨q2, j2, piece2, m2, h2, hside2.1, hside2.2.1, rfl⟩ hns
      | double s2 j2 piece2 m2 h2 h3 hs1 hside2 =>
        simp only [stepState, doubleState, Option.some.injEq] at hpar
        subst hpar
        simp only [stepState, doubleState]
        omega
    · rfl
  | double s j piece m h h2 hs1 hside =>
    simp only [stepState, doubleState, Option.some.injEq] at hp
    subst hp
    rcases hcase with ⟨_, hpar⟩ | ⟨hns, _⟩
    · simp only [stepState, Option.some.injEq] at hpar
      subst hpar
      simp only [stepState, doubleState]
      omega
    · exact absurd (sameMove_doubleState j piece m h h2 s) hns

theorem chain_unit_steps (e : State) (l : List State) (h : List.Chain UnitStep e l) :
    l.map (fun t => t.Step) = (List.range l.length).map (fun (i : Nat) => e.Step + 1 + (i : Int)) ∧
    ∀ g, (e :: l).getLast? = some g → g.Step = e.Step + l.length := by
  induction l generalizing e with
  | nil =>
    refine ⟨rfl, ?_⟩
    intro g hg
    simp only [List.getLast?_singleton, Option.some.injEq] at hg
    subst hg
    simp
  | cons a l ih =>
    rw [List.chain_cons] at h
    obtain ⟨h1, h2⟩ := ih a h.2
    have ha := h.1.1
    constructor
    · rw [List.map_cons, h1, List.length_cons, List.range_succ_eq_map, List.map_cons,
        List.map_map]
      congr 1
      · simp [ha]
      · apply List.map_congr_left
        intro i _
        simp only [Function.comp, Nat.cast_succ]
        omega
    · intro g hg
      rw [List.getLast?_cons_cons] at hg
      rw [h2 g hg, ha, List.length_cons]
      push_cast
      omega

/-- C17 (amended): on a board whose frontier holds only a root with step 0, no parent, a
`MovePiece` of empty label and pieces with non-empty, pairwise different labels, if `Solve`
returns a list without error then the list is a genuine path to a final frontier
arrangement `g`: its length is `g.Step`, its step counters are 1, 2, ..., n, and every
entry is its predecessor (the root for the first) with one piece, labelled
`MovePiece.Label`, shifted one or two cells in `MoveDirection`; and the backward walk
returns from every frontier arrangement (no absent parent is dereferenced). -/
theorem Solve_genuine_path (fuel : Nat) (b b2 : Board) (root : State) (res : List State)
    (hb : b.States = [root]) (hpar : root.Parent = none) (hstep : root.Step = 0)
    (hmp : root.MovePiece.Label = "") (hne : ∀ p ∈ root.Pieces, p.Label ≠ "")
    (hlab : (root.Pieces.map (fun p => p.Label)).Nodup)
    (h : Solve fuel b = some ((res, none), b2)) :
    ∃ g, g ∈ b2.States ∧ isFinal g = true ∧ (root :: res).getLast? = some g ∧
      (res.length : Int) = g.Step ∧
      res.map (fun e => e.Step) = (List.range res.length).map (fun (i : Nat) => (i : Int) + 1) ∧
      List.Chain UnitStep root res ∧
      ∀ t ∈ b2.States, ∃ r, reconstruct t = some r := by
  obtain ⟨n, bn, hsc, _, hend⟩ := solveLoop_spec fuel 0 b _ b2 h
  rcases hend with ⟨_, hout, _⟩ | ⟨g, r, hg, hfin, hrec, hout, rfl⟩
  · simp at hout
  · simp only [Prod.mk.injEq, and_true] at hout
    subst hout
    have hinv := scanned_pathInv root hlab n 0 b bn (pathInv_init root b hb hpar) hsc
    have hnode : Node coalesceSide root g := hinv.1 g (List.get?_mem hg)
    obtain ⟨e, l, he, htr, rfl⟩ := reconstruct_eq_reverse (Node coalesceSide root) UnitStep
      (fun t n ht hh => ⟨(ht.hop_step hpar hh).1,
        ht.hop_succ hpar hh, ht.hop_between hpar hlab hh⟩)
      (fun _ _ hps => by have := hps.1; omega) g _ hnode hrec
    have : e = root := he.eq_root_of_parent_none htr.end_parent
    subst this
    obtain ⟨hchain, hlast⟩ := htr.chain
    obtain ⟨hsteps, hend⟩ := chain_unit_steps e l.reverse hchain
    refine ⟨g, List.get?_mem hg, hfin, hlast, ?_, ?_, hchain, ?_⟩
    · rw [hend g hlast, hstep]
      simp
    · rw [hsteps, hstep]
      apply List.map_congr_left
      intro i _
      omega
    · intro t ht
      exact reconstruct_total hpar (by omega) (noRootMove_of_label e hmp hne) t (hinv.1 t ht)

/-- Witness for C17: `hopBoard`, where the returned list has two entries, steps 1 and 2. -/
theorem Solve_genuine_path_witness :
    Solve 10 hopBoard = some ((hopResult, none), hopSolved) ∧ hopResult.length = 2 ∧
    ∃ g, g ∈ hopSolved.States ∧ isFinal g = true ∧
      (hopBoard.State :: hopResult).getLast? = some g ∧
      (hopResult.length : Int) = g.Step ∧
      hopResult.map (fun e => e.Step)
        = (List.range hopResult.length).map (fun (i : Nat) => (i : Int) + 1) ∧
      List.Chain UnitStep hopBoard.State hopResult ∧
      ∀ t ∈ hopSolved.States, ∃ r, reconstruct t = some r :=
  ⟨by decide, by decide,
   Solve_genuine_path 10 hopBoard hopSolved hopBoard.State hopResult rfl rfl rfl rfl
     (by decide) (by decide) (by decide)⟩

set_option maxRecDepth 1000000 in
/-- Counterexample to C17 as stated: `dupBoard` has a root with step 0, no parent and pieces
with non-empty labels (three disjoint rectangles inside the grid), two of them labelled "b".
`Solve` returns a list of three entries without error, but their steps are 2, 3, 4 (not 1,
2, 3; the goal has step 4), and the first entry differs from the root in two pieces: both
pieces labelled "b" are shifted right. -/
theorem Solve_path_duplicate_label_counterexample :
    dupBoard.States = [dupBoard.State] ∧ dupBoard.State.Parent = none ∧
    dupBoard.State.Step = 0 ∧ (∀ p ∈ dupBoard.State.Pieces, p.Label ≠ "") ∧
    (∀ p ∈ dupPieces, p.IsRectAt (minCorner p.Blocks).1 (minCorner p.Blocks).2) ∧
    dupPieces.Pairwise Piece.DisjointFrom ∧
    Solve 62 dupBoard = some ((dupResult, none), dupSolved) ∧
    dupResult.map (fun e => (e.Step, e.MovePiece.Label, e.MoveDirection, e.Pieces))
      = [ (2, "b", "right", [ ⟨"b", 1, 1, [⟨1, 0⟩]⟩,
              ⟨"b", 2, 2, [⟨2, 1⟩, ⟨3, 1⟩, ⟨2, 2⟩, ⟨3, 2⟩]⟩, ⟨"c", 1, 1, [⟨0, 1⟩]⟩ ]),
            (3, "b", "down", [ ⟨"b", 1, 1, [⟨1, 1⟩]⟩,
              ⟨"b", 2, 2, [⟨2, 1⟩, ⟨3, 1⟩, ⟨2, 2⟩, ⟨3, 2⟩]⟩, ⟨"c", 1, 1, [⟨0, 1⟩]⟩ ]),
            (4, "b", "down", [ ⟨"b", 1, 1, [⟨1, 3⟩]⟩,
              ⟨"b", 2, 2, [⟨2, 1⟩, ⟨3, 1⟩, ⟨2, 2⟩, ⟨3, 2⟩]⟩, ⟨"c", 1, 1, [⟨0, 1⟩]⟩ ]) ] :=
  ⟨rfl, rfl, rfl, by decide, by decide, by decide, by decide, by decide⟩

theorem canMove_true_destFree {s : State} {p : Piece} {m : Move} {M : Matrix}
    (ha : Arrangement s.Pieces) (hp : p ∈ s.Pieces) (hm : m ∈ getMoves)
    (hM : getMatrix s = some M)
    (hc : canMove s p M (getPieceStartingBlock s p).1 m = some true) :
    DestFree s.Pieces p m := by
  obtain ⟨M2, hM2, hc2⟩ := canMove_decides_destFree s p m ha.1 ha.2.1 hp hm
  rw [hM] at hM2
  cases hM2
  rw [hc] at hc2
  simpa using hc2.symm

/-- Every arrangement an expansion can append is valid, with the labels, widths and heights
of the expanded arrangement at the same indices. -/
theorem Successor.arrangement {T : ZTable} {s t : State} (ha : Arrangement s.Pieces)
    (h : Successor T s t) : Arrangement t.Pieces ∧ shapes t.Pieces = shapes s.Pieces := by
  cases h with
  | single idx piece m h M hget hm hM hc hh =>
    have hd := canMove_true_destFree ha (List.get?_mem hget) hm hM hc
    exact ⟨arrangement_step ha idx piece m hget hd, shapes_set _ _ _ _ hget⟩
  | double idx piece m h M M1 h2 hget hm hM hc hh hM1 hc1 hh2 =>
    have hd := canMove_true_destFree ha (List.get?_mem hget) hm hM hc
    have ha1 : Arrangement (stepState s idx piece m h).Pieces :=
      arrangement_step ha idx piece m hget hd
    have hget1 : (stepState s idx piece m h).Pieces.get? idx = some (shiftPiece piece m) :=
      get?_set_self _ _ piece _ hget
    have hc2 : canMove (stepState s idx piece m h) (shiftPiece piece m) M1
        (getPieceStartingBlock (stepState s idx piece m h) (shiftPiece piece m)).1 m
          = some true := hc1
    have hd1 := canMove_true_destFree ha1 (List.get?_mem hget1) hm hM1 hc2
    exact ⟨arrangement_step ha1 idx (shiftPiece piece m) m hget1 hd1,
      (shapes_set _ _ _ _ hget1).trans (shapes_set _ _ _ _ hget)⟩

/-- C19 (amended): validity is preserved by expansion. If `s` is a valid arrangement (every
piece has width and height 1 or 2, its blocks are the Width x Height rectangle at its anchor
inside the 4x5 grid, the pieces are pairwise disjoint, their labels pairwise different and
none of them the empty-cell marker "_") and the hash table has the allocated shape, then
`findNewStates(s)` returns without an out-of-range access, and every arrangement it appends,
single-step or double-step, is valid again with the same labels, widths and heights at the
same indices. -/
theorem findNewStates_valid (b : Board) (s : State) (hT : TableOK b.ZobristHash)
    (ha : Arrangement s.Pieces) :
    ∃ b2 new, findNewStates b s = some b2 ∧ b2.States = b.States ++ new ∧
      ∀ t ∈ new, Arrangement t.Pieces ∧ shapes t.Pieces = shapes s.Pieces := by
  obtain ⟨b2, h⟩ := findNewStates_total b s ha hT
  obtain ⟨⟨new, rfl, _, hsucc, _⟩, _⟩ := findNewStates_expands b b2 s h
  exact ⟨_, new, h, rfl, fun t ht => (hsucc t ht).arrangement ha⟩

/-- Witness for C19: expanding the starting layout on `demoBoard` appends six arrangements,
all valid. -/
theorem findNewStates_valid_witness :
    findNewStates demoBoard demoBoard.State = some demoExpanded ∧
    demoExpanded.States.length = 7 ∧
    ∃ b2 new, findNewStates demoBoard demoBoard.State = some b2 ∧
      b2.States = demoBoard.States ++ new ∧
      ∀ t ∈ new, Arrangement t.Pieces ∧ shapes t.Pieces = shapes demoBoard.State.Pieces :=
  ⟨by decide, by decide,
   findNewStates_valid demoBoard demoBoard.State (by decide) arrangement_initPieces⟩

/-- Counterexample to C19 as stated: in `markerPieces` every piece is a 1x1 rectangle inside
the grid, the pieces are disjoint and their labels differ, but the second label is "_", which
the occupancy grid reads as an empty cell: the expansion moves piece `a` right onto the cell
of the other piece: the third arrangement it appends has two pieces on cell (1,0). -/
theorem findNewStates_marker_label_counterexample :
    (∀ p ∈ markerPieces, p.IsRectAt (minCorner p.Blocks).1 (minCorner p.Blocks).2 ∧
      p.Width ≤ 2 ∧ p.Height ≤ 2) ∧
    markerPieces.Pairwise Piece.DisjointFrom ∧
    markerPieces.Pairwise (fun p q => p.Label ≠ q.Label) ∧
    markerFrontier.length = 9 ∧
    (markerFrontier.get? 3).map (fun t => t.Pieces)
      = some [⟨"a", 1, 1, [⟨1, 0⟩]⟩, ⟨"_", 1, 1, [⟨1, 0⟩]⟩] :=
  ⟨by decide, by decide, by decide, by decide, by decide⟩

theorem nodup_labels_of_arrangement {P : List Piece} (ha : Arrangement P) :
    (P.map (fun p => p.Label)).Nodup := by
  unfold List.Nodup
  rw [List.pairwise_map]
  exact ha.2.1.1

theorem tableBelow_demoTable : TableBelow demoTable 31 := by
  unfold TableBelow
  decide

/-- C20: on a board whose frontier holds only a valid root (a valid arrangement without
parent, with step 0, that no move coalesces with) and whose seen set is empty, over any hash
table of the allocated shape with entries below `2 ^ N`, `Solve` terminates: with fuel
`2 ^ N + 2` or more it returns, after at most `2 ^ N + 1` frontier entries (every appended
arrangement carries a signature below `2 ^ N` not seen before), either with the error, no
frontier arrangement being final, or without error, some frontier arrangement being
final. -/
theorem Solve_terminates (T : ZTable) (N : Nat) (b : Board) (root : State)
    (hT : TableOK T) (hTb : TableBelow T N) (hN : root.Hash < 2 ^ N)
    (ht : b.ZobristHash = T) (hb : b.States = [root]) (hv : b.VisitedStatesHashes = [])
    (ha : Arrangement root.Pieces) (hpar : root.Parent = none) (hstep : root.Step = 0)
    (hq : NoRootMove root) :
    ∃ out b2, (∀ fuel, 2 ^ N + 2 ≤ fuel → Solve fuel b = some (out, b2)) ∧
      b2.States.length ≤ 2 ^ N + 1 ∧
      ((out.2 = some "Cannot solve" ∧ ∀ s ∈ b2.States, isFinal s = false) ∨
       (out.2 = none ∧ ∃ g ∈ b2.States, isFinal g = true)) := by
  have hlab := nodup_labels_of_arrangement ha
  have hI : ScanInv T N root b := scanInv_init T N root b hb hv ht hpar hN
  obtain ⟨r, hr⟩ := solveLoop_total hlab hTb hT ha hpar (by omega) hq (2 ^ N + 2) 0 b hI
    (Nat.zero_le _) (by omega)
  obtain ⟨out, b2⟩ := r
  obtain ⟨n, bn, hsc, hbefore, hend⟩ := solveLoop_spec _ 0 b out b2 hr
  have hIn := scanned_scanInv hlab hTb n 0 b bn hI hsc
  have hlen := scanInv_length hIn
  refine ⟨out, b2, ?_, ?_, ?_⟩
  · intro fuel hfuel
    obtain ⟨k, rfl⟩ := Nat.exists_eq_add_of_le hfuel
    exact solveLoop_fuel _ k 0 b _ hr
  · rcases hend with ⟨_, _, rfl⟩ | ⟨g, r, _, _, _, _, rfl⟩
    · exact hlen
    · exact hlen
  · rcases hend with ⟨hnone, hout, rfl⟩ | ⟨g, r, hg, hfin, _, hout, rfl⟩
    · left
      refine ⟨by rw [hout], ?_⟩
      intro s hs
      simp only [zero_add] at hnone hbefore
      obtain ⟨j, hj⟩ := List.get?_of_mem hs
      have hle : b2.States.length ≤ n := by simpa using List.get?_eq_none.1 hnone
      have hjl : j < b2.States.length := by
        by_contra hc
        rw [List.get?_eq_none.2 (by omega)] at hj
        cases hj
      obtain ⟨s2, hs2, hsf⟩ := hbefore j (by omega)
      rw [hj] at hs2
      cases hs2
      exact hsf
    · right
      simp only [zero_add] at hg
      exact ⟨by rw [hout], g, List.get?_mem hg, hfin⟩

/-- Witness for C20: the starting layout on `demoBoard`, whose table has 31-bit entries. -/
theorem Solve_terminates_witness :
    ∃ out b2, (∀ fuel, 2 ^ 31 + 2 ≤ fuel → Solve fuel demoBoard = some (out, b2)) ∧
      b2.States.length ≤ 2 ^ 31 + 1 ∧
      ((out.2 = some "Cannot solve" ∧ ∀ s ∈ b2.States, isFinal s = false) ∨
       (out.2 = none ∧ ∃ g ∈ b2.States, isFinal g = true)) :=
  Solve_terminates demoTable 31 demoBoard demoBoard.State (by decide) tableBelow_demoTable
    (by decide) rfl rfl rfl arrangement_initPieces rfl rfl (noRootMove_of_direction _ rfl)

theorem shape_explicit {M : Matrix} (h : Shape M) :
    ∃ r0 r1 r2 r3 r4 : List String, M = [r0, r1, r2, r3, r4] ∧
      ∀ r ∈ [r0, r1, r2, r3, r4], ∃ a b c d : String, r = [a, b, c, d] := by
  obtain ⟨hlen, hrows⟩ := h
  match M, hlen with
  | [r0, r1, r2, r3, r4], _ =>
    refine ⟨r0, r1, r2, r3, r4, rfl, ?_⟩
    intro r hr
    have := hrows r hr
    match r, this with
    | [a, b, c, d], _ => exact ⟨a, b, c, d, rfl⟩

theorem print_of_matrix (b : Board) (M : Matrix) (hw : b.Width = 4) (hh : b.Height = 5)
    (hs : Shape M) :
    (writeRows M b.Width b.Height (writeBorder "" (b.Width + 2) ++ "\n")).bind (fun buf =>
        some (writeBottom buf (b.Width + 2) ++ "\n"))
      = some (String.join (renderLines M)) := by
  obtain ⟨r0, r1, r2, r3, r4, rfl, hr⟩ := shape_explicit hs
  obtain ⟨a0, b0, c0, d0, rfl⟩ := hr r0 (by simp)
  obtain ⟨a1, b1, c1, d1, rfl⟩ := hr r1 (by simp)
  obtain ⟨a2, b2, c2, d2, rfl⟩ := hr r2 (by simp)
  obtain ⟨a3, b3, c3, d3, rfl⟩ := hr r3 (by simp)
  obtain ⟨a4, b4, c4, d4, rfl⟩ := hr r4 (by simp)
  rw [hw, hh]
  simp [writeRows, writeCells, writeBorder, writeBottom, intRange, index, renderLines,
    rowLine, String.join, String.append_assoc]

theorem renderLines_terminated (M : Matrix) :
    ∀ line ∈ renderLines M, ∃ pre : String, line = pre ++ "\n" := by
  intro line hl
  simp only [renderLines, List.mem_cons, List.mem_append, List.mem_map, List.mem_singleton,
    List.not_mem_nil, or_false] at hl
  rcases hl with rfl | ⟨row, _, rfl⟩ | rfl
  · exact ⟨"X X X X X X ", rfl⟩
  · refine ⟨"X " ++ String.join (row.map (fun c => c ++ " ")) ++ "X ", ?_⟩
    unfold rowLine
    rw [String.append_assoc ("X " ++ String.join (row.map (fun c => c ++ " "))) "X " "\n"]
    rfl
  · exact ⟨"X X Z Z X X ", rfl⟩

/-- C15: for a board with `Width` 4 and `Height` 5 and every arrangement whose blocks are in
bounds, `Print` returns seven newline-terminated lines: the top border "X X X X X X ", for
each row r = 0..4 the line "X " followed by the four cells of row r each followed by a space
and then "X ", and the bottom border "X X Z Z X X ". The cells are those of
`getMatrix(state)`: "_" where no piece holds a block, and the label of a piece holding a
block there otherwise. -/
theorem Print_spec (b : Board) (s : State) (hw : b.Width = 4) (hh : b.Height = 5)
    (hin : ∀ p ∈ s.Pieces, ∀ c ∈ p.Blocks, c.Inside) :
    ∃ M, getMatrix s = some M ∧ Shape M ∧
      Print b s = some (String.join (renderLines M)) ∧
      (renderLines M).length = 7 ∧
      (∀ line ∈ renderLines M, ∃ pre : String, line = pre ++ "\n") ∧
      ∀ y x : Int, 0 ≤ y → y < 5 → 0 ≤ x → x < 4 →
        ((∀ p ∈ s.Pieces, (⟨x, y⟩ : Block) ∉ p.Blocks) → cellAt M y x = some "_") ∧
        ((∃ p ∈ s.Pieces, (⟨x, y⟩ : Block) ∈ p.Blocks) →
          ∃ p ∈ s.Pieces, (⟨x, y⟩ : Block) ∈ p.Blocks ∧ cellAt M y x = some p.Label) := by
  obtain ⟨M, e, hs, hc⟩ := piecesFold_spec s.Pieces emptyMatrix shape_emptyMatrix hin
  refine ⟨M, e, hs, ?_, ?_, renderLines_terminated M, ?_⟩
  · unfold Print
    rw [e, Option.some_bind]
    exact print_of_matrix b M hw hh hs
  · simp [renderLines, hs.1]
  · intro y x hy0 hy1 hx0 hx1
    obtain ⟨ca, cb⟩ := hc y x
    refine ⟨fun hfree => ?_, cb⟩
    rw [ca hfree]
    exact cellAt_emptyMatrix y x hy0 hy1 hx0 hx1

/-- Witness for C15: the rendering of the starting layout. -/
theorem Print_spec_witness :
    Print demoBoard demoBoard.State = some
      "X X X X X X \nX a b b c X \nX a b b c X \nX d e e f X \nX d g h f X \nX i _ _ j X \nX X Z Z X X \n" ∧
    ∃ M, getMatrix demoBoard.State = some M ∧ Shape M ∧
      Print demoBoard demoBoard.State = some (String.join (renderLines M)) ∧
      (renderLines M).length = 7 ∧
      (∀ line ∈ renderLines M, ∃ pre : String, line = pre ++ "\n") ∧
      ∀ y x : Int, 0 ≤ y → y < 5 → 0 ≤ x → x < 4 →
        ((∀ p ∈ demoBoard.State.Pieces, (⟨x, y⟩ : Block) ∉ p.Blocks) →
          cellAt M y x = some "_") ∧
        ((∃ p ∈ demoBoard.State.Pieces, (⟨x, y⟩ : Block) ∈ p.Blocks) →
          ∃ p ∈ demoBoard.State.Pieces, (⟨x, y⟩ : Block) ∈ p.Blocks ∧
            cellAt M y x = some p.Label) :=
  ⟨by decide, Print_spec demoBoard demoBoard.State rfl rfl (by decide)⟩

/-- C21: for every arrangement and every piece argument, if `q` is the first piece of the
arrangement carrying the label of the argument, `getPieceStartingBlock` returns without
error the result of its minimum loop over the blocks of `q`, which for non-empty in-bounds
blocks is the block (min X, min Y) over the blocks of `q`; if no piece of the arrangement
carries that label it returns the zero block and the error. -/
theorem getPieceStartingBlock_spec (s : State) (piece : Piece) :
    (∀ q, s.Pieces.find? (fun p => decide (p.Label = piece.Label)) = some q →
      getPieceStartingBlock s piece
          = (⟨(minCorner q.Blocks).1, (minCorner q.Blocks).2⟩, none) ∧
      (q.Blocks ≠ [] → (∀ c ∈ q.Blocks, c.Inside) →
        HasAnchor q (getPieceStartingBlock s piece).1.X (getPieceStartingBlock s piece).1.Y)) ∧
    ((∃ p ∈ s.Pieces, p.Label = piece.Label) →
      ∃ q, s.Pieces.find? (fun p => decide (p.Label = piece.Label)) = some q) ∧
    ((∀ p ∈ s.Pieces, p.Label ≠ piece.Label) →
      getPieceStartingBlock s piece
        = (⟨0, 0⟩, some "Cannot find piece starting block")) := by
  refine ⟨?_, ?_, ?_⟩
  · intro q hq
    have e : getPieceStartingBlock s piece
        = (⟨(minCorner q.Blocks).1, (minCorner q.Blocks).2⟩, none) := by
      unfold getPieceStartingBlock
      rw [startingBlockLoop_find, hq]
    refine ⟨e, ?_⟩
    intro hne hin
    rw [e]
    exact (minCorner_eq_iff q hne hin _ _).1 rfl
  · rintro ⟨p, hp, hl⟩
    cases hf : s.Pieces.find? (fun p => decide (p.Label = piece.Label)) with
    | some q => exact ⟨q, rfl⟩
    | none =>
      have := List.find?_eq_none.1 hf p hp
      simp [hl] at this
  · intro hno
    unfold getPieceStartingBlock
    rw [startingBlockLoop_find]
    have : s.Pieces.find? (fun p => decide (p.Label = piece.Label)) = none := by
      rw [List.find?_eq_none]
      intro p hp
      simpa using hno p hp
    rw [this]

/-- Witness for C21: piece `b` of the starting layout has starting block (1, 0), and a piece
labelled "z" is not found. -/
theorem getPieceStartingBlock_spec_witness :
    getPieceStartingBlock (initState 0) ⟨"b", 2, 2, [⟨1, 0⟩, ⟨2, 0⟩, ⟨1, 1⟩, ⟨2, 1⟩]⟩
      = (⟨1, 0⟩, none) ∧
    getPieceStartingBlock (initState 0) ⟨"z", 1, 1, []⟩
      = (⟨0, 0⟩, some "Cannot find piece starting block") :=
  ⟨((getPieceStartingBlock_spec (initState 0)
        ⟨"b", 2, 2, [⟨1, 0⟩, ⟨2, 0⟩, ⟨1, 1⟩, ⟨2, 1⟩]⟩).1
      ⟨"b", 2, 2, [⟨1, 0⟩, ⟨2, 0⟩, ⟨1, 1⟩, ⟨2, 1⟩]⟩ (by decide)).1,
   (getPieceStartingBlock_spec (initState 0) ⟨"z", 1, 1, []⟩).2.2 (by decide)⟩

/-- C23: `getMoves` returns the four moves (0,1), (1,0), (0,-1), (-1,0) in that order, and
`getString` names a move by its sign pattern: "down" iff X = 0 and Y > 0, "up" iff X = 0
and Y < 0, "right" iff X > 0 and Y = 0, "left" iff X < 0 and Y = 0, and the empty string
iff both components are zero or both are nonzero; the four moves are named down, right, up,
left in order. -/
theorem getMoves_getString_spec :
    getMoves = [⟨0, 1⟩, ⟨1, 0⟩, ⟨0, -1⟩, ⟨-1, 0⟩] ∧
    getMoves.map Move.getString = ["down", "right", "up", "left"] ∧
    ∀ m : Move,
      (m.getString = "down" ↔ m.X = 0 ∧ m.Y > 0) ∧
      (m.getString = "up" ↔ m.X = 0 ∧ m.Y < 0) ∧
      (m.getString = "right" ↔ m.X > 0 ∧ m.Y = 0) ∧
      (m.getString = "left" ↔ m.X < 0 ∧ m.Y = 0) ∧
      (m.getString = "" ↔ (m.X = 0 ∧ m.Y = 0) ∨ (m.X ≠ 0 ∧ m.Y ≠ 0)) := by
  refine ⟨rfl, by decide, ?_⟩
  intro m
  unfold Move.getString
  by_cases h1 : m.X = 0 ∧ m.Y > 0
  · rw [if_pos h1]
    refine ⟨by simp [h1], ?_, ?_, ?_, ?_⟩
    · constructor
      · intro h; exact absurd h (by decide)
      · intro h; omega
    · constructor
      · intro h; exact absurd h (by decide)
      · intro h; omega
    · constructor
      · intro h; exact absurd h (by decide)
      · intro h; omega
    · constructor
      · intro h; exact absurd h (by decide)
      · intro h; omega
  · rw [if_neg h1]
    by_cases h2 : m.X = 0 ∧ m.Y < 0
    · rw [if_pos h2]
      refine ⟨?_, by simp [h2], ?_, ?_, ?_⟩
      · constructor
        · intro h; exact absurd h (by decide)
        · intro h; omega
      · constructor
        · intro h; exact absurd h (by decide)
        · intro h; omega
      · constructor
        · intro h; exact absurd h (by decide)
        · intro h; omega
      · constructor
        · intro h; exact absurd h (by decide)
        · intro h; omega
    · rw [if_neg h2]
      by_cases h3 : m.X > 0 ∧ m.Y = 0
      · rw [if_pos h3]
        refine ⟨?_, ?_, by simp [h3], ?_, ?_⟩
        · constructor
          · intro h; exact absurd h (by decide)
          · intro h; omega
        · constructor
          · intro h; exact absurd h (by decide)
          · intro h; omega
        · constructor
          · intro h; exact absurd h (by decide)
          · intro h; omega
        · constructor
          · intro h; exact absurd h (by decide)
          · intro h; omega
      · rw [if_neg h3]
        by_cases h4 : m.X < 0 ∧ m.Y = 0
        · rw [if_pos h4]
          refine ⟨?_, ?_, ?_, by simp [h4], ?_⟩
          · constructor
            · intro h; exact absurd h (by decide)
            · intro h; omega
          · constructor
            · intro h; exact absurd h (by decide)
            · intro h; omega
          · constructor
            · intro h; exact absurd h (by decide)
            · intro h; omega
          · constructor
            · intro h; exact absurd h (by decide)
            · intro h; omega
        · rw [if_neg h4]
          refine ⟨?_, ?_, ?_, ?_, ?_⟩
          · constructor
            · intro h; exact absurd h (by decide)
            · intro h; exact absurd h h1
          · constructor
            · intro h; exact absurd h (by decide)
            · intro h; exact absurd h h2
          · constructor
            · intro h; exact absurd h (by decide)
            · intro h; exact absurd h h3
          · constructor
            · intro h; exact absurd h (by decide)
            · intro h; exact absurd h h4
          · constructor
            · intro _; omega
            · intro _; rfl

/-- Witness for C23: the names of the four moves and of the moves (0,0) and (1,1). -/
theorem getMoves_getString_spec_witness :
    getMoves.map Move.getString = ["down", "right", "up", "left"] ∧
    (⟨0, 0⟩ : Move).getString = "" ∧ (⟨1, 1⟩ : Move).getString = "" ∧
    ((⟨0, 5⟩ : Move).getString = "down" ↔ (⟨0, 5⟩ : Move).X = 0 ∧ (⟨0, 5⟩ : Move).Y > 0) :=
  ⟨getMoves_getString_spec.2.1, by decide, by decide,
   (getMoves_getString_spec.2.2 ⟨0, 5⟩).1⟩

theorem flatten_eq_cells {M : Matrix} (hs : Shape M) :
    M.flatten = (rectCells 0 0 4 5).map (fun c => (cellAt M c.Y c.X).getD "") := by
  obtain ⟨r0, r1, r2, r3, r4, rfl, hr⟩ := shape_explicit hs
  obtain ⟨a0, b0, c0, d0, rfl⟩ := hr r0 (by simp)
  obtain ⟨a1, b1, c1, d1, rfl⟩ := hr r1 (by simp)
  obtain ⟨a2, b2, c2, d2, rfl⟩ := hr r2 (by simp)
  obtain ⟨a3, b3, c3, d3, rfl⟩ := hr r3 (by simp)
  obtain ⟨a4, b4, c4, d4, rfl⟩ := hr r4 (by simp)
  rfl

theorem rectCells_length (ax ay : Int) (w h : Nat) (hw : w ≤ 2) (hh : h ≤ 2) :
    (rectCells ax ay w h).length = w * h := by
  interval_cases w <;> interval_cases h <;> rfl

theorem blocks_length {P : List Piece} (ha : Arrangement P) :
    ((P.flatMap (fun p => p.Blocks)).length : Int)
      = (P.map (fun p => p.Width * p.Height)).sum := by
  have key : ∀ l : List Piece, (∀ p ∈ l, p ∈ P) →
      ((l.flatMap (fun p => p.Blocks)).length : Int)
        = (l.map (fun p => p.Width * p.Height)).sum := by
    intro l
    induction l with
    | nil => intro _; rfl
    | cons p ps ih =>
      intro hmem
      have hp := hmem p (List.mem_cons_self _ _)
      obtain ⟨ax, ay, hr⟩ := ha.1.1 p hp
      obtain ⟨hw, hh, _, _, _, _, hperm⟩ := hr
      have hs := ha.2.2 p hp
      have hlen : p.Blocks.length = p.Width.toNat * p.Height.toNat := by
        rw [hperm.length_eq]
        exact rectCells_length ax ay _ _ (by omega) (by omega)
      rw [List.flatMap_cons, List.length_append, List.map_cons, List.sum_cons, Nat.cast_add,
        ih (fun q hq => hmem q (List.mem_cons_of_mem _ hq)), hlen, Nat.cast_mul,
        Int.toNat_of_nonneg (by omega), Int.toNat_of_nonneg (by omega)]
  exact key P (fun _ hp => hp)

theorem gridCells_nodup : (rectCells 0 0 4 5).Nodup := by decide

/-- On a valid arrangement the number of grid cells held by a piece is the total number of
blocks. -/
theorem occupied_count {P : List Piece} (ha : Arrangement P) :
    (rectCells 0 0 4 5).countP (fun c => decide (c ∈ P.flatMap (fun p => p.Blocks)))
      = (P.flatMap (fun p => p.Blocks)).length := by
  rw [List.countP_eq_length_filter]
  apply List.Perm.length_eq
  rw [List.perm_ext_iff_of_nodup (gridCells_nodup.filter _) (blocks_nodup ha)]
  intro c
  simp only [List.mem_filter, decide_eq_true_eq, and_iff_right_iff_imp]
  intro hc
  obtain ⟨p, hp, hcp⟩ := List.mem_flatMap.1 hc
  have hin := (ha.1.1 p hp).inside c hcp
  rw [mem_rectCells]
  unfold Block.Inside at hin
  simp only [Nat.cast_ofNat]
  omega

/-- C22: for every arrangement whose blocks are in bounds, `getMatrix` returns a grid of 5
rows of 4 columns whose entry at `[y][x]` is "_" when no piece holds a block at (x, y) and
the label of a piece holding a block there otherwise; for a valid arrangement the number of
"_" entries is 20 minus the sum of Width * Height over the pieces. -/
theorem getMatrix_grid (s : State) (hin : ∀ p ∈ s.Pieces, ∀ c ∈ p.Blocks, c.Inside) :
    ∃ M, getMatrix s = some M ∧ Shape M ∧
      (∀ y x : Int, 0 ≤ y → y < 5 → 0 ≤ x → x < 4 →
        ((∀ p ∈ s.Pieces, (⟨x, y⟩ : Block) ∉ p.Blocks) → cellAt M y x = some "_") ∧
        ((∃ p ∈ s.Pieces, (⟨x, y⟩ : Block) ∈ p.Blocks) →
          ∃ p ∈ s.Pieces, (⟨x, y⟩ : Block) ∈ p.Blocks ∧ cellAt M y x = some p.Label)) ∧
      (Arrangement s.Pieces →
        (emptyCount M : Int) = 20 - (s.Pieces.map (fun p => p.Width * p.Height)).sum) := by
  obtain ⟨M, e, hs, hc⟩ := piecesFold_spec s.Pieces emptyMatrix shape_emptyMatrix hin
  have hcell : ∀ y x : Int, 0 ≤ y → y < 5 → 0 ≤ x → x < 4 →
      ((∀ p ∈ s.Pieces, (⟨x, y⟩ : Block) ∉ p.Blocks) → cellAt M y x = some "_") ∧
      ((∃ p ∈ s.Pieces, (⟨x, y⟩ : Block) ∈ p.Blocks) →
        ∃ p ∈ s.Pieces, (⟨x, y⟩ : Block) ∈ p.Blocks ∧ cellAt M y x = some p.Label) := by
    intro y x hy0 hy1 hx0 hx1
    obtain ⟨ca, cb⟩ := hc y x
    refine ⟨fun hfree => ?_, cb⟩
    rw [ca hfree]
    exact cellAt_emptyMatrix y x hy0 hy1 hx0 hx1
  refine ⟨M, e, hs, hcell, ?_⟩
  intro ha
  have hcount : emptyCount M = (rectCells 0 0 4 5).countP
      (fun c => !decide (c ∈ s.Pieces.flatMap (fun p => p.Blocks))) := by
    unfold emptyCount
    rw [flatten_eq_cells hs, List.count, List.countP_map]
    apply List.countP_congr
    intro c hcm
    rw [mem_rectCells] at hcm
    simp only [Nat.cast_ofNat] at hcm
    obtain ⟨h1, h2⟩ := hcell c.Y c.X (by omega) (by omega) (by omega) (by omega)
    simp only [Function.comp, beq_iff_eq, Bool.not_eq_true', decide_eq_false_iff_not,
      List.mem_flatMap, not_exists, not_and]
    constructor
    · intro hval p hp hcp
      obtain ⟨q, hq, _, hlab⟩ := h2 ⟨p, hp, hcp⟩
      rw [hlab] at hval
      simp only [Option.getD_some] at hval
      exact ha.2.1.2 q hq hval
    · intro hfree
      rw [h1 hfree]
      rfl
  have hsplit := List.length_eq_countP_add_countP
    (fun c => decide (c ∈ s.Pieces.flatMap (fun p => p.Blocks))) (rectCells 0 0 4 5)
  have hlen : (rectCells 0 0 4 5).length = 20 := by decide
  rw [hlen, occupied_count ha] at hsplit
  have hneg : (rectCells 0 0 4 5).countP
      (fun a => decide ¬ (decide (a ∈ s.Pieces.flatMap (fun p => p.Blocks)) = true))
        = (rectCells 0 0 4 5).countP
      (fun c => !decide (c ∈ s.Pieces.flatMap (fun p => p.Blocks))) := by
    apply List.countP_congr
    intro c _
    simp
  rw [hneg, ← hcount] at hsplit
  rw [← blocks_length ha]
  omega

/-- Witness for C22: the grid of the starting layout has two "_" entries. -/
theorem getMatrix_grid_witness :
    getMatrix (initState 0) = some initMatrix ∧ emptyCount initMatrix = 2 ∧
    ∃ M, getMatrix (initState 0) = some M ∧ Shape M ∧
      (∀ y x : Int, 0 ≤ y → y < 5 → 0 ≤ x → x < 4 →
        ((∀ p ∈ (initState 0).Pieces, (⟨x, y⟩ : Block) ∉ p.Blocks) →
          cellAt M y x = some "_") ∧
        ((∃ p ∈ (initState 0).Pieces, (⟨x, y⟩ : Block) ∈ p.Blocks) →
          ∃ p ∈ (initState 0).Pieces, (⟨x, y⟩ : Block) ∈ p.Blocks ∧
            cellAt M y x = some p.Label)) ∧
      (Arrangement (initState 0).Pieces →
        (emptyCount M : Int)
          = 20 - ((initState 0).Pieces.map (fun p => p.Width * p.Height)).sum) :=
  ⟨by decide, by decide, getMatrix_grid (initState 0) (by decide)⟩

end Klotski
